import Mathlib

/-!
Verification development for the `inliner` HTML tokenizer / forgiving parser.

The embedding models `src/html/token.rs` (tokenizer and text merger) and
`src/html/parse.rs` (parser, renderer, depth-first traversal) over `List Char`.
Strings are modelled as lists of characters; Rust's `HashMap<String, String>`
attribute map is modelled as an association list built by last-wins insertion,
which fixes a deterministic iteration order (Rust iterates a given map in an
unspecified but fixed order; the association-list order plays that role here).
Rust's `char::is_alphabetic` is modelled on its ASCII fragment (every input in
the claims and tests is ASCII); `char::is_whitespace` is modelled with the full
Unicode White_Space list that Rust uses.
-/

namespace Inliner

abbrev Str := List Char

/-- `char::is_whitespace` of Rust: the Unicode White_Space property. -/
def isWSRust (c : Char) : Bool :=
  c = ' ' || c = '\t' || c = '\n' || c = '\x0b' || c = '\x0c' || c = '\r' ||
  c = '\u0085' || c = '\u00A0' || c = '\u1680' ||
  ('\u2000' ≤ c && c ≤ '\u200A') ||
  c = '\u2028' || c = '\u2029' || c = '\u202F' || c = '\u205F' || c = '\u3000'

/-- `char::is_alphabetic` of Rust, restricted to ASCII letters (all inputs of
interest are ASCII). -/
def isAlphaRust (c : Char) : Bool :=
  ('a' ≤ c && c ≤ 'z') || ('A' ≤ c && c ≤ 'Z')

/-- `str::trim_start_matches(c)`: drop every leading occurrence of `c`. -/
def trimStartChar (c : Char) (s : Str) : Str :=
  s.dropWhile (fun d => d = c)

/-- `str::trim_end_matches(c)`: drop every trailing occurrence of `c`. -/
def trimEndChar (c : Char) (s : Str) : Str :=
  (trimStartChar c s.reverse).reverse

/-- `str::trim_start_matches("</")`: drop every leading occurrence of `</`. -/
def trimLtSlashRep : Str → Str
  | c :: d :: rest => if c = '<' && d = '/' then trimLtSlashRep rest else c :: d :: rest
  | s => s

/-- `str::trim_start`. -/
def trimStartWS (s : Str) : Str :=
  s.dropWhile isWSRust

/-- `str::trim_end`. -/
def trimEndWS (s : Str) : Str :=
  (trimStartWS s.reverse).reverse

/-- `str::trim`. -/
def trimWS (s : Str) : Str :=
  trimEndWS (trimStartWS s)

/-- `str::split_whitespace`: maximal runs of non-whitespace characters. -/
def splitWSGo : Str → Str → List Str
  | [], acc => if acc = [] then [] else [acc.reverse]
  | c :: cs, acc =>
    if isWSRust c then
      (if acc = [] then [] else [acc.reverse]) ++ splitWSGo cs []
    else
      splitWSGo cs (c :: acc)

def splitWS (s : Str) : List Str :=
  splitWSGo s []

/-- `str::split("=")`: split at every `=`, keeping empty parts (never empty:
on input without `=` it yields the single whole part). -/
def splitOnEq : Str → List Str
  | [] => [[]]
  | c :: rest =>
    if c = '=' then [] :: splitOnEq rest
    else
      match splitOnEq rest with
      | [] => [[c]]
      | p :: ps => (c :: p) :: ps

/-- `str::contains("=\"")`. -/
def hasEqQuote : Str → Bool
  | c :: d :: rest => (c = '=' && d = '"') || hasEqQuote (d :: rest)
  | _ => false

/-- `str::starts_with("</")`. -/
def startsLtSlash : Str → Bool
  | c :: d :: _ => c = '<' && d = '/'
  | _ => false

/-- `literal.ends_with("/>")`. -/
def selfClosingLit (s : Str) : Bool :=
  match s.reverse with
  | c :: d :: _ => c = '>' && d = '/'
  | _ => false

/-- `ends_with(">")`. -/
def endsGt (s : Str) : Bool :=
  match s.reverse with
  | c :: _ => c = '>'
  | _ => false

/-! ## Tokens (`token.rs`) -/

/-- The attribute map: `HashMap<String, String>` modelled as an association
list with a fixed iteration order. -/
abbrev Attrs := List (Str × Str)

inductive TokKind where
  | openT (name : Str) (attributes : Attrs)
  | closeT (name : Str)
  | textT (content : Str)
deriving DecidableEq, Repr

structure Tok where
  kind : TokKind
  literal : Str
deriving DecidableEq, Repr

/-- `HashMap` insertion: replace the value of an existing key, else add the
binding (at the end, fixing the iteration order). -/
def insertAttr (m : Attrs) (kv : Str × Str) : Attrs :=
  if m.any (fun p => p.1 = kv.1) then
    m.map (fun p => if p.1 = kv.1 then (p.1, kv.2) else p)
  else
    m ++ [kv]

/-- One attribute word: `split("=")`, name is the first part, value the second
part (defaulting to empty) with surrounding double quotes stripped. -/
def attrOfWord (w : Str) : Str × Str :=
  match splitOnEq w with
  | [] => ([], [])
  | name :: rest => (name, trimEndChar '"' (trimStartChar '"' (rest.headD [])))

/-- A word passes the tag heuristic iff it contains `="` or is purely
alphabetic (`token.rs` lines 127-144). -/
def wordOk (w : Str) : Bool :=
  hasEqQuote w || w.all isAlphaRust

/-- Classify one buffered span that starts with `<` (`token.rs` lines 102-171):
a close tag if it starts with `</`, otherwise an open tag when the stripped,
whitespace-split words all pass the tag heuristic (and there is at least one
word), otherwise a text token. -/
def classifySpan (span : Str) : Tok :=
  if startsLtSlash span then
    { kind := .closeT (trimWS (trimEndChar '>' (trimLtSlashRep span))), literal := span }
  else
    match splitWS (trimEndChar '/' (trimEndChar '>'
        (trimStartChar '/' (trimStartChar '!' (trimStartChar '<' span))))) with
    | [] => { kind := .textT span, literal := span }
    | w :: ws =>
      if (w :: ws).all wordOk then
        { kind := .openT w (ws.foldl (fun m word => insertAttr m (attrOfWord word)) []),
          literal := span }
      else
        { kind := .textT span, literal := span }

/-- Split a chunk at every `<`: the prefix before the first `<`, and the
segments each starting with a `<` (the unwinding loop of `Tokenizer::next`). -/
def splitLt : Str → Str × List Str
  | [] => ([], [])
  | c :: rest =>
    let (pre, spans) := splitLt rest
    if c = '<' then ([], ('<' :: pre) :: spans) else (c :: pre, spans)

/-- Process one chunk ending in `>`: the prefix before the first `<` is a text
token, each `<`-segment is classified (`token.rs` lines 96-181, emission
order is prefix first, then segments left to right). -/
def processChunk (chunk : Str) : List Tok :=
  let ps := splitLt chunk
  (if ps.1 = [] then [] else [{ kind := .textT ps.1, literal := ps.1 }]) ++
    ps.2.map classifySpan

/-- `Tokenizer::next`: buffer characters until `>`, process the chunk; at end
of input flush the buffered characters as a final text token. -/
def tokenizeGo : Str → Str → List Tok
  | [], acc =>
    if acc = [] then [] else [{ kind := .textT acc.reverse, literal := acc.reverse }]
  | c :: cs, acc =>
    if c = '>' then processChunk (c :: acc).reverse ++ tokenizeGo cs []
    else tokenizeGo cs (c :: acc)

def tokenize (s : Str) : List Tok :=
  tokenizeGo s []

/-! ## Text merger (`TextMerger::next`) -/

mutual

/-- `TextMerger::next`: a text token absorbs every directly following text
token, concatenating contents and literals; other tokens pass through. -/
def mergeTokens : List Tok → List Tok
  | [] => []
  | { kind := .textT c, literal := l } :: rest => mergeRun c l rest
  | t :: rest => t :: mergeTokens rest

def mergeRun (c l : Str) : List Tok → List Tok
  | { kind := .textT c2, literal := l2 } :: rest => mergeRun (c ++ c2) (l ++ l2) rest
  | t :: rest => { kind := .textT c, literal := l } :: t :: mergeTokens rest
  | [] => [{ kind := .textT c, literal := l }]

end

/-- `Tokenizer::new(..).merged()`: the merged token stream of an input. -/
def mergedTokens (s : Str) : List Tok :=
  mergeTokens (tokenize s)

/-! ## DOM (`parse.rs`) -/

inductive Node where
  | text (content : Str)
  | tag (name : Str) (attributes : Attrs) (children : List Node)
deriving Repr

structure Dom where
  nodes : List Node
deriving Repr

abbrev PErr := Str

def closeErrMsg (name : Str) : PErr :=
  ("unexpected close tag: </").toList ++ name ++ ['>']

mutual

/-- `Parser::parse_node` (`parse.rs` lines 98-172), with explicit fuel (the
Rust recursion consumes the token iterator; fuel makes the recursion
structural; `parseTokens` supplies enough fuel, as proved below).
Returns the parsed node group and the unconsumed remainder of the stream. -/
def parseNodeF : Nat → Tok → List Tok → Option (Except PErr (List Node × List Tok))
  | 0, _, _ => none
  | fuel + 1, cur, rest =>
    match cur.kind with
    | .textT t =>
      if trimWS t = [] then some (.ok ([], rest))
      else some (.ok ([.text (trimWS t)], rest))
    | .closeT n => some (.error (closeErrMsg n))
    | .openT n attrs =>
      if selfClosingLit cur.literal then some (.ok ([.tag n attrs []], rest))
      else parseSibsF fuel n attrs [] rest

/-- The sibling loop of `parse_node` for a non-self-closing open tag
(`parse.rs` lines 117-168): accumulate sibling nodes until a close tag; a
matching close is consumed and the accumulated nodes become children, a
mismatched close is left unconsumed and the tag is returned childless with
the accumulated nodes as following siblings; end of input resolves like a
mismatch. -/
def parseSibsF : Nat → Str → Attrs → List Node → List Tok →
    Option (Except PErr (List Node × List Tok))
  | 0, _, _, _, _ => none
  | _ + 1, name, attrs, sibs, [] => some (.ok (.tag name attrs [] :: sibs, []))
  | fuel + 1, name, attrs, sibs, t :: rest =>
    match t.kind with
    | .closeT m =>
      if m = name then some (.ok ([.tag name attrs sibs], rest))
      else some (.ok (.tag name attrs [] :: sibs, t :: rest))
    | _ =>
      match parseNodeF fuel t rest with
      | none => none
      | some (.error e) => some (.error e)
      | some (.ok (ns, rest2)) => parseSibsF fuel name attrs (sibs ++ ns) rest2

/-- `Parser::parse` (`parse.rs` lines 86-94): feed every token to
`parse_node`, collecting the returned node groups. -/
def parseTopF : Nat → List Node → List Tok → Option (Except PErr (List Node))
  | 0, _, _ => none
  | _ + 1, acc, [] => some (.ok acc)
  | fuel + 1, acc, t :: rest =>
    match parseNodeF fuel t rest with
    | none => none
    | some (.error e) => some (.error e)
    | some (.ok (ns, rest2)) => parseTopF fuel (acc ++ ns) rest2

end

/-- `Parser::parse` with sufficient fuel. -/
def parseTokens (ts : List Tok) : Except PErr Dom :=
  match parseTopF (2 * ts.length + 2) [] ts with
  | none => .error []
  | some (.error e) => .error e
  | some (.ok ns) => .ok ⟨ns⟩

/-- Tokenize, merge, parse: the composition used by `html::inline`. -/
def parseInput (s : Str) : Except PErr Dom :=
  parseTokens (mergedTokens s)

/-! ## Rendering (`impl fmt::Display`, `parse.rs` lines 175-252) -/

/-- One rendered attribute: a bare name for an empty value, `name="value"`
otherwise. -/
def fmtAttr (kv : Str × Str) : Str :=
  if kv.2 = [] then kv.1 else kv.1 ++ '=' :: '"' :: kv.2 ++ ['"']

/-- The attribute fold: a space before every attribute, then `trim_end`. -/
def renderAttrs (attrs : Attrs) : Str :=
  trimEndWS (attrs.foldl (fun acc kv => acc ++ ' ' :: fmtAttr kv) [])

mutual

/-- `impl fmt::Display for Node`: text renders as its content; a childless
tag renders self-closing; a tag with children renders open tag, children
(each preceded by a space, the whole trimmed at the end), close tag. -/
def renderNode : Node → Str
  | .text t => t
  | .tag name attrs children =>
    match children with
    | [] => '<' :: name ++ renderAttrs attrs ++ ['/', '>']
    | c :: cs =>
      '<' :: name ++ renderAttrs attrs ++ ['>'] ++
        trimEndWS (renderKids (c :: cs)) ++
        '<' :: '/' :: name ++ ['>']

/-- The child fold of `Display for Node`: a space pushed before each child. -/
def renderKids : List Node → Str
  | [] => []
  | c :: cs => ' ' :: renderNode c ++ renderKids cs

end

/-- `impl fmt::Display for Dom`: each root node followed by a newline. -/
def renderRoots : List Node → Str
  | [] => []
  | n :: rest => renderNode n ++ '\n' :: renderRoots rest

def renderDom (d : Dom) : Str :=
  renderRoots d.nodes

/-! ## Traversal (`Dom::depth_first`, `parse.rs` lines 45-62)

The callback may mutate nodes through the `RefCell`; that external effect is
modelled by threading a state `σ` through the callback, which either updates
the state or fails. -/

mutual

/-- `Dom::visit_notes`: visit each node, then (for a tag) its children, then
the remaining siblings; a callback failure is returned immediately, keeping
the state reached so far (mutations already applied are not rolled back). -/
def visitNotes (cb : Node → σ → σ × Option ε) : List Node → σ → σ × Option ε
  | [], s => (s, none)
  | n :: rest, s =>
    match cb n s with
    | (s1, some e) => (s1, some e)
    | (s1, none) =>
      match visitKids cb n s1 with
      | (s2, some e) => (s2, some e)
      | (s2, none) => visitNotes cb rest s2

/-- The `if let Node::Tag` step of `visit_notes`: descend into a tag node's
children, do nothing on a text node. -/
def visitKids (cb : Node → σ → σ × Option ε) : Node → σ → σ × Option ε
  | .text _, s => (s, none)
  | .tag _ _ children, s => visitNotes cb children s

end

/-- `Dom::depth_first`. -/
def depthFirst (d : Dom) (cb : Node → σ → σ × Option ε) (s : σ) : σ × Option ε :=
  visitNotes cb d.nodes s

mutual

/-- The pre-order listing of a tree: each node before its children, siblings
in document order. -/
def preorderNode : Node → List Node
  | .text t => [.text t]
  | .tag name attrs children => .tag name attrs children :: preorderList children

def preorderList : List Node → List Node
  | [] => []
  | n :: rest => preorderNode n ++ preorderList rest

end

/-- Applying a callback to a flat list of nodes in order, stopping at the
first failure. -/
def runVisit (cb : Node → σ → σ × Option ε) : List Node → σ → σ × Option ε
  | [], s => (s, none)
  | n :: rest, s =>
    match cb n s with
    | (s1, some e) => (s1, some e)
    | (s1, none) => runVisit cb rest s1

/-! ## Literal bookkeeping -/

/-- Concatenation of the literal fields of a token stream, in order. -/
def concatLits : List Tok → Str
  | [] => []
  | t :: rest => t.literal ++ concatLits rest

theorem concatLits_append (a b : List Tok) :
    concatLits (a ++ b) = concatLits a ++ concatLits b := by
  induction a with
  | nil => rfl
  | cons t rest ih => simp [concatLits, ih]

theorem classifySpan_literal (span : Str) : (classifySpan span).literal = span := by
  unfold classifySpan
  split
  · rfl
  · split
    · rfl
    · split <;> rfl

/-- Joining the chunk decomposition recovers the chunk. -/
theorem splitLt_join (s : Str) :
    (splitLt s).1 ++ (splitLt s).2.foldr (· ++ ·) [] = s := by
  induction s with
  | nil => rfl
  | cons c rest ih =>
    simp only [splitLt]
    by_cases hc : c = '<'
    · rw [if_pos hc]
      subst hc
      simpa using ih
    · rw [if_neg hc]
      simp only [List.cons_append, List.cons.injEq, true_and]
      exact ih

theorem processChunk_lits (chunk : Str) : concatLits (processChunk chunk) = chunk := by
  unfold processChunk
  rw [concatLits_append]
  have h2 : ∀ spans : List Str,
      concatLits (spans.map classifySpan) = spans.foldr (· ++ ·) [] := by
    intro spans
    induction spans with
    | nil => rfl
    | cons s rest ih => simp [concatLits, classifySpan_literal, ih]
  rw [h2]
  by_cases h : (splitLt chunk).1 = []
  · simp only [h, if_pos rfl]
    have := splitLt_join chunk
    rw [h] at this
    simpa [concatLits] using this
  · simp only [if_neg h, concatLits]
    have := splitLt_join chunk
    simpa using this

theorem tokenizeGo_lits (cs : Str) : ∀ acc : Str,
    concatLits (tokenizeGo cs acc) = acc.reverse ++ cs := by
  induction cs with
  | nil =>
    intro acc
    by_cases h : acc = []
    · simp [tokenizeGo, h, concatLits]
    · simp [tokenizeGo, h, concatLits]
  | cons c cs ih =>
    intro acc
    by_cases hc : c = '>'
    · simp only [tokenizeGo]
      rw [if_pos hc]
      subst hc
      rw [concatLits_append, processChunk_lits, ih]
      simp
    · simp only [tokenizeGo]
      rw [if_neg hc, ih]
      simp

/-- The tokenizer is lossless: the literals concatenate back to the input. -/
theorem tokenize_lits (cs : Str) : concatLits (tokenize cs) = cs := by
  simpa using tokenizeGo_lits cs []

mutual

theorem mergeTokens_lits : ∀ ts : List Tok, concatLits (mergeTokens ts) = concatLits ts
  | [] => rfl
  | { kind := .textT c, literal := l } :: rest => by
    rw [show mergeTokens ({ kind := .textT c, literal := l } :: rest) = mergeRun c l rest
          from rfl,
        mergeRun_lits c l rest]
    rfl
  | { kind := .openT n a, literal := l } :: rest => by
    rw [show mergeTokens ({ kind := .openT n a, literal := l } :: rest) =
          { kind := .openT n a, literal := l } :: mergeTokens rest from rfl]
    simp [concatLits, mergeTokens_lits rest]
  | { kind := .closeT n, literal := l } :: rest => by
    rw [show mergeTokens ({ kind := .closeT n, literal := l } :: rest) =
          { kind := .closeT n, literal := l } :: mergeTokens rest from rfl]
    simp [concatLits, mergeTokens_lits rest]

theorem mergeRun_lits : ∀ (c l : Str) (ts : List Tok),
    concatLits (mergeRun c l ts) = l ++ concatLits ts
  | c, l, [] => by simp [mergeRun, concatLits]
  | c, l, { kind := .textT c2, literal := l2 } :: rest => by
    rw [show mergeRun c l ({ kind := .textT c2, literal := l2 } :: rest) =
          mergeRun (c ++ c2) (l ++ l2) rest from rfl,
        mergeRun_lits (c ++ c2) (l ++ l2) rest]
    simp [concatLits]
  | c, l, { kind := .openT n a, literal := l2 } :: rest => by
    rw [show mergeRun c l ({ kind := .openT n a, literal := l2 } :: rest) =
          { kind := .textT c, literal := l } :: { kind := .openT n a, literal := l2 } ::
            mergeTokens rest from rfl]
    simp [concatLits, mergeTokens_lits rest]
  | c, l, { kind := .closeT n, literal := l2 } :: rest => by
    rw [show mergeRun c l ({ kind := .closeT n, literal := l2 } :: rest) =
          { kind := .textT c, literal := l } :: { kind := .closeT n, literal := l2 } ::
            mergeTokens rest from rfl]
    simp [concatLits, mergeTokens_lits rest]

end

/-! ## Merger structure -/

def isTextTok (t : Tok) : Bool :=
  match t.kind with
  | .textT _ => true
  | _ => false

/-- No two adjacent text tokens anywhere in the stream. -/
def noAdjText : List Tok → Bool
  | { kind := .textT _, literal := _ } :: { kind := .textT _, literal := _ } :: _ => false
  | _ :: rest => noAdjText rest
  | [] => true

mutual

theorem mergeTokens_noAdj : ∀ ts : List Tok, noAdjText (mergeTokens ts) = true
  | [] => rfl
  | { kind := .textT c, literal := l } :: rest => mergeRun_noAdj c l rest
  | { kind := .openT n a, literal := l } :: rest => by
    rw [show mergeTokens ({ kind := .openT n a, literal := l } :: rest) =
          { kind := .openT n a, literal := l } :: mergeTokens rest from rfl]
    rw [show noAdjText ({ kind := .openT n a, literal := l } :: mergeTokens rest) =
          noAdjText (mergeTokens rest) from rfl]
    exact mergeTokens_noAdj rest
  | { kind := .closeT n, literal := l } :: rest => by
    rw [show mergeTokens ({ kind := .closeT n, literal := l } :: rest) =
          { kind := .closeT n, literal := l } :: mergeTokens rest from rfl]
    rw [show noAdjText ({ kind := .closeT n, literal := l } :: mergeTokens rest) =
          noAdjText (mergeTokens rest) from rfl]
    exact mergeTokens_noAdj rest

theorem mergeRun_noAdj : ∀ (c l : Str) (ts : List Tok),
    noAdjText (mergeRun c l ts) = true
  | _, _, [] => rfl
  | c, l, { kind := .textT c2, literal := l2 } :: rest => mergeRun_noAdj (c ++ c2) (l ++ l2) rest
  | c, l, { kind := .openT n a, literal := l2 } :: rest => by
    rw [show mergeRun c l ({ kind := .openT n a, literal := l2 } :: rest) =
          { kind := .textT c, literal := l } :: { kind := .openT n a, literal := l2 } ::
            mergeTokens rest from rfl]
    rw [show noAdjText ({ kind := .textT c, literal := l } ::
          { kind := .openT n a, literal := l2 } :: mergeTokens rest) =
          noAdjText (mergeTokens rest) from rfl]
    exact mergeTokens_noAdj rest
  | c, l, { kind := .closeT n, literal := l2 } :: rest => by
    rw [show mergeRun c l ({ kind := .closeT n, literal := l2 } :: rest) =
          { kind := .textT c, literal := l } :: { kind := .closeT n, literal := l2 } ::
            mergeTokens rest from rfl]
    rw [show noAdjText ({ kind := .textT c, literal := l } ::
          { kind := .closeT n, literal := l2 } :: mergeTokens rest) =
          noAdjText (mergeTokens rest) from rfl]
    exact mergeTokens_noAdj rest

end

theorem mergeTokens_textRun (c l c2 l2 : Str) (rest : List Tok) :
    mergeTokens ({ kind := .textT c, literal := l } ::
        { kind := .textT c2, literal := l2 } :: rest) =
      mergeTokens ({ kind := .textT (c ++ c2), literal := l ++ l2 } :: rest) := rfl

theorem mergeTokens_passthrough (t : Tok) (rest : List Tok) (h : isTextTok t = false) :
    mergeTokens (t :: rest) = t :: mergeTokens rest := by
  obtain ⟨k, l⟩ := t
  cases k with
  | textT c => simp [isTextTok] at h
  | openT n a => rfl
  | closeT n => rfl

/-! ## Span shape of emitted tokens -/

/-- The strip pipeline of the open-tag branch of `Tokenizer::next`: every
leading `<`, then every leading `!`, then every leading `/`, then every
trailing `>`, then every trailing `/`. -/
def stripSpan (span : Str) : Str :=
  trimEndChar '/' (trimEndChar '>'
    (trimStartChar '/' (trimStartChar '!' (trimStartChar '<' span))))

theorem classifySpan_stripSpan (span : Str) :
    classifySpan span =
      if startsLtSlash span then
        { kind := .closeT (trimWS (trimEndChar '>' (trimLtSlashRep span))), literal := span }
      else
        match splitWS (stripSpan span) with
        | [] => { kind := .textT span, literal := span }
        | w :: ws =>
          if (w :: ws).all wordOk then
            { kind := .openT w (ws.foldl (fun m word => insertAttr m (attrOfWord word)) []),
              literal := span }
          else
            { kind := .textT span, literal := span } := rfl

theorem splitLt_pre_no_lt (s : Str) : '<' ∉ (splitLt s).1 := by
  induction s with
  | nil => simp [splitLt]
  | cons c rest ih =>
    simp only [splitLt]
    by_cases hc : c = '<'
    · rw [if_pos hc]
      simp
    · rw [if_neg hc]
      simp only [List.mem_cons]
      rintro (h | h)
      · exact hc h.symm
      · exact ih h

/-- Every token emitted by the tokenizer is either the classification of its
own literal span, or a text token whose literal misses `<` or misses `>`
(the chunk prefix, a chunk without `<`, or the end-of-input flush). -/
theorem tokenizeGo_shape (cs : Str) : ∀ acc : Str, '>' ∉ acc →
    ∀ t ∈ tokenizeGo cs acc,
      t = classifySpan t.literal ∨
        (t.kind = .textT t.literal ∧ ('<' ∉ t.literal ∨ '>' ∉ t.literal)) := by
  induction cs with
  | nil =>
    intro acc hacc t ht
    by_cases h : acc = []
    · simp [tokenizeGo, h] at ht
    · simp only [tokenizeGo, if_neg h, List.mem_singleton] at ht
      subst ht
      right
      refine ⟨rfl, Or.inr ?_⟩
      simpa using hacc
  | cons c cs ih =>
    intro acc hacc t ht
    by_cases hc : c = '>'
    · simp only [tokenizeGo] at ht
      rw [if_pos hc] at ht
      rw [List.mem_append] at ht
      rcases ht with ht | ht
      · unfold processChunk at ht
        rw [List.mem_append] at ht
        rcases ht with ht | ht
        · by_cases hp : (splitLt ((c :: acc).reverse)).1 = []
          · rw [if_pos hp] at ht
            simp at ht
          · rw [if_neg hp] at ht
            simp only [List.mem_singleton] at ht
            subst ht
            right
            exact ⟨rfl, Or.inl (splitLt_pre_no_lt _)⟩
        · rw [List.mem_map] at ht
          obtain ⟨span, _, hspan⟩ := ht
          left
          rw [← hspan, classifySpan_literal]
      · exact ih [] (by simp) t ht
    · simp only [tokenizeGo] at ht
      rw [if_neg hc] at ht
      refine ih (c :: acc) ?_ t ht
      simp only [List.mem_cons, not_or]
      exact ⟨fun h => hc h.symm, hacc⟩

theorem tokenize_shape (cs : Str) (t : Tok) (ht : t ∈ tokenize cs)
    (hlt : '<' ∈ t.literal) (hgt : '>' ∈ t.literal) :
    t = classifySpan t.literal := by
  rcases tokenizeGo_shape cs [] (by simp) t ht with h | ⟨_, h | h⟩
  · exact h
  · exact absurd hlt h
  · exact absurd hgt h

/-- Open-tag tokens only arise as span classifications. -/
theorem tokenize_open_shape (cs : Str) (t : Tok) (ht : t ∈ tokenize cs)
    (n : Str) (a : Attrs) (hk : t.kind = .openT n a) :
    t = classifySpan t.literal := by
  rcases tokenizeGo_shape cs [] (by simp) t ht with h | ⟨h, _⟩
  · exact h
  · rw [hk] at h
    exact absurd h (by simp)

/-! ## Fuel bookkeeping for the parser -/

mutual

theorem parseNodeF_mono : ∀ (f : Nat) (cur : Tok) (rest : List Tok) r,
    parseNodeF f cur rest = some r → parseNodeF (f + 1) cur rest = some r
  | 0, _, _, _, h => by simp [parseNodeF] at h
  | f + 1, cur, rest, r, h => by
    obtain ⟨k, l⟩ := cur
    cases k with
    | textT t => exact h
    | closeT n => exact h
    | openT n a =>
      simp only [parseNodeF] at h ⊢
      by_cases hsc : selfClosingLit l = true
      · rw [if_pos hsc] at h ⊢
        exact h
      · rw [if_neg hsc] at h ⊢
        exact parseSibsF_mono f n a [] rest r h

theorem parseSibsF_mono : ∀ (f : Nat) (n : Str) (a : Attrs) (s : List Node)
    (ts : List Tok) r,
    parseSibsF f n a s ts = some r → parseSibsF (f + 1) n a s ts = some r
  | 0, _, _, _, _, _, h => by simp [parseSibsF] at h
  | f + 1, n, a, s, [], r, h => h
  | f + 1, n, a, s, t :: rest, r, h => by
    obtain ⟨k, l⟩ := t
    cases k with
    | closeT m => exact h
    | textT c =>
      simp only [parseSibsF] at h ⊢
      cases hpn : parseNodeF f { kind := .textT c, literal := l } rest with
      | none => rw [hpn] at h; simp at h
      | some r1 =>
        rw [hpn] at h
        rw [parseNodeF_mono f _ _ _ hpn]
        cases r1 with
        | error e => exact h
        | ok p => exact parseSibsF_mono f n a (s ++ p.1) p.2 r h
    | openT n2 a2 =>
      simp only [parseSibsF] at h ⊢
      cases hpn : parseNodeF f { kind := .openT n2 a2, literal := l } rest with
      | none => rw [hpn] at h; simp at h
      | some r1 =>
        rw [hpn] at h
        rw [parseNodeF_mono f _ _ _ hpn]
        cases r1 with
        | error e => exact h
        | ok p => exact parseSibsF_mono f n a (s ++ p.1) p.2 r h

theorem parseTopF_mono : ∀ (f : Nat) (acc : List Node) (ts : List Tok) r,
    parseTopF f acc ts = some r → parseTopF (f + 1) acc ts = some r
  | 0, _, _, _, h => by simp [parseTopF] at h
  | f + 1, acc, [], r, h => h
  | f + 1, acc, t :: rest, r, h => by
    simp only [parseTopF] at h ⊢
    cases hpn : parseNodeF f t rest with
    | none => rw [hpn] at h; simp at h
    | some r1 =>
      rw [hpn] at h
      rw [parseNodeF_mono f _ _ _ hpn]
      cases r1 with
      | error e => exact h
      | ok p => exact parseTopF_mono f (acc ++ p.1) p.2 r h

end

theorem parseNodeF_mono_le {f f' : Nat} (hle : f ≤ f') {cur rest r}
    (h : parseNodeF f cur rest = some r) : parseNodeF f' cur rest = some r := by
  induction hle with
  | refl => exact h
  | step _ ih => exact parseNodeF_mono _ _ _ _ ih

theorem parseSibsF_mono_le {f f' : Nat} (hle : f ≤ f') {n a s ts r}
    (h : parseSibsF f n a s ts = some r) : parseSibsF f' n a s ts = some r := by
  induction hle with
  | refl => exact h
  | step _ ih => exact parseSibsF_mono _ _ _ _ _ _ ih

theorem parseTopF_mono_le {f f' : Nat} (hle : f ≤ f') {acc ts r}
    (h : parseTopF f acc ts = some r) : parseTopF f' acc ts = some r := by
  induction hle with
  | refl => exact h
  | step _ ih => exact parseTopF_mono _ _ _ _ ih

/-- Sufficient fuel: twice the remaining stream length always suffices, and
the unconsumed remainder never grows. -/
theorem parse_suff : ∀ f : Nat,
    (∀ cur rest, 2 * List.length rest + 2 ≤ f →
      ∃ r, parseNodeF f cur rest = some r ∧
        ∀ ns rest2, r = .ok (ns, rest2) → rest2.length ≤ rest.length) ∧
    (∀ n a s rest, 2 * List.length rest + 1 ≤ f →
      ∃ r, parseSibsF f n a s rest = some r ∧
        ∀ ns rest2, r = .ok (ns, rest2) → rest2.length ≤ rest.length) ∧
    (∀ acc ts, 2 * List.length ts + 2 ≤ f → ∃ r, parseTopF f acc ts = some r) := by
  intro f
  induction f with
  | zero =>
    refine ⟨fun cur rest h => ?_, fun n a s rest h => ?_, fun acc ts h => ?_⟩ <;> omega
  | succ f ih =>
    obtain ⟨ihN, ihS, ihT⟩ := ih
    refine ⟨fun cur rest hf => ?_, fun n a s rest hf => ?_, fun acc ts hf => ?_⟩
    · obtain ⟨k, l⟩ := cur
      cases k with
      | textT t =>
        by_cases ht : trimWS t = []
        · exact ⟨.ok ([], rest), by simp [parseNodeF, ht], by
            intro ns rest2 h
            cases h
            exact le_refl _⟩
        · exact ⟨.ok ([.text (trimWS t)], rest), by simp [parseNodeF, ht], by
            intro ns rest2 h
            cases h
            exact le_refl _⟩
      | closeT m =>
        exact ⟨.error (closeErrMsg m), by simp [parseNodeF], by intro ns rest2 h; cases h⟩
      | openT n a =>
        by_cases hsc : selfClosingLit l = true
        · exact ⟨.ok ([.tag n a []], rest), by simp [parseNodeF, hsc], by
            intro ns rest2 h
            cases h
            exact le_refl _⟩
        · obtain ⟨r, hr, hb⟩ := ihS n a [] rest (by omega)
          refine ⟨r, ?_, hb⟩
          simp only [parseNodeF]
          rw [if_neg hsc]
          exact hr
    · cases rest with
      | nil =>
        exact ⟨.ok (.tag n a [] :: s, []), rfl, by
          intro ns rest2 h
          cases h
          exact le_refl _⟩
      | cons t rest =>
        have hstep : ∀ (k : TokKind) (l : Str), (∀ m, k ≠ .closeT m) →
            ∃ r, parseSibsF (f + 1) n a s ({ kind := k, literal := l } :: rest) = some r ∧
              ∀ ns rest2, r = .ok (ns, rest2) → rest2.length ≤ (t :: rest).length := by
          intro k l hk
          obtain ⟨r1, hr1, hb1⟩ := ihN { kind := k, literal := l } rest (by
            simp only [List.length_cons] at hf
            omega)
          cases r1 with
          | error e =>
            refine ⟨.error e, ?_, by intro ns rest2 h; cases h⟩
            cases k with
            | closeT m => exact absurd rfl (hk m)
            | textT c => simp only [parseSibsF]; rw [hr1]
            | openT n2 a2 => simp only [parseSibsF]; rw [hr1]
          | ok p =>
            have hlen : p.2.length ≤ rest.length := hb1 p.1 p.2 (by rw [Prod.mk.eta])
            obtain ⟨r2, hr2, hb2⟩ := ihS n a (s ++ p.1) p.2 (by
              simp only [List.length_cons] at hf
              omega)
            refine ⟨r2, ?_, ?_⟩
            · cases k with
              | closeT m => exact absurd rfl (hk m)
              | textT c => simp only [parseSibsF]; rw [hr1]; exact hr2
              | openT n2 a2 => simp only [parseSibsF]; rw [hr1]; exact hr2
            · intro ns rest2 h
              have := hb2 ns rest2 h
              simp only [List.length_cons]
              omega
        obtain ⟨k, l⟩ := t
        cases k with
        | closeT m =>
          by_cases hm : m = n
          · refine ⟨.ok ([.tag n a s], rest), by simp [parseSibsF, hm], ?_⟩
            intro ns rest2 h
            cases h
            simp
          · refine ⟨.ok (.tag n a [] :: s, { kind := .closeT m, literal := l } :: rest),
              by simp [parseSibsF, hm], ?_⟩
            intro ns rest2 h
            cases h
            simp
        | textT c => exact hstep (.textT c) l (by intro m h; cases h)
        | openT n2 a2 => exact hstep (.openT n2 a2) l (by intro m h; cases h)
    · cases ts with
      | nil => exact ⟨.ok acc, rfl⟩
      | cons t rest =>
        obtain ⟨r1, hr1, hb1⟩ := ihN t rest (by
          simp only [List.length_cons] at hf
          omega)
        cases r1 with
        | error e =>
          refine ⟨.error e, ?_⟩
          simp only [parseTopF]
          rw [hr1]
        | ok p =>
          have hlen : p.2.length ≤ rest.length := hb1 p.1 p.2 (by rw [Prod.mk.eta])
          obtain ⟨r2, hr2⟩ := ihT (acc ++ p.1) p.2 (by
            simp only [List.length_cons] at hf
            omega)
          refine ⟨r2, ?_⟩
          simp only [parseTopF]
          rw [hr1]
          exact hr2

/-! ## The parser at sufficient fuel -/

/-- `parse_node` with its canonical sufficient fuel. -/
def parseNode (cur : Tok) (rest : List Tok) : Except PErr (List Node × List Tok) :=
  match parseNodeF (2 * List.length rest + 2) cur rest with
  | some r => r
  | none => .error []

/-- The sibling loop with its canonical sufficient fuel. -/
def parseSibs (n : Str) (a : Attrs) (s : List Node) (rest : List Tok) :
    Except PErr (List Node × List Tok) :=
  match parseSibsF (2 * List.length rest + 1) n a s rest with
  | some r => r
  | none => .error []

/-- The top-level loop with its canonical sufficient fuel. -/
def parseTop (acc : List Node) (ts : List Tok) : Except PErr (List Node) :=
  match parseTopF (2 * List.length ts + 2) acc ts with
  | some r => r
  | none => .error []

theorem parseNodeF_eq {f : Nat} {cur rest} (hf : 2 * List.length rest + 2 ≤ f) :
    parseNodeF f cur rest = some (parseNode cur rest) := by
  obtain ⟨r, hr, _⟩ := (parse_suff (2 * List.length rest + 2)).1 cur rest (le_refl _)
  rw [parseNodeF_mono_le hf hr]
  unfold parseNode
  rw [hr]

theorem parseSibsF_eq {f : Nat} {n a s rest} (hf : 2 * List.length rest + 1 ≤ f) :
    parseSibsF f n a s rest = some (parseSibs n a s rest) := by
  obtain ⟨r, hr, _⟩ := (parse_suff (2 * List.length rest + 1)).2.1 n a s rest (le_refl _)
  rw [parseSibsF_mono_le hf hr]
  unfold parseSibs
  rw [hr]

theorem parseTopF_eq {f : Nat} {acc ts} (hf : 2 * List.length ts + 2 ≤ f) :
    parseTopF f acc ts = some (parseTop acc ts) := by
  obtain ⟨r, hr⟩ := (parse_suff (2 * List.length ts + 2)).2.2 acc ts (le_refl _)
  rw [parseTopF_mono_le hf hr]
  unfold parseTop
  rw [hr]

theorem parseNode_rest_le {cur rest ns rest2}
    (h : parseNode cur rest = .ok (ns, rest2)) : rest2.length ≤ rest.length := by
  obtain ⟨r, hr, hb⟩ := (parse_suff (2 * List.length rest + 2)).1 cur rest (le_refl _)
  unfold parseNode at h
  rw [hr] at h
  exact hb ns rest2 h

theorem parseNodeF_getD {f : Nat} {cur rest} (hf : 2 * List.length rest + 2 ≤ f) :
    (match parseNodeF f cur rest with
      | some r => r
      | none => (.error [] : Except PErr (List Node × List Tok))) = parseNode cur rest := by
  rw [parseNodeF_eq hf]

theorem parseSibsF_getD {f : Nat} {n a s rest} (hf : 2 * List.length rest + 1 ≤ f) :
    (match parseSibsF f n a s rest with
      | some r => r
      | none => (.error [] : Except PErr (List Node × List Tok))) = parseSibs n a s rest := by
  rw [parseSibsF_eq hf]

theorem parseTopF_getD {f : Nat} {acc ts} (hf : 2 * List.length ts + 2 ≤ f) :
    (match parseTopF f acc ts with
      | some r => r
      | none => (.error [] : Except PErr (List Node))) = parseTop acc ts := by
  rw [parseTopF_eq hf]

/-- `parseTokens` in terms of the ideal top-level loop. -/
theorem parseTokens_eq (ts : List Tok) :
    parseTokens ts =
      match parseTop [] ts with
      | .error e => .error e
      | .ok ns => .ok ⟨ns⟩ := by
  unfold parseTokens parseTop
  obtain ⟨r, hr⟩ := (parse_suff (2 * List.length ts + 2)).2.2 [] ts (le_refl _)
  rw [hr]
  cases r <;> rfl

/-! Recursion equations of the ideal parser. -/

theorem parseTop_nil (acc : List Node) : parseTop acc [] = .ok acc := rfl

theorem parseTop_cons (acc : List Node) (t : Tok) (rest : List Tok) :
    parseTop acc (t :: rest) =
      match parseNode t rest with
      | .error e => .error e
      | .ok (ns, rest2) => parseTop (acc ++ ns) rest2 := by
  conv_lhs => unfold parseTop
  simp only [List.length_cons]
  rw [show 2 * (List.length rest + 1) + 2 = (2 * List.length rest + 3) + 1 by omega]
  simp only [parseTopF]
  rw [parseNodeF_eq (by omega)]
  cases hpn : parseNode t rest with
  | error e => rfl
  | ok p =>
    obtain ⟨ns, rest2⟩ := p
    have hle := parseNode_rest_le hpn
    dsimp only
    exact parseTopF_getD (by omega)

theorem parseNode_text (c l : Str) (rest : List Tok) :
    parseNode { kind := .textT c, literal := l } rest =
      .ok (if trimWS c = [] then [] else [.text (trimWS c)], rest) := by
  unfold parseNode
  rw [show 2 * List.length rest + 2 = (2 * List.length rest + 1) + 1 by omega]
  simp only [parseNodeF]
  by_cases h : trimWS c = [] <;> simp [h]

theorem parseNode_close (m : Str) (l : Str) (rest : List Tok) :
    parseNode { kind := .closeT m, literal := l } rest = .error (closeErrMsg m) := by
  unfold parseNode
  rw [show 2 * List.length rest + 2 = (2 * List.length rest + 1) + 1 by omega]
  simp [parseNodeF]

theorem parseNode_open_self (n : Str) (a : Attrs) (l : Str) (rest : List Tok)
    (h : selfClosingLit l = true) :
    parseNode { kind := .openT n a, literal := l } rest = .ok ([.tag n a []], rest) := by
  unfold parseNode
  rw [show 2 * List.length rest + 2 = (2 * List.length rest + 1) + 1 by omega]
  simp [parseNodeF, h]

theorem parseNode_open (n : Str) (a : Attrs) (l : Str) (rest : List Tok)
    (h : selfClosingLit l = false) :
    parseNode { kind := .openT n a, literal := l } rest = parseSibs n a [] rest := by
  unfold parseNode
  rw [show 2 * List.length rest + 2 = (2 * List.length rest + 1) + 1 by omega]
  simp only [parseNodeF]
  rw [if_neg (by simp [h])]
  exact parseSibsF_getD (le_refl _)

theorem parseSibs_nil (n : Str) (a : Attrs) (s : List Node) :
    parseSibs n a s [] = .ok (.tag n a [] :: s, []) := rfl

theorem parseSibs_close (n : Str) (a : Attrs) (s : List Node) (m : Str) (l : Str)
    (rest : List Tok) :
    parseSibs n a s ({ kind := .closeT m, literal := l } :: rest) =
      if m = n then .ok ([.tag n a s], rest)
      else .ok (.tag n a [] :: s, { kind := .closeT m, literal := l } :: rest) := by
  unfold parseSibs
  simp only [List.length_cons]
  rw [show 2 * (List.length rest + 1) + 1 = (2 * List.length rest + 2) + 1 by omega]
  simp only [parseSibsF]
  by_cases h : m = n <;> simp [h]

theorem parseSibs_step (n : Str) (a : Attrs) (s : List Node) (t : Tok)
    (rest : List Tok) (hk : ∀ m, t.kind ≠ .closeT m) :
    parseSibs n a s (t :: rest) =
      match parseNode t rest with
      | .error e => .error e
      | .ok (ns, rest2) => parseSibs n a (s ++ ns) rest2 := by
  unfold parseSibs
  simp only [List.length_cons]
  rw [show 2 * (List.length rest + 1) + 1 = (2 * List.length rest + 2) + 1 by omega]
  obtain ⟨k, l⟩ := t
  have hunf : parseSibsF (2 * List.length rest + 2 + 1) n a s
      ({ kind := k, literal := l } :: rest) =
      match parseNodeF (2 * List.length rest + 2) { kind := k, literal := l } rest with
      | none => none
      | some (.error e) => some (.error e)
      | some (.ok (ns, rest2)) => parseSibsF (2 * List.length rest + 2) n a (s ++ ns) rest2 := by
    cases k with
    | closeT m => exact absurd rfl (hk m)
    | textT c => rfl
    | openT n2 a2 => rfl
  rw [hunf, parseNodeF_eq (le_refl _)]
  cases hpn : parseNode { kind := k, literal := l } rest with
  | error e => rfl
  | ok p =>
    obtain ⟨ns, rest2⟩ := p
    have hle := parseNode_rest_le hpn
    dsimp only
    exact parseSibsF_getD (by omega)

/-! ## The only parse error: a close tag matching no enclosing open tag -/

def isErrE {α : Type} : Except PErr α → Bool
  | .error _ => true
  | .ok _ => false

/-- Pop the stack of open-tag names up to and including the first occurrence
of `m`. -/
def popThrough (m : Str) : List Str → List Str
  | [] => []
  | x :: rest => if x = m then rest else popThrough m rest

/-- The error condition as a stack machine over the token stream: a close tag
whose name matches none of the currently enclosing open tags (so it bubbles
past every frame to the top level); a matching close tag closes everything
up to its nearest matching ancestor. -/
def hasUnmatchedClose : List Tok → List Str → Bool
  | [], _ => false
  | t :: rest, st =>
    match t.kind with
    | .textT _ => hasUnmatchedClose rest st
    | .openT n _ =>
      if selfClosingLit t.literal then hasUnmatchedClose rest st
      else hasUnmatchedClose rest (n :: st)
    | .closeT m =>
      if m ∈ st then hasUnmatchedClose rest (popThrough m st) else true

/-- Inner parser frames never fail, and their effect on the stack machine is
exactly one frame: a `parse_node` call on a non-close token consumes part of
the stream without error, and the machine state advances accordingly. -/
theorem parse_frames : ∀ (L : Nat) (ts : List Tok), List.length ts ≤ L →
    (∀ (n : Str) (a : Attrs) (s : List Node),
      ∃ ns rest2, parseSibs n a s ts = .ok (ns, rest2) ∧
        rest2.length ≤ ts.length ∧
        ∀ st, hasUnmatchedClose ts (n :: st) = hasUnmatchedClose rest2 st) ∧
    (∀ t : Tok, (∀ m, t.kind ≠ .closeT m) →
      ∃ ns rest2, parseNode t ts = .ok (ns, rest2) ∧
        rest2.length ≤ ts.length ∧
        ∀ st, hasUnmatchedClose (t :: ts) st = hasUnmatchedClose rest2 st) := by
  intro L
  induction L with
  | zero =>
    intro ts hts
    have hnil : ts = [] := List.length_eq_zero.mp (Nat.le_antisymm hts (Nat.zero_le _))
    subst hnil
    have hsibs : ∀ (n : Str) (a : Attrs) (s : List Node),
        ∃ ns rest2, parseSibs n a s [] = .ok (ns, rest2) ∧
          rest2.length ≤ List.length ([] : List Tok) ∧
          ∀ st, hasUnmatchedClose [] (n :: st) = hasUnmatchedClose rest2 st := by
      intro n a s
      exact ⟨.tag n a [] :: s, [], parseSibs_nil n a s, le_refl _, fun st => rfl⟩
    refine ⟨hsibs, ?_⟩
    intro t hk
    obtain ⟨k, l⟩ := t
    cases k with
    | closeT m => exact absurd rfl (hk m)
    | textT c =>
      exact ⟨_, [], parseNode_text c l [], le_refl _, fun st => rfl⟩
    | openT n a =>
      by_cases hsc : selfClosingLit l = true
      · refine ⟨[.tag n a []], [], parseNode_open_self n a l [] hsc, le_refl _, fun st => ?_⟩
        simp [hasUnmatchedClose, hsc]
      · obtain ⟨ns, rest2, hok, hlen, hm⟩ := hsibs n a []
        refine ⟨ns, rest2,
          by rw [parseNode_open n a l [] (by simpa using hsc)]; exact hok, hlen, fun st => ?_⟩
        rw [show hasUnmatchedClose ({ kind := .openT n a, literal := l } :: []) st =
              if selfClosingLit l then hasUnmatchedClose [] st
              else hasUnmatchedClose [] (n :: st) from rfl]
        rw [if_neg (by simpa using hsc)]
        exact hm st
  | succ L ih =>
    intro ts hts
    have hsibs : ∀ (n : Str) (a : Attrs) (s : List Node),
        ∃ ns rest2, parseSibs n a s ts = .ok (ns, rest2) ∧
          rest2.length ≤ ts.length ∧
          ∀ st, hasUnmatchedClose ts (n :: st) = hasUnmatchedClose rest2 st := by
      intro n a s
      cases ts with
      | nil => exact ⟨.tag n a [] :: s, [], parseSibs_nil n a s, le_refl _, fun st => rfl⟩
      | cons t rest =>
        obtain ⟨k, l⟩ := t
        cases k with
        | closeT m =>
          by_cases hm : m = n
          · refine ⟨[.tag n a s], rest, by rw [parseSibs_close]; rw [if_pos hm], by simp,
              fun st => ?_⟩
            rw [show hasUnmatchedClose ({ kind := .closeT m, literal := l } :: rest) (n :: st) =
                  if m ∈ n :: st then hasUnmatchedClose rest (popThrough m (n :: st))
                  else true from rfl]
            rw [if_pos (by simp [hm])]
            rw [show popThrough m (n :: st) = if n = m then st else popThrough m st from rfl]
            rw [if_pos hm.symm]
          · refine ⟨.tag n a [] :: s, { kind := .closeT m, literal := l } :: rest,
              by rw [parseSibs_close]; rw [if_neg hm], le_refl _, fun st => ?_⟩
            rw [show hasUnmatchedClose ({ kind := .closeT m, literal := l } :: rest) (n :: st) =
                  if m ∈ n :: st then hasUnmatchedClose rest (popThrough m (n :: st))
                  else true from rfl]
            rw [show hasUnmatchedClose ({ kind := .closeT m, literal := l } :: rest) st =
                  if m ∈ st then hasUnmatchedClose rest (popThrough m st)
                  else true from rfl]
            by_cases hmem : m ∈ st
            · rw [if_pos (by simp [hmem]), if_pos hmem]
              rw [show popThrough m (n :: st) = if n = m then st else popThrough m st from rfl]
              rw [if_neg (fun h => hm h.symm)]
            · rw [if_neg (by simp [hmem, fun h => hm h]), if_neg hmem]
        | textT c =>
          have hts2 : rest.length ≤ L := by
            simp only [List.length_cons] at hts
            omega
          obtain ⟨ns1, rest2, hok1, hlen1, hm1⟩ :=
            (ih rest hts2).2 { kind := .textT c, literal := l } (by intro m h; cases h)
          obtain ⟨ns2, rest3, hok2, hlen2, hm2⟩ :=
            (ih rest2 (le_trans hlen1 hts2)).1 n a (s ++ ns1)
          refine ⟨ns2, rest3, ?_, ?_, fun st => ?_⟩
          · rw [parseSibs_step n a s _ rest (by intro m h; cases h), hok1]
            exact hok2
          · simp only [List.length_cons]
            omega
          · rw [hm1 (n :: st)]
            exact hm2 st
        | openT n2 a2 =>
          have hts2 : rest.length ≤ L := by
            simp only [List.length_cons] at hts
            omega
          obtain ⟨ns1, rest2, hok1, hlen1, hm1⟩ :=
            (ih rest hts2).2 { kind := .openT n2 a2, literal := l } (by intro m h; cases h)
          obtain ⟨ns2, rest3, hok2, hlen2, hm2⟩ :=
            (ih rest2 (le_trans hlen1 hts2)).1 n a (s ++ ns1)
          refine ⟨ns2, rest3, ?_, ?_, fun st => ?_⟩
          · rw [parseSibs_step n a s _ rest (by intro m h; cases h), hok1]
            exact hok2
          · simp only [List.length_cons]
            omega
          · rw [hm1 (n :: st)]
            exact hm2 st
    refine ⟨hsibs, ?_⟩
    intro t hk
    obtain ⟨k, l⟩ := t
    cases k with
    | closeT m => exact absurd rfl (hk m)
    | textT c =>
      exact ⟨_, ts, parseNode_text c l ts, le_refl _, fun st => rfl⟩
    | openT n a =>
      by_cases hsc : selfClosingLit l = true
      · refine ⟨[.tag n a []], ts, parseNode_open_self n a l ts hsc, le_refl _, fun st => ?_⟩
        rw [show hasUnmatchedClose ({ kind := .openT n a, literal := l } :: ts) st =
              if selfClosingLit l then hasUnmatchedClose ts st
              else hasUnmatchedClose ts (n :: st) from rfl]
        rw [if_pos hsc]
      · obtain ⟨ns, rest2, hok, hlen, hm⟩ := hsibs n a []
        refine ⟨ns, rest2,
          by rw [parseNode_open n a l ts (by simpa using hsc)]; exact hok, hlen, fun st => ?_⟩
        rw [show hasUnmatchedClose ({ kind := .openT n a, literal := l } :: ts) st =
              if selfClosingLit l then hasUnmatchedClose ts st
              else hasUnmatchedClose ts (n :: st) from rfl]
        rw [if_neg (by simpa using hsc)]
        exact hm st

/-- The top-level loop fails exactly when the stack machine reports an
unmatched close tag. -/
theorem parseTop_err : ∀ (L : Nat) (ts : List Tok), ts.length ≤ L → ∀ acc : List Node,
    isErrE (parseTop acc ts) = hasUnmatchedClose ts [] := by
  intro L
  induction L with
  | zero =>
    intro ts hts acc
    have hnil : ts = [] := List.length_eq_zero.mp (Nat.le_antisymm hts (Nat.zero_le _))
    subst hnil
    rw [parseTop_nil]
    rfl
  | succ L ih =>
    intro ts hts acc
    cases ts with
    | nil => rw [parseTop_nil]; rfl
    | cons t rest =>
      obtain ⟨k, l⟩ := t
      cases k with
      | closeT m =>
        rw [parseTop_cons, parseNode_close]
        rw [show hasUnmatchedClose ({ kind := .closeT m, literal := l } :: rest) [] =
              if m ∈ ([] : List Str) then hasUnmatchedClose rest (popThrough m [])
              else true from rfl]
        rw [if_neg (by simp)]
        rfl
      | textT c =>
        have hts2 : rest.length ≤ L := by
          simp only [List.length_cons] at hts
          omega
        obtain ⟨ns, rest2, hok, hlen, hm⟩ :=
          (parse_frames rest.length rest (le_refl _)).2 { kind := .textT c, literal := l }
            (by intro m h; cases h)
        rw [parseTop_cons, hok]
        dsimp only
        rw [hm []]
        exact ih rest2 (le_trans hlen hts2) (acc ++ ns)
      | openT n a =>
        have hts2 : rest.length ≤ L := by
          simp only [List.length_cons] at hts
          omega
        obtain ⟨ns, rest2, hok, hlen, hm⟩ :=
          (parse_frames rest.length rest (le_refl _)).2 { kind := .openT n a, literal := l }
            (by intro m h; cases h)
        rw [parseTop_cons, hok]
        dsimp only
        rw [hm []]
        exact ih rest2 (le_trans hlen hts2) (acc ++ ns)

/-! ## Text nodes are trimmed and non-empty -/

theorem trimEndWS_eq_rdropWhile (s : Str) : trimEndWS s = List.rdropWhile isWSRust s := rfl

theorem trimStartWS_of_trimEndWS {x : Str} (hx : trimStartWS x = x) :
    trimStartWS (trimEndWS x) = trimEndWS x := by
  cases h : trimEndWS x with
  | nil => rfl
  | cons a t =>
    have hpre : trimEndWS x <+: x := by
      rw [trimEndWS_eq_rdropWhile]
      exact List.rdropWhile_prefix _ _
    rw [h] at hpre
    obtain ⟨u, hu⟩ := hpre
    have ha : isWSRust a = false := by
      by_contra hcon
      have ha' : isWSRust a = true := by
        cases hval : isWSRust a
        · exact absurd hval hcon
        · rfl
      rw [← hu] at hx
      unfold trimStartWS at hx
      rw [List.cons_append, List.dropWhile_cons_of_pos ha'] at hx
      have := congrArg List.length hx
      have hle := (List.dropWhile_suffix (l := t ++ u) isWSRust).length_le
      simp at this hle
      omega
    unfold trimStartWS
    rw [List.dropWhile_cons_of_neg (by simp [ha])]

theorem trimWS_idem (s : Str) : trimWS (trimWS s) = trimWS s := by
  unfold trimWS
  have hx : trimStartWS (trimStartWS s) = trimStartWS s :=
    List.dropWhile_idempotent isWSRust s
  rw [trimStartWS_of_trimEndWS hx]
  rw [trimEndWS_eq_rdropWhile, trimEndWS_eq_rdropWhile]
  exact List.rdropWhile_idempotent isWSRust _

mutual

/-- Every text node in the tree is trimmed and non-empty. -/
def nodeTextsOk : Node → Bool
  | .text c => decide (trimWS c = c) && decide (c ≠ [])
  | .tag _ _ children => nodesTextsOk children

def nodesTextsOk : List Node → Bool
  | [] => true
  | n :: rest => nodeTextsOk n && nodesTextsOk rest

end

theorem nodesTextsOk_append {a b : List Node} (ha : nodesTextsOk a = true)
    (hb : nodesTextsOk b = true) : nodesTextsOk (a ++ b) = true := by
  induction a with
  | nil => exact hb
  | cons n rest ih =>
    rw [show nodesTextsOk (n :: rest) = (nodeTextsOk n && nodesTextsOk rest) from rfl,
      Bool.and_eq_true] at ha
    rw [List.cons_append,
      show nodesTextsOk (n :: (rest ++ b)) = (nodeTextsOk n && nodesTextsOk (rest ++ b)) from rfl,
      Bool.and_eq_true]
    exact ⟨ha.1, ih ha.2⟩

theorem parse_textsOk : ∀ (L : Nat) (ts : List Tok), ts.length ≤ L →
    (∀ n a s ns rest2, nodesTextsOk s = true →
      parseSibs n a s ts = .ok (ns, rest2) → nodesTextsOk ns = true) ∧
    (∀ t ns rest2, parseNode t ts = .ok (ns, rest2) → nodesTextsOk ns = true) := by
  intro L
  induction L with
  | zero =>
    intro ts hts
    have hnil : ts = [] := List.length_eq_zero.mp (Nat.le_antisymm hts (Nat.zero_le _))
    subst hnil
    have hsibs : ∀ n a s ns rest2, nodesTextsOk s = true →
        parseSibs n a s [] = .ok (ns, rest2) → nodesTextsOk ns = true := by
      intro n a s ns rest2 hs hok
      rw [parseSibs_nil] at hok
      cases hok
      rw [show nodesTextsOk (.tag n a [] :: s) = (nodesTextsOk [] && nodesTextsOk s) from rfl]
      simp [hs, nodesTextsOk]
    refine ⟨hsibs, ?_⟩
    intro t ns rest2 hok
    obtain ⟨k, l⟩ := t
    cases k with
    | closeT m => rw [parseNode_close] at hok; cases hok
    | textT c =>
      rw [parseNode_text] at hok
      cases hok
      by_cases h : trimWS c = []
      · simp [h, nodesTextsOk]
      · rw [if_neg h]
        rw [show nodesTextsOk [.text (trimWS c)] =
              (nodeTextsOk (.text (trimWS c)) && true) from rfl]
        simp [nodeTextsOk, trimWS_idem, h]
    | openT n a =>
      by_cases hsc : selfClosingLit l = true
      · rw [parseNode_open_self n a l [] hsc] at hok
        cases hok
        simp [nodesTextsOk, nodeTextsOk]
      · rw [parseNode_open n a l [] (by simpa using hsc)] at hok
        exact hsibs n a [] ns rest2 rfl hok
  | succ L ih =>
    intro ts hts
    have hsibs : ∀ n a s ns rest2, nodesTextsOk s = true →
        parseSibs n a s ts = .ok (ns, rest2) → nodesTextsOk ns = true := by
      intro n a s ns rest2 hs hok
      cases ts with
      | nil =>
        rw [parseSibs_nil] at hok
        cases hok
        rw [show nodesTextsOk (.tag n a [] :: s) = (nodesTextsOk [] && nodesTextsOk s) from rfl]
        simp [hs, nodesTextsOk]
      | cons t rest =>
        have hts2 : rest.length ≤ L := by
          simp only [List.length_cons] at hts
          omega
        obtain ⟨k, l⟩ := t
        cases k with
        | closeT m =>
          rw [parseSibs_close] at hok
          by_cases hm : m = n
          · rw [if_pos hm] at hok
            cases hok
            rw [show nodesTextsOk [Node.tag n a s] = (nodesTextsOk s && true) from rfl]
            simp [hs]
          · rw [if_neg hm] at hok
            cases hok
            rw [show nodesTextsOk (.tag n a [] :: s) =
                  (nodesTextsOk [] && nodesTextsOk s) from rfl]
            simp [hs, nodesTextsOk]
        | textT c =>
          rw [parseSibs_step n a s _ rest (by intro m h; cases h)] at hok
          cases hpn : parseNode { kind := .textT c, literal := l } rest with
          | error e => rw [hpn] at hok; cases hok
          | ok p =>
            rw [hpn] at hok
            obtain ⟨ns1, r2⟩ := p
            have h1 : nodesTextsOk ns1 = true := (ih rest hts2).2 _ _ _ hpn
            have hr2 : r2.length ≤ rest.length := parseNode_rest_le hpn
            exact (ih r2 (le_trans hr2 hts2)).1 n a (s ++ ns1) ns rest2
              (nodesTextsOk_append hs h1) hok
        | openT n2 a2 =>
          rw [parseSibs_step n a s _ rest (by intro m h; cases h)] at hok
          cases hpn : parseNode { kind := .openT n2 a2, literal := l } rest with
          | error e => rw [hpn] at hok; cases hok
          | ok p =>
            rw [hpn] at hok
            obtain ⟨ns1, r2⟩ := p
            have h1 : nodesTextsOk ns1 = true := (ih rest hts2).2 _ _ _ hpn
            have hr2 : r2.length ≤ rest.length := parseNode_rest_le hpn
            exact (ih r2 (le_trans hr2 hts2)).1 n a (s ++ ns1) ns rest2
              (nodesTextsOk_append hs h1) hok
    refine ⟨hsibs, ?_⟩
    intro t ns rest2 hok
    obtain ⟨k, l⟩ := t
    cases k with
    | closeT m => rw [parseNode_close] at hok; cases hok
    | textT c =>
      rw [parseNode_text] at hok
      cases hok
      by_cases h : trimWS c = []
      · simp [h, nodesTextsOk]
      · rw [if_neg h]
        rw [show nodesTextsOk [.text (trimWS c)] =
              (nodeTextsOk (.text (trimWS c)) && true) from rfl]
        simp [nodeTextsOk, trimWS_idem, h]
    | openT n a =>
      by_cases hsc : selfClosingLit l = true
      · rw [parseNode_open_self n a l ts hsc] at hok
        cases hok
        simp [nodesTextsOk, nodeTextsOk]
      · rw [parseNode_open n a l ts (by simpa using hsc)] at hok
        exact hsibs n a [] ns rest2 rfl hok

theorem parseTop_textsOk : ∀ (L : Nat) (ts : List Tok), ts.length ≤ L →
    ∀ acc ns, nodesTextsOk acc = true → parseTop acc ts = .ok ns →
      nodesTextsOk ns = true := by
  intro L
  induction L with
  | zero =>
    intro ts hts acc ns hacc hok
    have hnil : ts = [] := List.length_eq_zero.mp (Nat.le_antisymm hts (Nat.zero_le _))
    subst hnil
    rw [parseTop_nil] at hok
    cases hok
    exact hacc
  | succ L ih =>
    intro ts hts acc ns hacc hok
    cases ts with
    | nil =>
      rw [parseTop_nil] at hok
      cases hok
      exact hacc
    | cons t rest =>
      have hts2 : rest.length ≤ L := by
        simp only [List.length_cons] at hts
        omega
      rw [parseTop_cons] at hok
      cases hpn : parseNode t rest with
      | error e => rw [hpn] at hok; cases hok
      | ok p =>
        rw [hpn] at hok
        obtain ⟨ns1, r2⟩ := p
        have h1 : nodesTextsOk ns1 = true := (parse_textsOk rest.length rest (le_refl _)).2 _ _ _ hpn
        have hr2 : r2.length ≤ rest.length := parseNode_rest_le hpn
        exact ih r2 (le_trans hr2 hts2) (acc ++ ns1) ns (nodesTextsOk_append hacc h1) hok

/-- The parser invariant behind claim C7. -/
theorem parseTokens_textsOk (ts : List Tok) (d : Dom)
    (h : parseTokens ts = .ok d) : nodesTextsOk d.nodes = true := by
  rw [parseTokens_eq] at h
  cases hpt : parseTop [] ts with
  | error e => rw [hpt] at h; cases h
  | ok ns =>
    rw [hpt] at h
    cases h
    exact parseTop_textsOk ts.length ts (le_refl _) [] ns rfl hpt

/-! ## Traversal is the pre-order fold -/

theorem runVisit_append {σ ε : Type} (cb : Node → σ → σ × Option ε)
    (a b : List Node) : ∀ s : σ,
    runVisit cb (a ++ b) s =
      match runVisit cb a s with
      | (s1, some e) => (s1, some e)
      | (s1, none) => runVisit cb b s1 := by
  induction a with
  | nil => intro s; rfl
  | cons n rest ih =>
    intro s
    show (match cb n s with
      | (s1, some e) => (s1, some e)
      | (s1, none) => runVisit cb (rest ++ b) s1) = _
    rcases hcb : cb n s with ⟨s1, oe⟩
    cases oe with
    | none =>
      dsimp only
      rw [ih s1]
      rw [show runVisit cb (n :: rest) s =
            (match cb n s with
              | (s1, some e) => (s1, some e)
              | (s1, none) => runVisit cb rest s1) from rfl, hcb]
    | some e =>
      dsimp only
      rw [show runVisit cb (n :: rest) s =
            (match cb n s with
              | (s1, some e) => (s1, some e)
              | (s1, none) => runVisit cb rest s1) from rfl, hcb]

theorem visitNotes_preorder {σ ε : Type} (cb : Node → σ → σ × Option ε) :
    ∀ (ns : List Node) (s : σ), visitNotes cb ns s = runVisit cb (preorderList ns) s
  | [], _ => rfl
  | .text t :: rest, s => by
    rw [show preorderList (.text t :: rest) = .text t :: preorderList rest from rfl]
    rw [show visitNotes cb (.text t :: rest) s =
          (match cb (.text t) s with
            | (s1, some e) => (s1, some e)
            | (s1, none) => visitNotes cb rest s1) from rfl]
    rw [show runVisit cb (.text t :: preorderList rest) s =
          (match cb (.text t) s with
            | (s1, some e) => (s1, some e)
            | (s1, none) => runVisit cb (preorderList rest) s1) from rfl]
    rcases hcb : cb (.text t) s with ⟨s1, oe⟩
    cases oe with
    | none =>
      dsimp only
      exact visitNotes_preorder cb rest s1
    | some e => rfl
  | .tag n a ch :: rest, s => by
    rw [show preorderList (.tag n a ch :: rest) =
          (.tag n a ch :: preorderList ch) ++ preorderList rest from rfl]
    rw [runVisit_append]
    rw [show runVisit cb (.tag n a ch :: preorderList ch) s =
          (match cb (.tag n a ch) s with
            | (s1, some e) => (s1, some e)
            | (s1, none) => runVisit cb (preorderList ch) s1) from rfl]
    rw [show visitNotes cb (.tag n a ch :: rest) s =
          (match cb (.tag n a ch) s with
            | (s1, some e) => (s1, some e)
            | (s1, none) =>
              match visitNotes cb ch s1 with
              | (s2, some e) => (s2, some e)
              | (s2, none) => visitNotes cb rest s2) from rfl]
    rcases hcb : cb (.tag n a ch) s with ⟨s1, oe⟩
    cases oe with
    | some e => rfl
    | none =>
      dsimp only
      rw [visitNotes_preorder cb ch s1]
      rcases hch : runVisit cb (preorderList ch) s1 with ⟨s2, oe2⟩
      cases oe2 with
      | some e => rfl
      | none =>
        dsimp only
        exact visitNotes_preorder cb rest s2

/-! ## Rendering -/

/-- Whether a string is non-empty and does not end in whitespace (so that a
trailing `trim_end` leaves it unchanged). -/
def endsNonWS (s : Str) : Bool :=
  match s.reverse with
  | [] => false
  | c :: _ => !isWSRust c

theorem endsNonWS_ne_nil {s : Str} (h : endsNonWS s = true) : s ≠ [] := by
  intro hs
  subst hs
  simp [endsNonWS] at h

theorem exists_concat_of_endsNonWS {s : Str} (h : endsNonWS s = true) :
    ∃ y c, s = y ++ [c] ∧ isWSRust c = false := by
  unfold endsNonWS at h
  cases hr : s.reverse with
  | nil => rw [hr] at h; cases h
  | cons c t =>
    rw [hr] at h
    refine ⟨t.reverse, c, ?_, by simpa using h⟩
    have := congrArg List.reverse hr
    simpa using this

theorem trimEndWS_append_endsNonWS (x : Str) {s : Str} (h : endsNonWS s = true) :
    trimEndWS (x ++ s) = x ++ s := by
  obtain ⟨y, c, rfl, hc⟩ := exists_concat_of_endsNonWS h
  rw [trimEndWS_eq_rdropWhile, ← List.append_assoc]
  exact List.rdropWhile_concat_neg isWSRust (x ++ y) c (by simp [hc])

theorem trimEndWS_endsNonWS {s : Str} (h : endsNonWS s = true) : trimEndWS s = s := by
  have := trimEndWS_append_endsNonWS [] h
  simpa using this

theorem endsNonWS_append {x s : Str} (hs : s ≠ []) :
    endsNonWS (x ++ s) = endsNonWS s := by
  unfold endsNonWS
  rw [List.reverse_append]
  cases hr : s.reverse with
  | nil => exact absurd (by simpa using hr) hs
  | cons c t => simp

/-- The flat spec-side form of the attribute fold: a space then the formatted
attribute, for each attribute in order. -/
def attrsFlat : Attrs → Str
  | [] => []
  | kv :: rest => ' ' :: fmtAttr kv ++ attrsFlat rest

/-- An attribute renders without a trailing-trim interaction: a valued
attribute always ends in `"`, a boolean one needs its bare name to be
non-empty and not end in whitespace. -/
def attrRenderOk (kv : Str × Str) : Bool :=
  if kv.2 = [] then endsNonWS kv.1 else true

theorem endsNonWS_fmtAttr {kv : Str × Str} (h : attrRenderOk kv = true) :
    endsNonWS (fmtAttr kv) = true := by
  unfold attrRenderOk at h
  unfold fmtAttr
  by_cases hv : kv.2 = []
  · rw [if_pos hv] at h
    rw [if_pos hv]
    exact h
  · rw [if_neg hv]
    have : (kv.1 ++ '=' :: '"' :: kv.2 ++ ['"']) = (kv.1 ++ '=' :: '"' :: kv.2) ++ ['"'] := by
      simp
    rw [this, endsNonWS_append (by simp)]
    rfl

theorem attrsFlat_endsNonWS {attrs : Attrs} (hne : attrs ≠ [])
    (h : ∀ kv ∈ attrs, attrRenderOk kv = true) : endsNonWS (attrsFlat attrs) = true := by
  induction attrs with
  | nil => exact absurd rfl hne
  | cons kv rest ih =>
    cases rest with
    | nil =>
      have hfmt := endsNonWS_fmtAttr (h kv (by simp))
      rw [show attrsFlat [kv] = ' ' :: fmtAttr kv ++ attrsFlat [] from rfl,
        show attrsFlat ([] : Attrs) = [] from rfl, List.append_nil,
        show (' ' :: fmtAttr kv : Str) = [' '] ++ fmtAttr kv from rfl,
        endsNonWS_append (endsNonWS_ne_nil hfmt)]
      exact hfmt
    | cons kv2 rest2 =>
      have hrec : endsNonWS (attrsFlat (kv2 :: rest2)) = true :=
        ih (by simp) (fun x hx => h x (List.mem_cons_of_mem _ hx))
      rw [show attrsFlat (kv :: kv2 :: rest2) =
            ' ' :: fmtAttr kv ++ attrsFlat (kv2 :: rest2) from rfl,
        show (' ' :: fmtAttr kv ++ attrsFlat (kv2 :: rest2) : Str) =
            (' ' :: fmtAttr kv) ++ attrsFlat (kv2 :: rest2) from by simp,
        endsNonWS_append (endsNonWS_ne_nil hrec)]
      exact hrec

theorem foldl_attrs (attrs : Attrs) : ∀ init : Str,
    attrs.foldl (fun acc kv => acc ++ ' ' :: fmtAttr kv) init = init ++ attrsFlat attrs := by
  induction attrs with
  | nil => intro init; simp [attrsFlat]
  | cons kv rest ih =>
    intro init
    rw [List.foldl_cons, ih]
    rw [show attrsFlat (kv :: rest) = ' ' :: fmtAttr kv ++ attrsFlat rest from rfl]
    simp

/-- With well-formed attributes the fold-and-trim of the renderer is exactly
the flat space-separated attribute list. -/
theorem renderAttrs_spec (attrs : Attrs) (h : ∀ kv ∈ attrs, attrRenderOk kv = true) :
    renderAttrs attrs = attrsFlat attrs := by
  unfold renderAttrs
  rw [foldl_attrs, List.nil_append]
  cases hr : attrs with
  | nil => rfl
  | cons kv rest =>
    rw [← hr]
    exact trimEndWS_endsNonWS (attrsFlat_endsNonWS (by simp [hr]) h)

theorem renderKids_endsNonWS {kids : List Node} (hne : kids ≠ [])
    (h : ∀ k ∈ kids, endsNonWS (renderNode k) = true) :
    endsNonWS (renderKids kids) = true := by
  induction kids with
  | nil => exact absurd rfl hne
  | cons c cs ih =>
    cases cs with
    | nil =>
      have hc := h c (by simp)
      rw [show renderKids [c] = ' ' :: renderNode c ++ renderKids [] from rfl,
        show renderKids [] = [] from rfl, List.append_nil,
        show (' ' :: renderNode c : Str) = [' '] ++ renderNode c from rfl,
        endsNonWS_append (endsNonWS_ne_nil hc)]
      exact hc
    | cons c2 cs2 =>
      have hrec : endsNonWS (renderKids (c2 :: cs2)) = true :=
        ih (by simp) (fun x hx => h x (List.mem_cons_of_mem _ hx))
      rw [show renderKids (c :: c2 :: cs2) =
            ' ' :: renderNode c ++ renderKids (c2 :: cs2) from rfl,
        show (' ' :: renderNode c ++ renderKids (c2 :: cs2) : Str) =
            (' ' :: renderNode c) ++ renderKids (c2 :: cs2) from by simp,
        endsNonWS_append (endsNonWS_ne_nil hrec)]
      exact hrec

theorem renderNode_empty_children (n : Str) (attrs : Attrs)
    (h : ∀ kv ∈ attrs, attrRenderOk kv = true) :
    renderNode (.tag n attrs []) = '<' :: n ++ attrsFlat attrs ++ ['/', '>'] := by
  rw [show renderNode (.tag n attrs []) =
        '<' :: n ++ renderAttrs attrs ++ ['/', '>'] from rfl]
  rw [renderAttrs_spec attrs h]

theorem renderNode_with_children (n : Str) (attrs : Attrs) (c : Node) (cs : List Node)
    (h : ∀ kv ∈ attrs, attrRenderOk kv = true)
    (hk : ∀ k ∈ c :: cs, endsNonWS (renderNode k) = true) :
    renderNode (.tag n attrs (c :: cs)) =
      '<' :: n ++ attrsFlat attrs ++ ['>'] ++ renderKids (c :: cs) ++
        '<' :: '/' :: n ++ ['>'] := by
  rw [show renderNode (.tag n attrs (c :: cs)) =
        '<' :: n ++ renderAttrs attrs ++ ['>'] ++ trimEndWS (renderKids (c :: cs)) ++
          '<' :: '/' :: n ++ ['>'] from rfl]
  rw [renderAttrs_spec attrs h,
    trimEndWS_endsNonWS (renderKids_endsNonWS (by simp) hk)]

/-! ## Claim-side definitions for corrected claims -/

/-- Dropping a single leading occurrence of a character (the claim's reading
of the strip pipeline). -/
def dropOneLead (c : Char) : Str → Str
  | [] => []
  | d :: rest => if d = c then rest else d :: rest

def dropOneTrail (c : Char) (s : Str) : Str :=
  (dropOneLead c s.reverse).reverse

/-- The words of a span under claim C4's description of the strip: one
leading `<`, an optional leading `!`, one trailing `>` and one trailing
`/`. -/
def claimWordsC4 (lit : Str) : List Str :=
  splitWS (dropOneTrail '/' (dropOneTrail '>' (dropOneLead '!' (dropOneLead '<' lit))))

/-- Claim C4 as stated: a span starting `<`, ending `>`, not starting `</`
is an open tag iff every word of the claim-side strip passes the heuristic. -/
def ClaimC4 : Prop :=
  ∀ (cs : Str) (t : Tok), t ∈ tokenize cs → t.literal.head? = some '<' →
    endsGt t.literal = true → startsLtSlash t.literal = false →
    ((∃ n a, t.kind = .openT n a) ↔ (claimWordsC4 t.literal).all wordOk = true)

/-- Splitting a word once at the first `=` (claim C6's reading). -/
def splitOnceEq : Str → Str × Option Str
  | [] => ([], none)
  | '=' :: rest => ([], some rest)
  | c :: rest => ((splitOnceEq rest).1 |> (c :: ·), (splitOnceEq rest).2)

/-- One attribute word under claim C6: split once on `=`, quotes stripped. -/
def claimAttrOfWord (w : Str) : Str × Str :=
  ((splitOnceEq w).1, trimEndChar '"' (trimStartChar '"' ((splitOnceEq w).2.getD [])))

/-- Claim C6 as stated: the attribute entries of an open tag come from
splitting each remaining word once on `=`. -/
def ClaimC6 : Prop :=
  ∀ (cs : Str) (t : Tok) (n : Str) (a : Attrs), t ∈ tokenize cs → t.kind = .openT n a →
    ∃ ws, splitWS (stripSpan t.literal) = n :: ws ∧
      a = ws.foldl (fun m w => insertAttr m (claimAttrOfWord w)) []

/-! ## Claim theorems -/

/-- C1: while parsing a non-self-closing open tag, reaching a close tag with
a different name, or exhausting the stream, yields the open tag as a
childless `Tag` node followed by every accumulated node as its siblings in
original order, leaving a mismatched close tag unconsumed; in particular
`<outer><inner>text</outer>` parses to a root `outer` whose children are
the childless tag `inner` followed by the text node `text`. -/
theorem c1_sibling_promotion :
    (∀ (n : Str) (a : Attrs) (s : List Node) (m l : Str) (rest : List Tok), m ≠ n →
      parseSibs n a s ({ kind := .closeT m, literal := l } :: rest) =
        .ok (.tag n a [] :: s, { kind := .closeT m, literal := l } :: rest)) ∧
    (∀ (n : Str) (a : Attrs) (s : List Node),
      parseSibs n a s [] = .ok (.tag n a [] :: s, [])) ∧
    parseInput "<outer><inner>text</outer>".toList =
      .ok ⟨[.tag "outer".toList []
        [.tag "inner".toList [] [], .text "text".toList]]⟩ := by
  refine ⟨?_, parseSibs_nil, by rfl⟩
  intro n a s m l rest hm
  rw [parseSibs_close]
  rw [if_neg hm]

theorem c1_witness :
    parseSibs ['a'] [] [.text ['x']]
        [{ kind := .closeT ['b'], literal := ['<', '/', 'b', '>'] }] =
      .ok ([.tag ['a'] [] [], .text ['x']],
        [{ kind := .closeT ['b'], literal := ['<', '/', 'b', '>'] }]) :=
  c1_sibling_promotion.1 ['a'] [] [.text ['x']] ['b'] ['<', '/', 'b', '>'] []
    (by decide)

/-- C2: parsing fails exactly when the stack machine finds a close tag whose
name matches no enclosing open tag (so it bubbles to the top level), and
this is the only failure; in particular `<outer>text</inner></outer>`
fails. -/
theorem c2_error_iff_unmatched_close :
    (∀ ts : List Tok, isErrE (parseTokens ts) = hasUnmatchedClose ts []) ∧
    parseInput "<outer>text</inner></outer>".toList =
      .error (closeErrMsg "inner".toList) := by
  refine ⟨?_, by rfl⟩
  intro ts
  rw [parseTokens_eq]
  have h := parseTop_err ts.length ts (le_refl _) []
  cases hpt : parseTop [] ts with
  | error e => rw [hpt] at h; exact h
  | ok ns => rw [hpt] at h; exact h

/-- C5: the text merger turns every run of adjacent text tokens into one
token concatenating contents and literals, passes other tokens through, and
its output never has two adjacent text tokens; the script body
`if (1 < 2) {alert("hi");}` comes out as a single merged text token. -/
theorem c5_text_merging :
    (∀ ts : List Tok, noAdjText (mergeTokens ts) = true) ∧
    (∀ c l c2 l2 rest, mergeTokens ({ kind := .textT c, literal := l } ::
        { kind := .textT c2, literal := l2 } :: rest) =
      mergeTokens ({ kind := .textT (c ++ c2), literal := l ++ l2 } :: rest)) ∧
    (∀ (t : Tok) (rest : List Tok), isTextTok t = false →
      mergeTokens (t :: rest) = t :: mergeTokens rest) ∧
    mergedTokens "<script>if (1 < 2) \x7balert(\"hi\");\x7d</script>".toList =
      [{ kind := .openT "script".toList [], literal := "<script>".toList },
       { kind := .textT "if (1 < 2) \x7balert(\"hi\");\x7d".toList,
         literal := "if (1 < 2) \x7balert(\"hi\");\x7d".toList },
       { kind := .closeT "script".toList, literal := "</script>".toList }] :=
  ⟨mergeTokens_noAdj, mergeTokens_textRun, mergeTokens_passthrough, by rfl⟩

theorem c5_witness :
    mergeTokens [{ kind := .closeT ['a'], literal := "</a>".toList }] =
      [{ kind := .closeT ['a'], literal := "</a>".toList }] :=
  c5_text_merging.2.2.1 { kind := .closeT ['a'], literal := "</a>".toList } [] rfl

/-- C7: every text node in a successfully parsed tree has trimmed, non-empty
content; `<tag>  text  </tag>` yields the single text child `text` and
whitespace-only content yields no child. -/
theorem c7_text_nodes_trimmed :
    (∀ (ts : List Tok) (d : Dom), parseTokens ts = .ok d →
      nodesTextsOk d.nodes = true) ∧
    parseInput "<tag>  text  </tag>".toList =
      .ok ⟨[.tag "tag".toList [] [.text "text".toList]]⟩ ∧
    parseInput "<tag>   </tag>".toList = .ok ⟨[.tag "tag".toList [] []]⟩ :=
  ⟨parseTokens_textsOk, by rfl, by rfl⟩

theorem c7_witness :
    nodesTextsOk [Node.tag "tag".toList [] [Node.text "text".toList]] = true :=
  c7_text_nodes_trimmed.1 (mergedTokens "<tag>  text  </tag>".toList)
    ⟨[.tag "tag".toList [] [.text "text".toList]]⟩ (by rfl)

/-- C8: `depth_first` visits every node in pre-order (each node before its
children, siblings in order) and equals the sequential fold over the
pre-order listing that stops at the first callback failure and returns it,
keeping the state (mutations) reached so far. -/
theorem c8_depth_first_preorder :
    ∀ (σ ε : Type) (cb : Node → σ → σ × Option ε) (d : Dom) (s : σ),
      depthFirst d cb s = runVisit cb (preorderList d.nodes) s :=
  fun _ _ cb d s => visitNotes_preorder cb d.nodes s

/-- C9: rendering is a pure function on trees: a childless tag renders
self-closing, a tag with children renders open tag, space-prefixed children,
close tag; a boolean (empty-valued) attribute renders as its bare name and a
valued one as `name="value"`; equal trees render identically. -/
theorem c9_render_shape :
    (∀ (n : Str) (attrs : Attrs), (∀ kv ∈ attrs, attrRenderOk kv = true) →
      renderNode (.tag n attrs []) = '<' :: n ++ attrsFlat attrs ++ ['/', '>']) ∧
    (∀ (n : Str) (attrs : Attrs) (c : Node) (cs : List Node),
      (∀ kv ∈ attrs, attrRenderOk kv = true) →
      (∀ k ∈ c :: cs, endsNonWS (renderNode k) = true) →
      renderNode (.tag n attrs (c :: cs)) =
        '<' :: n ++ attrsFlat attrs ++ ['>'] ++ renderKids (c :: cs) ++
          '<' :: '/' :: n ++ ['>']) ∧
    (∀ k : Str, fmtAttr (k, []) = k) ∧
    (∀ k v : Str, v ≠ [] → fmtAttr (k, v) = k ++ '=' :: '"' :: v ++ ['"']) ∧
    (∀ x y : Node, x = y → renderNode x = renderNode y) := by
  refine ⟨renderNode_empty_children, renderNode_with_children,
    fun k => by simp [fmtAttr], fun k v hv => ?_, fun x y h => by rw [h]⟩
  unfold fmtAttr
  rw [if_neg hv]

theorem c9_witness :
    renderNode (.tag ['a'] [(['b'], []), (['c'], ['d'])] []) =
        '<' :: ['a'] ++ attrsFlat [(['b'], []), (['c'], ['d'])] ++ ['/', '>'] ∧
    fmtAttr (['c'], ['d']) = ['c'] ++ '=' :: '"' :: ['d'] ++ ['"'] ∧
    renderNode (.tag ['a'] [] [.text ['x']]) =
        '<' :: ['a'] ++ attrsFlat [] ++ ['>'] ++ renderKids [.text ['x']] ++
          '<' :: '/' :: ['a'] ++ ['>'] :=
  ⟨c9_render_shape.1 ['a'] [(['b'], []), (['c'], ['d'])] (by decide),
   c9_render_shape.2.2.2.1 ['c'] ['d'] (by decide),
   c9_render_shape.2.1 ['a'] [] (.text ['x']) [] (by decide) (by decide)⟩

/-- C10: the tokenizer is lossless with respect to literals — concatenating
the literals of the tokens of any input reproduces the input exactly, and
the text merger preserves the literal concatenation. -/
theorem c10_literals_lossless :
    (∀ cs : Str, concatLits (tokenize cs) = cs) ∧
    (∀ ts : List Tok, concatLits (mergeTokens ts) = concatLits ts) ∧
    (∀ cs : Str, concatLits (mergedTokens cs) = cs) :=
  ⟨tokenize_lits, mergeTokens_lits, fun cs => by
    rw [mergedTokens, mergeTokens_lits, tokenize_lits]⟩

/-- C4 fails as stated: the span `<>` of input `<>` ends in `>`, starts with
`<` but not `</`, has an empty word list (so the claim's "every word"
condition holds vacuously), yet the tokenizer emits it as a text token, not
an open tag. -/
theorem c4_counterexample : ¬ ClaimC4 := by
  intro h
  have hiff := h ['<', '>'] { kind := .textT ['<', '>'], literal := ['<', '>'] }
    (by decide) rfl (by decide) (by decide)
  obtain ⟨n, a, hk⟩ := hiff.mpr (by decide)
  exact absurd hk (by simp)

/-- C4 (amended): for every emitted token whose literal starts with `<`, ends
with `>` and does not start with `</`, the token is an open tag iff the
strip pipeline (all leading `<`, then `!`, then `/`; all trailing `>`, then
`/`) leaves a non-empty word list whose words all pass the heuristic. -/
theorem c4_amended_classification :
    ∀ (cs : Str) (t : Tok), t ∈ tokenize cs → t.literal.head? = some '<' →
      endsGt t.literal = true → startsLtSlash t.literal = false →
      ((∃ n a, t.kind = .openT n a) ↔
        (splitWS (stripSpan t.literal) ≠ [] ∧
          (splitWS (stripSpan t.literal)).all wordOk = true)) := by
  intro cs t ht hhead hend hsls
  have hlt : '<' ∈ t.literal := by
    cases hl : t.literal with
    | nil => rw [hl] at hhead; cases hhead
    | cons c rest =>
      rw [hl] at hhead
      simp only [List.head?_cons, Option.some.injEq] at hhead
      rw [hhead]
      simp
  have hgt : '>' ∈ t.literal := by
    unfold endsGt at hend
    cases hr : t.literal.reverse with
    | nil => rw [hr] at hend; cases hend
    | cons c rest =>
      rw [hr] at hend
      have hc : c = '>' := by
        by_contra hc
        simp [hc] at hend
      have : c ∈ t.literal.reverse := by rw [hr]; simp
      rw [← hc]
      exact List.mem_reverse.mp this
  have hshape := tokenize_shape cs t ht hlt hgt
  rw [classifySpan_stripSpan, if_neg (by simp [hsls])] at hshape
  cases hws : splitWS (stripSpan t.literal) with
  | nil =>
    rw [hws] at hshape
    dsimp only at hshape
    constructor
    · rintro ⟨n, a, hk⟩
      rw [hshape] at hk
      simp at hk
    · rintro ⟨hne, _⟩
      exact absurd rfl hne
  | cons w ws =>
    rw [hws] at hshape
    dsimp only at hshape
    by_cases hall : (w :: ws).all wordOk = true
    · rw [if_pos hall] at hshape
      constructor
      · intro _
        exact ⟨by simp, hall⟩
      · intro _
        exact ⟨w, ws.foldl (fun m word => insertAttr m (attrOfWord word)) [],
          by rw [hshape]⟩
    · rw [if_neg hall] at hshape
      constructor
      · rintro ⟨n, a, hk⟩
        rw [hshape] at hk
        simp at hk
      · rintro ⟨_, hall2⟩
        exact absurd hall2 hall

theorem c4_amended_witness :
    (∃ n a, (Tok.mk (.openT ['a'] []) ['<', 'a', '>']).kind = .openT n a) ↔
      (splitWS (stripSpan ['<', 'a', '>']) ≠ [] ∧
        (splitWS (stripSpan ['<', 'a', '>'])).all wordOk = true) :=
  c4_amended_classification ['<', 'a', '>'] (Tok.mk (.openT ['a'] []) ['<', 'a', '>'])
    (by decide) rfl (by decide) (by decide)

/-- C6 fails as stated: in `<t a="b=c"/>` the attribute word `a="b=c"` is
split at every `=` and only the second part is kept, so the stored value is
`b`, not the split-once value `b=c`. -/
theorem c6_counterexample : ¬ ClaimC6 := by
  intro h
  obtain ⟨ws, h1, h2⟩ := h "<t a=\"b=c\"/>".toList
    { kind := .openT ['t'] [(['a'], ['b'])], literal := "<t a=\"b=c\"/>".toList }
    ['t'] [(['a'], ['b'])] (by decide) rfl
  rw [show splitWS (stripSpan ("<t a=\"b=c\"/>".toList)) =
        [['t'], "a=\"b=c\"".toList] from by decide] at h1
  have hws : ws = ["a=\"b=c\"".toList] := by
    cases h1
    rfl
  subst hws
  exact absurd h2 (by decide)

/-- C6 (amended): for a span classified as an open tag, the name is the first
word and each remaining word yields one attribute by splitting at every `=`,
keeping the first part as name and the second (quote-stripped, defaulting to
empty) as value; boolean attributes parse as claimed regardless of extra
whitespace. -/
theorem c6_amended_attributes :
    (∀ (cs : Str) (t : Tok) (n : Str) (a : Attrs), t ∈ tokenize cs →
      t.kind = .openT n a →
      ∃ ws, splitWS (stripSpan t.literal) = n :: ws ∧
        (n :: ws).all wordOk = true ∧
        a = ws.foldl (fun m w => insertAttr m (attrOfWord w)) []) ∧
    mergedTokens "<tag one two three/>".toList =
      [{ kind := .openT "tag".toList
          [("one".toList, []), ("two".toList, []), ("three".toList, [])],
         literal := "<tag one two three/>".toList }] ∧
    mergedTokens "<tag   one    two    three />".toList =
      [{ kind := .openT "tag".toList
          [("one".toList, []), ("two".toList, []), ("three".toList, [])],
         literal := "<tag   one    two    three />".toList }] := by
  refine ⟨?_, by rfl, by rfl⟩
  intro cs t n a ht hk
  have hshape := tokenize_open_shape cs t ht n a hk
  rw [classifySpan_stripSpan] at hshape
  by_cases hsls : startsLtSlash t.literal = true
  · rw [if_pos hsls] at hshape
    rw [hshape] at hk
    simp at hk
  · rw [if_neg hsls] at hshape
    cases hws : splitWS (stripSpan t.literal) with
    | nil =>
      rw [hws] at hshape
      dsimp only at hshape
      rw [hshape] at hk
      simp at hk
    | cons w ws =>
      rw [hws] at hshape
      dsimp only at hshape
      by_cases hall : (w :: ws).all wordOk = true
      · rw [if_pos hall] at hshape
        rw [hshape] at hk
        simp only [TokKind.openT.injEq] at hk
        exact ⟨ws, by rw [hk.1], by rw [← hk.1]; exact hall, hk.2.symm⟩
      · rw [if_neg hall] at hshape
        rw [hshape] at hk
        simp at hk

theorem c6_amended_witness :
    ∃ ws, splitWS (stripSpan ("<tag one/>".toList)) = "tag".toList :: ws ∧
      ("tag".toList :: ws).all wordOk = true ∧
      [("one".toList, [])] = ws.foldl (fun m w => insertAttr m (attrOfWord w)) [] :=
  c6_amended_attributes.1 "<tag one/>".toList
    { kind := .openT "tag".toList [("one".toList, [])],
      literal := "<tag one/>".toList }
    "tag".toList [("one".toList, [])] (by decide) rfl

/-! ## Round-trip: balanced inputs -/

/-- A balanced shape over the merged token stream: text tokens, self-closing
tags, and properly matched open/close pairs (claim C3's hypothesis that
every open tag has a matching close tag and tags are properly nested). -/
inductive Item where
  | txt (c : Str)
  | tagE (n : Str) (a : Attrs) (lit : Str)
  | tagC (n : Str) (a : Attrs) (lit : Str) (clit : Str) (children : List Item)

mutual

def itemToks : Item → List Tok
  | .txt c => [{ kind := .textT c, literal := c }]
  | .tagE n a lit => [{ kind := .openT n a, literal := lit }]
  | .tagC n a lit clit ch =>
    { kind := .openT n a, literal := lit } :: (itemsToks ch ++ [{ kind := .closeT n, literal := clit }])

def itemsToks : List Item → List Tok
  | [] => []
  | i :: rest => itemToks i ++ itemsToks rest

end

mutual

/-- Structural well-formedness: a `tagE` literal is self-closing, a `tagC`
literal is not. -/
def wfItem : Item → Bool
  | .txt _ => true
  | .tagE _ _ lit => selfClosingLit lit
  | .tagC _ _ lit _ ch => !selfClosingLit lit && wfItems ch

def wfItems : List Item → Bool
  | [] => true
  | i :: rest => wfItem i && wfItems rest

end

mutual

/-- The tree the parser builds from a balanced stream. -/
def itemNodes : Item → List Node
  | .txt c => if trimWS c = [] then [] else [.text (trimWS c)]
  | .tagE n a _ => [.tag n a []]
  | .tagC n a _ _ ch => [.tag n a (itemsNodes ch)]

def itemsNodes : List Item → List Node
  | [] => []
  | i :: rest => itemNodes i ++ itemsNodes rest

end

/-- Claim C3 as stated: any input whose merged token stream is balanced
parses, and re-parsing the rendered output gives a structurally equal
tree. -/
def ClaimC3 : Prop :=
  ∀ (s : Str) (its : List Item), mergedTokens s = itemsToks its → wfItems its = true →
    ∃ nodes, parseTokens (mergedTokens s) = .ok ⟨nodes⟩ ∧
      parseTokens (mergedTokens (renderDom ⟨nodes⟩)) = .ok ⟨nodes⟩

/-! Cleanliness conditions under which the round trip does hold. -/

def noAngle (s : Str) : Bool :=
  s.all (fun c => !(c = '<') && !(c = '>'))

def cleanName (n : Str) : Bool :=
  decide (n ≠ []) && n.all isAlphaRust

def cleanValChar (c : Char) : Bool :=
  !isWSRust c && !(c = '<') && !(c = '>') && !(c = '"') && !(c = '=')

def cleanAttrPair (kv : Str × Str) : Bool :=
  cleanName kv.1 && kv.2.all cleanValChar

def cleanAttrList (a : Attrs) : Bool :=
  a.all cleanAttrPair && decide (a.map Prod.fst).Nodup

def isTxtItem : Item → Bool
  | .txt _ => true
  | _ => false

mutual

def cleanItem : Item → Bool
  | .txt c => noAngle c
  | .tagE n a lit => cleanName n && cleanAttrList a && selfClosingLit lit
  | .tagC n a lit _ ch =>
    cleanName n && cleanAttrList a && !selfClosingLit lit && cleanItems ch

def cleanItems : List Item → Bool
  | [] => true
  | [i] => cleanItem i
  | i :: j :: rest => cleanItem i && !(isTxtItem i && isTxtItem j) && cleanItems (j :: rest)

end

def isTextNode : Node → Bool
  | .text _ => true
  | _ => false

mutual

/-- A clean forest: text nodes are trimmed, non-empty and free of angle
brackets, tag names are non-empty alphabetic, attributes have non-empty
alphabetic distinct names and values without whitespace, angle brackets,
quotes or `=`, and no two text nodes are adjacent. -/
def cleanNode : Node → Bool
  | .text c => decide (trimWS c = c) && decide (c ≠ []) && noAngle c
  | .tag n a ch => cleanName n && cleanAttrList a && cleanNodes ch

def cleanNodes : List Node → Bool
  | [] => true
  | [n] => cleanNode n
  | n :: m :: rest => cleanNode n && !(isTextNode n && isTextNode m) && cleanNodes (m :: rest)

end

/-! The canonical token stream of re-tokenizing a rendered clean forest. -/

def emitText (p : Str) : List Tok :=
  if p = [] then [] else [{ kind := .textT p, literal := p }]

def openLit (n : Str) (a : Attrs) : Str :=
  '<' :: n ++ attrsFlat a ++ ['>']

def openLitSelf (n : Str) (a : Attrs) : Str :=
  '<' :: n ++ attrsFlat a ++ ['/', '>']

def closeLit (n : Str) : Str :=
  '<' :: '/' :: n ++ ['>']

mutual

/-- Re-tokenizing a rendered node, carrying the pending text accumulated
since the last `>`: a text node only grows the pending text, a tag flushes
it and contributes its own spans. Returns the tokens and the new pending
text. -/
def canonNode (p : Str) : Node → List Tok × Str
  | .text c => ([], p ++ c)
  | .tag n a ch =>
    match ch with
    | [] => (emitText p ++ [{ kind := .openT n a, literal := openLitSelf n a }], [])
    | c :: cs =>
      (emitText p ++ [{ kind := .openT n a, literal := openLit n a }] ++
        (canonKids [] (c :: cs)).1 ++ emitText (canonKids [] (c :: cs)).2 ++
        [{ kind := .closeT n, literal := closeLit n }], [])

def canonKids (p : Str) : List Node → List Tok × Str
  | [] => ([], p)
  | c :: cs =>
    ((canonNode (p ++ [' ']) c).1 ++ (canonKids ((canonNode (p ++ [' ']) c).2) cs).1,
     (canonKids ((canonNode (p ++ [' ']) c).2) cs).2)

end

def canonRoots (p : Str) : List Node → List Tok
  | [] => emitText p
  | n :: rest => (canonNode p n).1 ++ canonRoots ((canonNode p n).2 ++ ['\n']) rest

/-! Parsing a balanced stream succeeds and builds `itemNodes`. -/

mutual

theorem itemToks_parseNode : ∀ (i : Item), wfItem i = true → ∀ (tail : List Tok),
    ∃ h r, itemToks i = h :: r ∧ (∀ m, h.kind ≠ .closeT m) ∧
      parseNode h (r ++ tail) = .ok (itemNodes i, tail)
  | .txt c, _, tail => by
    refine ⟨{ kind := .textT c, literal := c }, [], rfl, ?_, ?_⟩
    · intro m hcon
      cases hcon
    · rw [List.nil_append, parseNode_text]
      rfl
  | .tagE n a lit, hwf, tail => by
    refine ⟨{ kind := .openT n a, literal := lit }, [], rfl, ?_, ?_⟩
    · intro m hcon
      cases hcon
    · rw [List.nil_append,
        parseNode_open_self n a lit tail (by simpa [wfItem] using hwf)]
      rfl
  | .tagC n a lit clit ch, hwf, tail => by
    rw [show wfItem (.tagC n a lit clit ch) =
          (!selfClosingLit lit && wfItems ch) from rfl, Bool.and_eq_true] at hwf
    refine ⟨{ kind := .openT n a, literal := lit },
      itemsToks ch ++ [{ kind := .closeT n, literal := clit }], ?_, ?_, ?_⟩
    · rfl
    · intro m hcon
      cases hcon
    · rw [parseNode_open n a lit _ (by simpa using hwf.1)]
      rw [List.append_assoc, List.singleton_append]
      rw [itemsToks_parseSibs ch hwf.2 n a [] clit tail]
      rfl

theorem itemsToks_parseSibs : ∀ (its : List Item), wfItems its = true →
    ∀ (n : Str) (a : Attrs) (s : List Node) (clit : Str) (tail : List Tok),
    parseSibs n a s (itemsToks its ++ { kind := .closeT n, literal := clit } :: tail) =
      .ok ([.tag n a (s ++ itemsNodes its)], tail)
  | [], _, n, a, s, clit, tail => by
    rw [show itemsToks [] = [] from rfl, List.nil_append, parseSibs_close]
    rw [if_pos rfl]
    rw [show itemsNodes [] = [] from rfl, List.append_nil]
  | i :: rest, hwf, n, a, s, clit, tail => by
    rw [show wfItems (i :: rest) = (wfItem i && wfItems rest) from rfl,
      Bool.and_eq_true] at hwf
    obtain ⟨h, r, hitem, hnc, hpn⟩ := itemToks_parseNode i hwf.1
      (itemsToks rest ++ { kind := .closeT n, literal := clit } :: tail)
    rw [show itemsToks (i :: rest) = itemToks i ++ itemsToks rest from rfl, hitem]
    simp only [List.cons_append, List.append_assoc]
    rw [parseSibs_step n a s h _ hnc, hpn]
    dsimp only
    rw [itemsToks_parseSibs rest hwf.2 n a (s ++ itemNodes i) clit tail]
    rw [show itemsNodes (i :: rest) = itemNodes i ++ itemsNodes rest from rfl,
      List.append_assoc]

end

theorem itemsToks_parseTop : ∀ (its : List Item), wfItems its = true →
    ∀ acc : List Node, parseTop acc (itemsToks its) = .ok (acc ++ itemsNodes its)
  | [], _, acc => by
    rw [show itemsToks [] = [] from rfl, parseTop_nil,
      show itemsNodes [] = [] from rfl, List.append_nil]
  | i :: rest, hwf, acc => by
    rw [show wfItems (i :: rest) = (wfItem i && wfItems rest) from rfl,
      Bool.and_eq_true] at hwf
    obtain ⟨h, r, hitem, _, hpn⟩ := itemToks_parseNode i hwf.1 (itemsToks rest)
    rw [show itemsToks (i :: rest) = itemToks i ++ itemsToks rest from rfl, hitem]
    simp only [List.cons_append]
    rw [parseTop_cons, hpn]
    dsimp only
    rw [itemsToks_parseTop rest hwf.2 (acc ++ itemNodes i)]
    rw [show itemsNodes (i :: rest) = itemNodes i ++ itemsNodes rest from rfl,
      List.append_assoc]

/-! A balanced clean stream yields a clean forest. -/

theorem sublist_all {p : Char → Bool} {l1 l2 : Str} (hsub : List.Sublist l1 l2)
    (h : l2.all p = true) : l1.all p = true := by
  rw [List.all_eq_true] at h ⊢
  intro x hx
  exact h x (hsub.subset hx)

theorem trimWS_sublist (s : Str) : List.Sublist (trimWS s) s := by
  unfold trimWS
  have h1 : List.Sublist (trimStartWS s) s := (List.dropWhile_suffix isWSRust).sublist
  have h2 : List.Sublist (trimEndWS (trimStartWS s)) (trimStartWS s) := by
    rw [trimEndWS_eq_rdropWhile]
    exact (List.rdropWhile_prefix isWSRust (trimStartWS s)).sublist
  exact h2.trans h1

theorem noAngle_trimWS {c : Str} (h : noAngle c = true) : noAngle (trimWS c) = true :=
  sublist_all (trimWS_sublist c) h

theorem cleanNodes_cons_of {n : Node} {l : List Node} (h1 : cleanNode n = true)
    (h2 : cleanNodes l = true)
    (h3 : ∀ m tl, l = m :: tl → (isTextNode n && isTextNode m) = false) :
    cleanNodes (n :: l) = true := by
  cases l with
  | nil => exact h1
  | cons m tl =>
    rw [show cleanNodes (n :: m :: tl) =
          (cleanNode n && !(isTextNode n && isTextNode m) && cleanNodes (m :: tl)) from rfl]
    rw [h1, h2, h3 m tl rfl]
    rfl

theorem nonTxt_itemNodes {i : Item} (h : isTxtItem i = false) :
    ∃ n a ch, itemNodes i = [.tag n a ch] := by
  cases i with
  | txt c => simp [isTxtItem] at h
  | tagE n a lit => exact ⟨n, a, [], rfl⟩
  | tagC n a lit clit ch => exact ⟨n, a, itemsNodes ch, rfl⟩

mutual

theorem cleanItem_node : ∀ (i : Item), cleanItem i = true → cleanNodes (itemNodes i) = true
  | .txt c, hc => by
    rw [show itemNodes (.txt c) =
          (if trimWS c = [] then [] else [.text (trimWS c)]) from rfl]
    by_cases ht : trimWS c = []
    · rw [if_pos ht]
      rfl
    · rw [if_neg ht]
      rw [show cleanNodes [.text (trimWS c)] = cleanNode (.text (trimWS c)) from rfl]
    
      rw [show cleanNode (.text (trimWS c)) =
            (decide (trimWS (trimWS c) = trimWS c) && decide (trimWS c ≠ []) &&
              noAngle (trimWS c)) from rfl]
      rw [trimWS_idem, noAngle_trimWS hc]
      simp [ht]
  | .tagE n a lit, hc => by
    rw [show cleanItem (.tagE n a lit) =
          (cleanName n && cleanAttrList a && selfClosingLit lit) from rfl,
      Bool.and_eq_true, Bool.and_eq_true] at hc
    rw [show itemNodes (.tagE n a lit) = [.tag n a []] from rfl,
      show cleanNodes [Node.tag n a []] = cleanNode (.tag n a []) from rfl,
      show cleanNode (.tag n a []) =
        (cleanName n && cleanAttrList a && cleanNodes []) from rfl]
    rw [hc.1.1, hc.1.2]
    rfl
  | .tagC n a lit clit ch, hc => by
    rw [show cleanItem (.tagC n a lit clit ch) =
          (cleanName n && cleanAttrList a && !selfClosingLit lit && cleanItems ch) from rfl,
      Bool.and_eq_true, Bool.and_eq_true, Bool.and_eq_true] at hc
    rw [show itemNodes (.tagC n a lit clit ch) = [.tag n a (itemsNodes ch)] from rfl,
      show cleanNodes [Node.tag n a (itemsNodes ch)] =
        cleanNode (.tag n a (itemsNodes ch)) from rfl,
      show cleanNode (.tag n a (itemsNodes ch)) =
        (cleanName n && cleanAttrList a && cleanNodes (itemsNodes ch)) from rfl]
    rw [hc.1.1.1, hc.1.1.2, cleanItems_nodes ch hc.2]
    rfl

theorem cleanItems_nodes : ∀ (its : List Item), cleanItems its = true →
    cleanNodes (itemsNodes its) = true
  | [], _ => rfl
  | [i], hc => by
    rw [show itemsNodes [i] = itemNodes i ++ itemsNodes [] from rfl,
      show itemsNodes [] = [] from rfl, List.append_nil]
    exact cleanItem_node i hc
  | i :: j :: rest, hc => by
    rw [show cleanItems (i :: j :: rest) =
          (cleanItem i && !(isTxtItem i && isTxtItem j) && cleanItems (j :: rest)) from rfl,
      Bool.and_eq_true, Bool.and_eq_true] at hc
    have hrec : cleanNodes (itemsNodes (j :: rest)) = true :=
      cleanItems_nodes (j :: rest) hc.2
    rw [show itemsNodes (i :: j :: rest) = itemNodes i ++ itemsNodes (j :: rest) from rfl]
    by_cases hi : isTxtItem i = true
    · obtain ⟨c, rfl⟩ : ∃ c, i = .txt c := by
        cases i with
        | txt c => exact ⟨c, rfl⟩
        | tagE n a lit => simp [isTxtItem] at hi
        | tagC n a lit clit ch => simp [isTxtItem] at hi
      rw [show itemNodes (.txt c) =
            (if trimWS c = [] then [] else [.text (trimWS c)]) from rfl]
      by_cases ht : trimWS c = []
      · rw [if_pos ht, List.nil_append]
        exact hrec
      · rw [if_neg ht, List.singleton_append]
        have hj : isTxtItem j = false := by
          cases hval : isTxtItem j
          · rfl
          · have hx := hc.1.2
            rw [hi, hval] at hx
            simp at hx
        obtain ⟨jn, ja, jch, hjeq⟩ := nonTxt_itemNodes hj
        have hclean : cleanNode (.text (trimWS c)) = true := by
          have hcc : cleanNodes (itemNodes (.txt c)) = true := cleanItem_node _ hc.1.1
          rw [show itemNodes (.txt c) =
                (if trimWS c = [] then [] else [.text (trimWS c)]) from rfl,
            if_neg ht] at hcc
          exact hcc
        refine cleanNodes_cons_of hclean hrec ?_
        intro m tl heq
        rw [show itemsNodes (j :: rest) = itemNodes j ++ itemsNodes rest from rfl,
          hjeq, List.singleton_append] at heq
        cases heq
        rfl
    · have hi2 : isTxtItem i = false := by
        cases hval : isTxtItem i
        · rfl
        · exact absurd hval hi
      obtain ⟨n2, a2, ch2, heq⟩ := nonTxt_itemNodes hi2
      rw [heq, List.singleton_append]
      refine cleanNodes_cons_of ?_ hrec ?_
      · have := cleanItem_node i hc.1.1
        rw [heq] at this
        exact this
      · intro m tl _
        rfl

end

/-! Character-level facts for clean names and values. -/

theorem isAlphaRust_props {c : Char} (h : isAlphaRust c = true) :
    ('a' ≤ c ∧ c ≤ 'z') ∨ ('A' ≤ c ∧ c ≤ 'Z') := by
  unfold isAlphaRust at h
  simp only [Bool.or_eq_true, Bool.and_eq_true, decide_eq_true_eq] at h
  exact h

theorem isAlphaRust_ne {c d : Char} (h : isAlphaRust c = true)
    (hd : isAlphaRust d = false) : c ≠ d := by
  intro he
  rw [he] at h
  rw [h] at hd
  cases hd

theorem isAlphaRust_not_WS {c : Char} (h : isAlphaRust c = true) :
    isWSRust c = false := by
  cases hw : isWSRust c
  · rfl
  · exfalso
    unfold isWSRust at hw
    simp only [Bool.or_eq_true, Bool.and_eq_true, decide_eq_true_eq] at hw
    rcases isAlphaRust_props h with ⟨h1, h2⟩ | ⟨h1, h2⟩ <;>
      rcases hw with
        ((((((((((((((he | he) | he) | he) | he) | he) | he) | he) | he) |
          ⟨ha, hb⟩) | he) | he) | he) | he) | he) <;>
      first
        | (subst he
           first
             | exact absurd h1 (by decide)
             | exact absurd h2 (by decide))
        | exact absurd (le_trans ha h2) (by decide)

theorem cleanValChar_props {c : Char} (h : cleanValChar c = true) :
    isWSRust c = false ∧ c ≠ '<' ∧ c ≠ '>' ∧ c ≠ '"' ∧ c ≠ '=' := by
  unfold cleanValChar at h
  simp only [Bool.and_eq_true, Bool.not_eq_true', decide_eq_false_iff_not] at h
  exact ⟨h.1.1.1.1, h.1.1.1.2, h.1.1.2, h.1.2, h.2⟩

theorem cleanName_noAngle {n : Str} (h : cleanName n = true) : noAngle n = true := by
  rw [show cleanName n = (decide (n ≠ []) && n.all isAlphaRust) from rfl,
    Bool.and_eq_true] at h
  unfold noAngle
  rw [List.all_eq_true] at h ⊢
  intro c hc
  have ha := h.2 c hc
  simp only [Bool.and_eq_true, Bool.not_eq_true', decide_eq_false_iff_not]
  exact ⟨isAlphaRust_ne ha (by decide), isAlphaRust_ne ha (by decide)⟩

theorem cleanName_noWS {n : Str} (h : cleanName n = true) :
    n.all (fun c => !isWSRust c) = true := by
  rw [show cleanName n = (decide (n ≠ []) && n.all isAlphaRust) from rfl,
    Bool.and_eq_true] at h
  rw [List.all_eq_true] at h ⊢
  intro c hc
  simp [isAlphaRust_not_WS (h.2 c hc)]

theorem noAngle_append {x y : Str} :
    noAngle (x ++ y) = (noAngle x && noAngle y) := by
  unfold noAngle
  rw [List.all_append]

theorem fmtAttr_noWS {kv : Str × Str} (h : cleanAttrPair kv = true) :
    (fmtAttr kv).all (fun c => !isWSRust c) = true := by
  rw [show cleanAttrPair kv = (cleanName kv.1 && kv.2.all cleanValChar) from rfl,
    Bool.and_eq_true] at h
  unfold fmtAttr
  by_cases hv : kv.2 = []
  · rw [if_pos hv]
    exact cleanName_noWS h.1
  · rw [if_neg hv]
    rw [List.all_eq_true]
    intro c hc
    simp only [List.mem_append, List.mem_cons, List.not_mem_nil, or_false] at hc
    rcases hc with (hc | hc | hc | hc) | hc
    · have := cleanName_noWS h.1
      rw [List.all_eq_true] at this
      exact this c hc
    · subst hc; decide
    · subst hc; decide
    · have hall := h.2
      rw [List.all_eq_true] at hall
      simp [(cleanValChar_props (hall c hc)).1]
    · subst hc; decide

theorem fmtAttr_noAngle {kv : Str × Str} (h : cleanAttrPair kv = true) :
    noAngle (fmtAttr kv) = true := by
  rw [show cleanAttrPair kv = (cleanName kv.1 && kv.2.all cleanValChar) from rfl,
    Bool.and_eq_true] at h
  unfold fmtAttr
  by_cases hv : kv.2 = []
  · rw [if_pos hv]
    exact cleanName_noAngle h.1
  · rw [if_neg hv]
    unfold noAngle
    rw [List.all_eq_true]
    intro c hc
    simp only [List.mem_append, List.mem_cons, List.not_mem_nil, or_false] at hc
    rcases hc with (hc | hc | hc | hc) | hc
    · have := cleanName_noAngle h.1
      unfold noAngle at this
      rw [List.all_eq_true] at this
      exact this c hc
    · subst hc; decide
    · subst hc; decide
    · have hall := h.2
      rw [List.all_eq_true] at hall
      have hp := cleanValChar_props (hall c hc)
      simp only [Bool.and_eq_true, Bool.not_eq_true', decide_eq_false_iff_not]
      exact ⟨hp.2.1, hp.2.2.1⟩
    · subst hc; decide

theorem fmtAttr_ne_nil {kv : Str × Str} (h : cleanAttrPair kv = true) :
    fmtAttr kv ≠ [] := by
  rw [show cleanAttrPair kv = (cleanName kv.1 && kv.2.all cleanValChar) from rfl,
    Bool.and_eq_true] at h
  have hk : kv.1 ≠ [] := by
    have := h.1
    rw [show cleanName kv.1 = (decide (kv.1 ≠ []) && kv.1.all isAlphaRust) from rfl,
      Bool.and_eq_true, decide_eq_true_eq] at this
    exact this.1
  unfold fmtAttr
  by_cases hv : kv.2 = []
  · rw [if_pos hv]
    exact hk
  · rw [if_neg hv]
    intro hcon
    cases hl : kv.1 with
    | nil => exact hk hl
    | cons a b => rw [hl] at hcon; cases hcon

theorem attrsFlat_noAngle {a : Attrs} (h : a.all cleanAttrPair = true) :
    noAngle (attrsFlat a) = true := by
  induction a with
  | nil => rfl
  | cons kv rest ih =>
    rw [List.all_cons, Bool.and_eq_true] at h
    rw [show attrsFlat (kv :: rest) = ' ' :: fmtAttr kv ++ attrsFlat rest from rfl]
    rw [show (' ' :: fmtAttr kv ++ attrsFlat rest : Str) =
          (' ' :: fmtAttr kv) ++ attrsFlat rest from by simp,
      noAngle_append, show (' ' :: fmtAttr kv : Str) = [' '] ++ fmtAttr kv from rfl,
      noAngle_append]
    rw [fmtAttr_noAngle h.1, ih h.2]
    rfl

/-! Strip-pipeline facts on rendered tag literals. -/

theorem trimStartChar_of_head_ne {c : Char} : ∀ {x : Str},
    (∀ d rest, x = d :: rest → d ≠ c) → trimStartChar c x = x := by
  intro x hx
  cases x with
  | nil => rfl
  | cons d rest =>
    unfold trimStartChar
    rw [List.dropWhile_cons_of_neg]
    simp [hx d rest rfl]

theorem trimStartChar_cons_self {c : Char} {x : Str}
    (hx : ∀ d rest, x = d :: rest → d ≠ c) : trimStartChar c (c :: x) = x := by
  unfold trimStartChar
  rw [List.dropWhile_cons_of_pos (by simp)]
  exact trimStartChar_of_head_ne hx

theorem trimEndChar_concat_ne {c d : Char} {x : Str} (h : d ≠ c) :
    trimEndChar c (x ++ [d]) = x ++ [d] := by
  unfold trimEndChar trimStartChar
  rw [List.reverse_append]
  simp only [List.reverse_cons, List.reverse_nil, List.nil_append,
    List.singleton_append]
  rw [List.dropWhile_cons_of_neg (by simp [h])]
  simp

theorem trimEndChar_concat_self (c : Char) (x : Str) :
    trimEndChar c (x ++ [c]) = trimEndChar c x := by
  unfold trimEndChar trimStartChar
  rw [List.reverse_append]
  simp only [List.reverse_cons, List.reverse_nil, List.nil_append,
    List.singleton_append]
  rw [List.dropWhile_cons_of_pos (by simp)]

/-! Word-level round-trip of a rendered attribute. -/

theorem splitOnEq_no_eq : ∀ {w : Str}, '=' ∉ w → splitOnEq w = [w]
  | [], _ => rfl
  | c :: rest, h => by
    have hc : ¬ c = '=' := fun he => h (by rw [he]; simp)
    have hrest : '=' ∉ rest := fun hm => h (List.mem_cons_of_mem c hm)
    rw [show splitOnEq (c :: rest) =
          (if c = '=' then [] :: splitOnEq rest
           else match splitOnEq rest with
             | [] => [[c]]
             | p :: ps => (c :: p) :: ps) from rfl]
    rw [if_neg hc, splitOnEq_no_eq hrest]

theorem splitOnEq_append : ∀ {k : Str}, '=' ∉ k → ∀ r : Str,
    splitOnEq (k ++ '=' :: r) = k :: splitOnEq r
  | [], _, r => by
    rw [List.nil_append]
    rw [show splitOnEq ('=' :: r) =
          (if ('=' : Char) = '=' then [] :: splitOnEq r
           else match splitOnEq r with
             | [] => [['=']]
             | p :: ps => ('=' :: p) :: ps) from rfl]
    rw [if_pos rfl]
  | c :: k, h, r => by
    have hc : ¬ c = '=' := fun he => h (by rw [he]; simp)
    have hk : '=' ∉ k := fun hm => h (List.mem_cons_of_mem c hm)
    rw [List.cons_append]
    rw [show splitOnEq (c :: (k ++ '=' :: r)) =
          (if c = '=' then [] :: splitOnEq (k ++ '=' :: r)
           else match splitOnEq (k ++ '=' :: r) with
             | [] => [[c]]
             | p :: ps => (c :: p) :: ps) from rfl]
    rw [if_neg hc, splitOnEq_append hk r]

theorem hasEqQuote_cons {rest : Str} (c : Char) (h : hasEqQuote rest = true) :
    hasEqQuote (c :: rest) = true := by
  cases rest with
  | nil => cases h
  | cons d rest2 =>
    rw [show hasEqQuote (c :: d :: rest2) =
          ((c = '=' && d = '"') || hasEqQuote (d :: rest2)) from rfl]
    rw [h]
    simp

theorem hasEqQuote_here (r : Str) : hasEqQuote ('=' :: '"' :: r) = true := by
  rw [show hasEqQuote ('=' :: '"' :: r) =
        ((('=' : Char) = '=' && ('"' : Char) = '"') || hasEqQuote ('"' :: r)) from rfl]
  simp

theorem hasEqQuote_mid : ∀ (k : Str) (r : Str), hasEqQuote (k ++ '=' :: '"' :: r) = true
  | [], r => hasEqQuote_here r
  | c :: k, r => by
    rw [List.cons_append]
    exact hasEqQuote_cons c (hasEqQuote_mid k r)

theorem attrOfWord_bare {k : Str} (h : '=' ∉ k) : attrOfWord k = (k, []) := by
  unfold attrOfWord
  rw [splitOnEq_no_eq h]
  rfl

theorem attrOfWord_valued {k v : Str} (hk : '=' ∉ k) (hv : v.all cleanValChar = true)
    (hvne : v ≠ []) : attrOfWord ((k ++ '=' :: '"' :: v) ++ ['"']) = (k, v) := by
  have hveq : '=' ∉ v := by
    intro hm
    rw [List.all_eq_true] at hv
    exact absurd rfl (cleanValChar_props (hv '=' hm)).2.2.2.2
  have hvq : '"' ∉ v := by
    intro hm
    rw [List.all_eq_true] at hv
    exact absurd rfl (cleanValChar_props (hv '"' hm)).2.2.2.1
  unfold attrOfWord
  rw [show ((k ++ '=' :: '"' :: v) ++ ['"'] : Str) = k ++ '=' :: ('"' :: v ++ ['"']) from by
    simp]
  rw [splitOnEq_append hk]
  have hrest : splitOnEq ('"' :: v ++ ['"']) = ['"' :: v ++ ['"']] := by
    refine splitOnEq_no_eq ?_
    intro hm
    simp only [List.mem_append, List.mem_cons, List.not_mem_nil, or_false] at hm
    rcases hm with (hm | hm) | hm
    · exact absurd hm (by decide)
    · exact hveq hm
    · exact absurd hm (by decide)
  rw [hrest]
  simp only [List.headD_cons]
  have h1 : trimStartChar '"' ('"' :: v ++ ['"']) = v ++ ['"'] := by
    rw [show ('"' :: v ++ ['"'] : Str) = '"' :: (v ++ ['"']) from by simp]
    refine trimStartChar_cons_self ?_
    intro d rest heq hd
    cases v with
    | nil => exact hvne rfl
    | cons a b =>
      rw [List.cons_append] at heq
      injection heq with e1 _
      apply hvq
      rw [show ('"' : Char) = a from (e1.trans hd).symm]
      exact List.mem_cons_self a b
  rw [h1, trimEndChar_concat_self]
  have h2 : trimEndChar '"' v = v := by
    cases hv2 : v.reverse with
    | nil =>
      have : v = [] := by simpa using congrArg List.reverse hv2
      rw [this]
      rfl
    | cons d rest =>
      have hvd : v = rest.reverse ++ [d] := by
        have := congrArg List.reverse hv2
        simpa using this
      rw [hvd]
      refine trimEndChar_concat_ne ?_
      intro he
      subst he
      exact hvq (by rw [hvd]; simp)
  rw [h2]

/-! Splitting the rendered tag body on whitespace recovers the words. -/

theorem splitWSGo_nil (acc : Str) :
    splitWSGo [] acc = if acc = [] then [] else [acc.reverse] := rfl

theorem splitWSGo_cons (c : Char) (cs acc : Str) :
    splitWSGo (c :: cs) acc =
      if isWSRust c then
        (if acc = [] then [] else [acc.reverse]) ++ splitWSGo cs []
      else splitWSGo cs (c :: acc) := rfl

theorem splitWSGo_noWS : ∀ (w : Str), w.all (fun c => !isWSRust c) = true →
    ∀ (rest acc : Str), splitWSGo (w ++ rest) acc = splitWSGo rest (w.reverse ++ acc)
  | [], _, rest, acc => by simp
  | c :: w, h, rest, acc => by
    rw [List.all_cons, Bool.and_eq_true] at h
    have hc : isWSRust c = false := by
      have := h.1
      cases hv : isWSRust c
      · rfl
      · rw [hv] at this; cases this
    rw [List.cons_append, splitWSGo_cons,
      if_neg (by simp [hc]), splitWSGo_noWS w h.2 rest (c :: acc)]
    simp

theorem splitWS_word {w : Str} (hne : w ≠ [])
    (h : w.all (fun c => !isWSRust c) = true) : splitWS w = [w] := by
  unfold splitWS
  rw [show w = w ++ [] from by simp, splitWSGo_noWS w h [] [], splitWSGo_nil,
    if_neg (by simp [hne])]
  simp

theorem splitWS_word_sep {w : Str} (hne : w ≠ [])
    (h : w.all (fun c => !isWSRust c) = true) (rest : Str) :
    splitWS (w ++ ' ' :: rest) = w :: splitWS rest := by
  unfold splitWS
  rw [splitWSGo_noWS w h (' ' :: rest) [], splitWSGo_cons,
    if_pos (by decide), if_neg (by simp [hne])]
  simp

theorem splitWS_attrs : ∀ (a : Attrs), a.all cleanAttrPair = true →
    ∀ (w : Str), w ≠ [] → w.all (fun c => !isWSRust c) = true →
    splitWS (w ++ attrsFlat a) = w :: a.map fmtAttr
  | [], _, w, hne, hw => by
    rw [show attrsFlat [] = [] from rfl, List.append_nil, splitWS_word hne hw]
    rfl
  | kv :: rest, h, w, hne, hw => by
    rw [List.all_cons, Bool.and_eq_true] at h
    rw [show attrsFlat (kv :: rest) = (' ' :: fmtAttr kv) ++ attrsFlat rest from rfl]
    rw [show (w ++ ((' ' :: fmtAttr kv) ++ attrsFlat rest) : Str) =
          w ++ ' ' :: (fmtAttr kv ++ attrsFlat rest) from by simp]
    rw [splitWS_word_sep hne hw]
    rw [show splitWS (fmtAttr kv ++ attrsFlat rest) =
          splitWS (fmtAttr kv ++ attrsFlat rest) from rfl]
    rw [splitWS_attrs rest h.2 (fmtAttr kv) (fmtAttr_ne_nil h.1) (fmtAttr_noWS h.1)]
    rfl

/-! Folding the re-parsed attribute words rebuilds the attribute list. -/

theorem insertAttr_fresh {init : Attrs} {kv : Str × Str}
    (h : ∀ p ∈ init, ¬ p.1 = kv.1) : insertAttr init kv = init ++ [kv] := by
  unfold insertAttr
  rw [if_neg]
  intro hcon
  rw [List.any_eq_true] at hcon
  obtain ⟨p, hp, hpeq⟩ := hcon
  rw [decide_eq_true_eq] at hpeq
  exact h p hp hpeq

theorem foldl_attr_words : ∀ (a : Attrs), a.all cleanAttrPair = true →
    (a.map Prod.fst).Nodup → ∀ init : Attrs, (∀ kv ∈ a, ∀ p ∈ init, ¬ p.1 = kv.1) →
    (a.map fmtAttr).foldl (fun m word => insertAttr m (attrOfWord word)) init = init ++ a
  | [], _, _, init, _ => by simp
  | kv :: rest, h, hnd, init, hdisj => by
    rw [List.all_cons, Bool.and_eq_true] at h
    rw [List.map_cons, List.foldl_cons]
    have hword : attrOfWord (fmtAttr kv) = kv := by
      obtain ⟨k, v⟩ := kv
      have hclean := h.1
      rw [show cleanAttrPair (k, v) = (cleanName k && v.all cleanValChar) from rfl,
        Bool.and_eq_true] at hclean
      have hkeq : '=' ∉ k := by
        intro hm
        have := hclean.1
        rw [show cleanName k = (decide (k ≠ []) && k.all isAlphaRust) from rfl,
          Bool.and_eq_true, List.all_eq_true] at this
        exact isAlphaRust_ne (this.2 '=' hm) (by decide) rfl
      unfold fmtAttr
      by_cases hv : v = []
      · simp only [hv, if_true]
        rw [attrOfWord_bare hkeq]
      · simp only [if_neg hv]
        rw [show (k ++ '=' :: '"' :: v ++ ['"'] : Str) =
              (k ++ '=' :: '"' :: v) ++ ['"'] from rfl]
        rw [attrOfWord_valued hkeq hclean.2 hv]
    rw [hword, insertAttr_fresh (hdisj kv (by simp))]
    rw [List.map_cons, List.nodup_cons] at hnd
    rw [foldl_attr_words rest h.2 hnd.2 (init ++ [kv]) ?_]
    · simp
    · intro kv2 hkv2 p hp
      rw [List.mem_append, List.mem_singleton] at hp
      rcases hp with hp | hp
      · exact hdisj kv2 (List.mem_cons_of_mem kv hkv2) p hp
      · subst hp
        intro he
        exact hnd.1 (by rw [he]; exact List.mem_map_of_mem Prod.fst hkv2)

/-! Classifying the canonical literals back into the intended tokens. -/

theorem trimLtSlashRep_step (r : Str) :
    trimLtSlashRep ('<' :: '/' :: r) = trimLtSlashRep r := by
  conv_lhs => unfold trimLtSlashRep
  rw [if_pos (by decide)]

theorem trimLtSlashRep_self : ∀ {s : Str}, startsLtSlash s = false → trimLtSlashRep s = s
  | [], _ => rfl
  | [_], _ => rfl
  | c :: d :: r, h => by
    conv_lhs => unfold trimLtSlashRep
    rw [if_neg]
    rw [show startsLtSlash (c :: d :: r) = (c = '<' && d = '/') from rfl] at h
    simp [h]

theorem startsLtSlash_head_ne {c : Char} (hc : ¬ c = '<') :
    ∀ (r : Str), startsLtSlash (c :: r) = false
  | [] => rfl
  | d :: r => by
    rw [show startsLtSlash (c :: d :: r) = (c = '<' && d = '/') from rfl]
    simp [hc]

theorem startsLtSlash_second_ne {c : Char} (hc : ¬ c = '/') (r : Str) :
    startsLtSlash ('<' :: c :: r) = false := by
  rw [show startsLtSlash ('<' :: c :: r) = ('<' = '<' && c = '/') from rfl]
  simp [hc]

theorem trimEndChar_no_op {d : Char} {x : Str} (hx : ∀ c ∈ x, ¬ c = d) :
    trimEndChar d x = x := by
  unfold trimEndChar trimStartChar
  cases hxr : x.reverse with
  | nil =>
    have : x = [] := by
      rw [← List.reverse_reverse x, hxr]
      rfl
    rw [this]
    rfl
  | cons c t =>
    rw [List.dropWhile_cons_of_neg]
    · rw [← hxr, List.reverse_reverse]
    · simp only [decide_eq_true_eq]
      exact hx c (by rw [← List.mem_reverse, hxr]; simp)

theorem dropWhileWS_no_op {x : Str} (h : ∀ c ∈ x, isWSRust c = false) :
    x.dropWhile isWSRust = x := by
  cases x with
  | nil => rfl
  | cons c t => exact List.dropWhile_cons_of_neg (by simp [h c (by simp)])

theorem trimWS_no_op {x : Str} (h : ∀ c ∈ x, isWSRust c = false) : trimWS x = x := by
  unfold trimWS trimEndWS trimStartWS
  rw [dropWhileWS_no_op h,
    dropWhileWS_no_op (by intro c hc; exact h c (List.mem_reverse.mp hc)),
    List.reverse_reverse]

theorem classify_closeLit {n : Str} (h : cleanName n = true) :
    classifySpan (closeLit n) = { kind := .closeT n, literal := closeLit n } := by
  rw [show cleanName n = (decide (n ≠ []) && n.all isAlphaRust) from rfl,
    Bool.and_eq_true, decide_eq_true_eq, List.all_eq_true] at h
  obtain ⟨hne, hall⟩ := h
  unfold classifySpan
  rw [if_pos (show startsLtSlash (closeLit n) = true from rfl)]
  have h1 : trimLtSlashRep (closeLit n) = n ++ ['>'] := by
    rw [show closeLit n = '<' :: '/' :: (n ++ ['>']) from rfl, trimLtSlashRep_step]
    apply trimLtSlashRep_self
    cases n with
    | nil => cases hne rfl
    | cons c t =>
      rw [List.cons_append]
      exact startsLtSlash_head_ne (isAlphaRust_ne (hall c (by simp)) (by decide)) _
  rw [h1, trimEndChar_concat_self,
    trimEndChar_no_op (fun c hc => isAlphaRust_ne (hall c hc) (by decide)),
    trimWS_no_op (fun c hc => isAlphaRust_not_WS (hall c hc))]

/-! The last character of a rendered tag body is never `/` or `>`. -/

theorem noAngle_mem {x : Str} (h : noAngle x = true) {c : Char} (hc : c ∈ x) :
    ¬ c = '<' ∧ ¬ c = '>' := by
  unfold noAngle at h
  rw [List.all_eq_true] at h
  have := h c hc
  simp only [Bool.and_eq_true, Bool.not_eq_true', decide_eq_false_iff_not] at this
  exact this

theorem cleanName_last {n : Str} (h : cleanName n = true) :
    ∃ y c, n = y ++ [c] ∧ ¬ c = '/' ∧ ¬ c = '>' := by
  rw [show cleanName n = (decide (n ≠ []) && n.all isAlphaRust) from rfl,
    Bool.and_eq_true, decide_eq_true_eq, List.all_eq_true] at h
  rcases List.eq_nil_or_concat n with hnil | ⟨y, c, hyc⟩
  · cases h.1 hnil
  · rw [List.concat_eq_append] at hyc
    refine ⟨y, c, hyc, ?_, ?_⟩
    · exact isAlphaRust_ne (h.2 c (by rw [hyc]; simp)) (by decide)
    · exact isAlphaRust_ne (h.2 c (by rw [hyc]; simp)) (by decide)

theorem fmtAttr_last {kv : Str × Str} (h : cleanAttrPair kv = true) :
    ∃ y c, fmtAttr kv = y ++ [c] ∧ ¬ c = '/' ∧ ¬ c = '>' := by
  obtain ⟨k, v⟩ := kv
  rw [show cleanAttrPair (k, v) = (cleanName k && v.all cleanValChar) from rfl,
    Bool.and_eq_true] at h
  unfold fmtAttr
  by_cases hv : v = []
  · simp only [hv, if_true]
    exact cleanName_last h.1
  · simp only [if_neg hv]
    exact ⟨k ++ '=' :: '"' :: v, '"', by simp, by decide, by decide⟩

theorem attrsFlat_last : ∀ {a : Attrs}, a ≠ [] → a.all cleanAttrPair = true →
    ∃ y c, attrsFlat a = y ++ [c] ∧ ¬ c = '/' ∧ ¬ c = '>'
  | [], hne, _ => by cases hne rfl
  | kv :: rest, _, h => by
    rw [List.all_cons, Bool.and_eq_true] at h
    rw [show attrsFlat (kv :: rest) = (' ' :: fmtAttr kv) ++ attrsFlat rest from rfl]
    by_cases hr : rest = []
    · obtain ⟨y, c, hyc, hc1, hc2⟩ := fmtAttr_last h.1
      refine ⟨' ' :: y, c, ?_, hc1, hc2⟩
      rw [hr, show attrsFlat [] = [] from rfl, List.append_nil, hyc]
      rfl
    · obtain ⟨y, c, hyc, hc1, hc2⟩ := attrsFlat_last hr h.2
      exact ⟨(' ' :: fmtAttr kv) ++ y, c, by rw [hyc]; simp, hc1, hc2⟩

theorem tagBody_last {n : Str} {a : Attrs} (hn : cleanName n = true)
    (ha : a.all cleanAttrPair = true) :
    ∃ y c, n ++ attrsFlat a = y ++ [c] ∧ ¬ c = '/' ∧ ¬ c = '>' := by
  by_cases hr : a = []
  · obtain ⟨y, c, hyc, hc1, hc2⟩ := cleanName_last hn
    exact ⟨y, c, by rw [hr, show attrsFlat [] = [] from rfl, List.append_nil, hyc], hc1, hc2⟩
  · obtain ⟨y, c, hyc, hc1, hc2⟩ := attrsFlat_last hr ha
    exact ⟨n ++ y, c, by rw [hyc]; simp, hc1, hc2⟩

/-! The strip pipeline recovers the tag body from both open literals. -/

theorem head_ne_of_alpha {c e : Char} (hca : isAlphaRust c = true)
    (he : isAlphaRust e = false) (X : Str) :
    ∀ d rest, (c :: X : Str) = d :: rest → d ≠ e := by
  intro d rest hdr
  injection hdr with h1 _
  rw [← h1]
  exact isAlphaRust_ne hca he

theorem stripSpan_openLit {n : Str} {a : Attrs} (hn : cleanName n = true)
    (ha : a.all cleanAttrPair = true) :
    stripSpan (openLit n a) = n ++ attrsFlat a := by
  have hn0 := hn
  rw [show cleanName n = (decide (n ≠ []) && n.all isAlphaRust) from rfl,
    Bool.and_eq_true, decide_eq_true_eq, List.all_eq_true] at hn0
  obtain ⟨c, t, rfl⟩ : ∃ c t, n = c :: t := by
    cases n with
    | nil => exact absurd rfl hn0.1
    | cons c t => exact ⟨c, t, rfl⟩
  have hca := hn0.2 c (by simp)
  unfold stripSpan
  rw [show openLit (c :: t) a = '<' :: (c :: (t ++ attrsFlat a ++ ['>'])) from by
      unfold openLit; simp]
  rw [trimStartChar_cons_self (head_ne_of_alpha hca (by decide) _),
    trimStartChar_of_head_ne (head_ne_of_alpha hca (by decide) _),
    trimStartChar_of_head_ne (head_ne_of_alpha hca (by decide) _)]
  rw [show (c :: (t ++ attrsFlat a ++ ['>']) : Str) =
        ((c :: t) ++ attrsFlat a) ++ ['>'] from by simp]
  rw [trimEndChar_concat_self]
  obtain ⟨y, lc, hyc, hc1, hc2⟩ := tagBody_last hn ha
  rw [hyc, trimEndChar_no_op (d := '>') ?hgt, trimEndChar_concat_ne hc1]
  case hgt =>
    intro d hd
    rw [List.mem_append, List.mem_singleton] at hd
    rcases hd with hd | hd
    · have : d ∈ (c :: t) ++ attrsFlat a := by rw [hyc]; exact List.mem_append_left _ hd
      rw [List.mem_append] at this
      rcases this with hm | hm
      · exact (noAngle_mem (cleanName_noAngle hn) hm).2
      · exact (noAngle_mem (attrsFlat_noAngle ha) hm).2
    · rw [hd]; exact hc2

theorem stripSpan_openLitSelf {n : Str} {a : Attrs} (hn : cleanName n = true)
    (ha : a.all cleanAttrPair = true) :
    stripSpan (openLitSelf n a) = n ++ attrsFlat a := by
  have hn0 := hn
  rw [show cleanName n = (decide (n ≠ []) && n.all isAlphaRust) from rfl,
    Bool.and_eq_true, decide_eq_true_eq, List.all_eq_true] at hn0
  obtain ⟨c, t, rfl⟩ : ∃ c t, n = c :: t := by
    cases n with
    | nil => exact absurd rfl hn0.1
    | cons c t => exact ⟨c, t, rfl⟩
  have hca := hn0.2 c (by simp)
  unfold stripSpan
  rw [show openLitSelf (c :: t) a = '<' :: (c :: (t ++ attrsFlat a ++ ['/', '>'])) from by
      unfold openLitSelf; simp]
  rw [trimStartChar_cons_self (head_ne_of_alpha hca (by decide) _),
    trimStartChar_of_head_ne (head_ne_of_alpha hca (by decide) _),
    trimStartChar_of_head_ne (head_ne_of_alpha hca (by decide) _)]
  rw [show (c :: (t ++ attrsFlat a ++ ['/', '>']) : Str) =
        (((c :: t) ++ attrsFlat a) ++ ['/']) ++ ['>'] from by simp]
  rw [trimEndChar_concat_self, trimEndChar_concat_ne (by decide), trimEndChar_concat_self]
  obtain ⟨y, lc, hyc, hc1, _⟩ := tagBody_last hn ha
  rw [hyc, trimEndChar_concat_ne hc1]

/-! Every word of a rendered tag body passes the tag heuristic. -/

theorem wordOk_name {n : Str} (h : cleanName n = true) : wordOk n = true := by
  unfold wordOk
  rw [show cleanName n = (decide (n ≠ []) && n.all isAlphaRust) from rfl,
    Bool.and_eq_true] at h
  rw [h.2, Bool.or_true]

theorem wordOk_fmtAttr {kv : Str × Str} (h : cleanAttrPair kv = true) :
    wordOk (fmtAttr kv) = true := by
  obtain ⟨k, v⟩ := kv
  rw [show cleanAttrPair (k, v) = (cleanName k && v.all cleanValChar) from rfl,
    Bool.and_eq_true] at h
  unfold fmtAttr wordOk
  by_cases hv : v = []
  · simp only [hv, if_true]
    have hk := h.1
    rw [show cleanName k = (decide (k ≠ []) && k.all isAlphaRust) from rfl,
      Bool.and_eq_true] at hk
    rw [hk.2, Bool.or_true]
  · simp only [if_neg hv]
    rw [show (k ++ '=' :: '"' :: v ++ ['"'] : Str) =
          k ++ '=' :: '"' :: (v ++ ['"']) from by simp]
    rw [hasEqQuote_mid, Bool.true_or]

/-! Classifying a canonical open literal yields the intended open token. -/

theorem classify_openLit {n : Str} {a : Attrs} (hn : cleanName n = true)
    (ha : cleanAttrList a = true) :
    classifySpan (openLit n a) = { kind := .openT n a, literal := openLit n a } := by
  rw [show cleanAttrList a = (a.all cleanAttrPair && decide (a.map Prod.fst).Nodup) from rfl,
    Bool.and_eq_true, decide_eq_true_eq] at ha
  obtain ⟨hall, hnd⟩ := ha
  have hn0 := hn
  rw [show cleanName n = (decide (n ≠ []) && n.all isAlphaRust) from rfl,
    Bool.and_eq_true, decide_eq_true_eq, List.all_eq_true] at hn0
  obtain ⟨c, t, rfl⟩ : ∃ c t, n = c :: t := by
    cases n with
    | nil => exact absurd rfl hn0.1
    | cons c t => exact ⟨c, t, rfl⟩
  have hca := hn0.2 c (by simp)
  have hsl : startsLtSlash (openLit (c :: t) a) = false := by
    rw [show openLit (c :: t) a = '<' :: c :: (t ++ attrsFlat a ++ ['>']) from by
        unfold openLit; simp]
    exact startsLtSlash_second_ne (isAlphaRust_ne hca (by decide)) _
  have hwords : ((c :: t) :: a.map fmtAttr).all wordOk = true := by
    rw [List.all_cons, wordOk_name hn, Bool.true_and, List.all_eq_true]
    intro w hw
    rw [List.mem_map] at hw
    obtain ⟨kv, hkv, rfl⟩ := hw
    rw [List.all_eq_true] at hall
    exact wordOk_fmtAttr (hall kv hkv)
  rw [classifySpan_stripSpan, if_neg (by simp [hsl]), stripSpan_openLit hn hall,
    splitWS_attrs a hall (c :: t) (by simp) (cleanName_noWS hn)]
  dsimp only
  rw [if_pos hwords, foldl_attr_words a hall hnd [] (by intro kv hkv p hp; cases hp),
    List.nil_append]

theorem classify_openLitSelf {n : Str} {a : Attrs} (hn : cleanName n = true)
    (ha : cleanAttrList a = true) :
    classifySpan (openLitSelf n a) =
      { kind := .openT n a, literal := openLitSelf n a } := by
  rw [show cleanAttrList a = (a.all cleanAttrPair && decide (a.map Prod.fst).Nodup) from rfl,
    Bool.and_eq_true, decide_eq_true_eq] at ha
  obtain ⟨hall, hnd⟩ := ha
  have hn0 := hn
  rw [show cleanName n = (decide (n ≠ []) && n.all isAlphaRust) from rfl,
    Bool.and_eq_true, decide_eq_true_eq, List.all_eq_true] at hn0
  obtain ⟨c, t, rfl⟩ : ∃ c t, n = c :: t := by
    cases n with
    | nil => exact absurd rfl hn0.1
    | cons c t => exact ⟨c, t, rfl⟩
  have hca := hn0.2 c (by simp)
  have hsl : startsLtSlash (openLitSelf (c :: t) a) = false := by
    rw [show openLitSelf (c :: t) a = '<' :: c :: (t ++ attrsFlat a ++ ['/', '>']) from by
        unfold openLitSelf; simp]
    exact startsLtSlash_second_ne (isAlphaRust_ne hca (by decide)) _
  have hwords : ((c :: t) :: a.map fmtAttr).all wordOk = true := by
    rw [List.all_cons, wordOk_name hn, Bool.true_and, List.all_eq_true]
    intro w hw
    rw [List.mem_map] at hw
    obtain ⟨kv, hkv, rfl⟩ := hw
    rw [List.all_eq_true] at hall
    exact wordOk_fmtAttr (hall kv hkv)
  rw [classifySpan_stripSpan, if_neg (by simp [hsl]), stripSpan_openLitSelf hn hall,
    splitWS_attrs a hall (c :: t) (by simp) (cleanName_noWS hn)]
  dsimp only
  rw [if_pos hwords, foldl_attr_words a hall hnd [] (by intro kv hkv p hp; cases hp),
    List.nil_append]

/-! Self-closing detection on the canonical literals. -/

theorem selfClosingLit_openLitSelf (n : Str) (a : Attrs) :
    selfClosingLit (openLitSelf n a) = true := by
  unfold selfClosingLit
  rw [show (openLitSelf n a).reverse =
        '>' :: '/' :: (('<' :: n) ++ attrsFlat a).reverse from by
      unfold openLitSelf; simp]
  rfl

theorem selfClosingLit_openLit {n : Str} {a : Attrs} (hn : cleanName n = true)
    (ha : a.all cleanAttrPair = true) :
    selfClosingLit (openLit n a) = false := by
  obtain ⟨y, lc, hyc, hc1, _⟩ := tagBody_last hn ha
  unfold selfClosingLit
  rw [show (openLit n a).reverse = '>' :: lc :: (y.reverse ++ ['<']) from by
      show (('<' :: (n ++ attrsFlat a)) ++ ['>'] : Str).reverse = _
      rw [hyc]; simp]
  simp [hc1]

/-! Composing the tokenizer over the rendered pieces. -/

theorem tokenizeGo_no_gt : ∀ {seg : Str}, (∀ c ∈ seg, ¬ c = '>') →
    ∀ (rest acc : Str), tokenizeGo (seg ++ rest) acc = tokenizeGo rest (seg.reverse ++ acc)
  | [], _, rest, acc => by simp
  | c :: seg, h, rest, acc => by
    rw [List.cons_append,
      show tokenizeGo (c :: (seg ++ rest)) acc =
        (if c = '>' then processChunk (c :: acc).reverse ++ tokenizeGo (seg ++ rest) []
         else tokenizeGo (seg ++ rest) (c :: acc)) from rfl,
      if_neg (h c (by simp)), tokenizeGo_no_gt (fun d hd => h d (by simp [hd])) rest (c :: acc)]
    simp

theorem splitLt_no_lt : ∀ {xs : Str}, '<' ∉ xs → splitLt xs = (xs, [])
  | [], _ => rfl
  | c :: rest, h => by
    rw [show splitLt (c :: rest) =
          (let ps := splitLt rest
           if c = '<' then ([], ('<' :: ps.1) :: ps.2) else (c :: ps.1, ps.2)) from rfl]
    rw [splitLt_no_lt (fun hm => h (List.mem_cons_of_mem c hm))]
    rw [if_neg (by intro he; subst he; exact h (List.mem_cons_self _ _))]

theorem splitLt_append_lt {p : Str} (hp : '<' ∉ p) (mid : Str) (hm : '<' ∉ mid) :
    splitLt (p ++ '<' :: mid) = (p, ['<' :: mid]) := by
  induction p with
  | nil =>
    rw [List.nil_append,
      show splitLt ('<' :: mid) =
        (let ps := splitLt mid
         if '<' = '<' then ([], ('<' :: ps.1) :: ps.2) else ('<' :: ps.1, ps.2)) from rfl,
      splitLt_no_lt hm]
    rfl
  | cons c p ih =>
    rw [List.cons_append,
      show splitLt (c :: (p ++ '<' :: mid)) =
        (let ps := splitLt (p ++ '<' :: mid)
         if c = '<' then ([], ('<' :: ps.1) :: ps.2) else (c :: ps.1, ps.2)) from rfl,
      ih (fun hmem => hp (List.mem_cons_of_mem c hmem)),
      if_neg (by intro he; subst he; exact hp (List.mem_cons_self _ _))]

theorem processChunk_tag {p mid : Str} (hp : '<' ∉ p) (hm : '<' ∉ mid) :
    processChunk (p ++ '<' :: mid ++ ['>']) =
      emitText p ++ [classifySpan ('<' :: mid ++ ['>'])] := by
  unfold processChunk
  rw [show (p ++ '<' :: mid ++ ['>'] : Str) = p ++ '<' :: (mid ++ ['>']) from by simp,
    splitLt_append_lt hp (mid ++ ['>'])
      (by intro hmem; rcases List.mem_append.mp hmem with h | h
          · exact hm h
          · rw [List.mem_singleton] at h; cases h)]
  rw [show (('<' :: (mid ++ ['>'])) : Str) = '<' :: mid ++ ['>'] from by simp]
  rfl

theorem tokenizeGo_chunk {p mid : Str} (hpl : '<' ∉ p)
    (hmg : ∀ c ∈ mid, ¬ c = '>') (hml : '<' ∉ mid) (rest : Str) :
    tokenizeGo (('<' :: mid ++ ['>']) ++ rest) p.reverse =
      emitText p ++ [classifySpan ('<' :: mid ++ ['>'])] ++ tokenizeGo rest [] := by
  rw [show (('<' :: mid ++ ['>']) ++ rest : Str) = ('<' :: mid) ++ ('>' :: rest) from by simp]
  rw [@tokenizeGo_no_gt ('<' :: mid) ?hseg ('>' :: rest) p.reverse]
  case hseg =>
    intro c hc
    rcases List.mem_cons.mp hc with rfl | hc2
    · decide
    · exact hmg c hc2
  rw [show tokenizeGo ('>' :: rest) (('<' :: mid).reverse ++ p.reverse) =
        (if '>' = '>' then
          processChunk ('>' :: (('<' :: mid).reverse ++ p.reverse)).reverse ++
            tokenizeGo rest []
         else tokenizeGo rest ('>' :: (('<' :: mid).reverse ++ p.reverse))) from rfl,
    if_pos rfl]
  rw [show ('>' :: (('<' :: mid).reverse ++ p.reverse) : Str).reverse =
        p ++ '<' :: mid ++ ['>'] from by simp]
  rw [show (p ++ '<' :: mid ++ ['>'] : Str) = p ++ '<' :: (mid ++ ['>']) from by simp]
  rw [show (p ++ '<' :: (mid ++ ['>']) : Str) = p ++ '<' :: mid ++ ['>'] from by simp,
    processChunk_tag hpl hml]

/-! Clean forests render with non-whitespace endings. -/

theorem endsNonWS_concat (x : Str) (c : Char) : endsNonWS (x ++ [c]) = !isWSRust c := by
  unfold endsNonWS
  rw [show (x ++ [c] : Str).reverse = c :: x.reverse from by simp]

theorem trimWS_self_endsNonWS {c : Str} (ht : trimWS c = c) (hne : c ≠ []) :
    endsNonWS c = true := by
  have h2 : (List.dropWhile isWSRust (List.dropWhile isWSRust c).reverse).reverse = c := ht
  have l1 : (List.dropWhile isWSRust c).length ≤ c.length :=
    (List.dropWhile_suffix (l := c) isWSRust).length_le
  have l2 : (List.dropWhile isWSRust (List.dropWhile isWSRust c).reverse).length ≤
      (List.dropWhile isWSRust c).length := by
    have := (List.dropWhile_suffix (l := (List.dropWhile isWSRust c).reverse)
      isWSRust).length_le
    simpa using this
  have l3 : c.length = (List.dropWhile isWSRust (List.dropWhile isWSRust c).reverse).length := by
    conv_lhs => rw [← h2]
    rw [List.length_reverse]
  have heq : List.dropWhile isWSRust (List.dropWhile isWSRust c).reverse =
      (List.dropWhile isWSRust c).reverse := by
    apply (List.dropWhile_suffix (l := (List.dropWhile isWSRust c).reverse)
      isWSRust).eq_of_length
    rw [List.length_reverse]
    omega
  have hstart : List.dropWhile isWSRust c = c := by
    rw [heq, List.reverse_reverse] at h2
    exact h2
  have hd : List.dropWhile isWSRust c.reverse = c.reverse := by
    rw [hstart] at heq
    rw [heq]
  unfold endsNonWS
  cases hcr : c.reverse with
  | nil => exact absurd (by rw [← List.reverse_reverse c, hcr]; rfl) hne
  | cons lc t =>
    rw [hcr] at hd
    cases hlc : isWSRust lc with
    | false =>
      show (!isWSRust lc) = true
      rw [hlc]
      rfl
    | true =>
      rw [List.dropWhile_cons_of_pos (by simp [hlc])] at hd
      have hlen := congrArg List.length hd
      have hle := (List.dropWhile_suffix (l := t) isWSRust).length_le
      simp only [List.length_cons] at hlen
      omega

theorem cleanAttrPair_renderOk {kv : Str × Str} (h : cleanAttrPair kv = true) :
    attrRenderOk kv = true := by
  obtain ⟨k, v⟩ := kv
  rw [show cleanAttrPair (k, v) = (cleanName k && v.all cleanValChar) from rfl,
    Bool.and_eq_true] at h
  unfold attrRenderOk
  by_cases hv : v = []
  · simp only [hv, if_true]
    have hk := h.1
    rw [show cleanName k = (decide (k ≠ []) && k.all isAlphaRust) from rfl,
      Bool.and_eq_true, decide_eq_true_eq, List.all_eq_true] at hk
    rcases List.eq_nil_or_concat k with hnil | ⟨y, c, hyc⟩
    · cases hk.1 hnil
    · rw [List.concat_eq_append] at hyc
      rw [hyc, endsNonWS_concat, isAlphaRust_not_WS (hk.2 c (by rw [hyc]; simp))]
      rfl
  · simp only [if_neg hv]

theorem cleanNodes_head {n : Node} {rest : List Node}
    (h : cleanNodes (n :: rest) = true) : cleanNode n = true := by
  cases rest with
  | nil => exact h
  | cons m r =>
    rw [show cleanNodes (n :: m :: r) =
          (cleanNode n && !(isTextNode n && isTextNode m) && cleanNodes (m :: r)) from rfl,
      Bool.and_eq_true, Bool.and_eq_true] at h
    exact h.1.1

theorem cleanNodes_tail {n : Node} {rest : List Node}
    (h : cleanNodes (n :: rest) = true) : cleanNodes rest = true := by
  cases rest with
  | nil => rfl
  | cons m r =>
    rw [show cleanNodes (n :: m :: r) =
          (cleanNode n && !(isTextNode n && isTextNode m) && cleanNodes (m :: r)) from rfl,
      Bool.and_eq_true, Bool.and_eq_true] at h
    exact h.2

theorem cleanNodes_mem : ∀ {ch : List Node}, cleanNodes ch = true →
    ∀ k ∈ ch, cleanNode k = true
  | [], _, k, hk => by cases hk
  | n :: rest, h, k, hk => by
    rcases List.mem_cons.mp hk with rfl | hk2
    · exact cleanNodes_head h
    · exact cleanNodes_mem (cleanNodes_tail h) k hk2

theorem cleanNode_tag {n : Str} {a : Attrs} {ch : List Node}
    (h : cleanNode (.tag n a ch) = true) :
    cleanName n = true ∧ cleanAttrList a = true ∧ cleanNodes ch = true := by
  rw [show cleanNode (.tag n a ch) =
        (cleanName n && cleanAttrList a && cleanNodes ch) from rfl,
    Bool.and_eq_true, Bool.and_eq_true] at h
  exact ⟨h.1.1, h.1.2, h.2⟩

theorem cleanNode_text {c : Str} (h : cleanNode (.text c) = true) :
    trimWS c = c ∧ c ≠ [] ∧ noAngle c = true := by
  rw [show cleanNode (.text c) =
        (decide (trimWS c = c) && decide (c ≠ []) && noAngle c) from rfl,
    Bool.and_eq_true, Bool.and_eq_true, decide_eq_true_eq, decide_eq_true_eq] at h
  exact ⟨h.1.1, h.1.2, h.2⟩

theorem cleanAttrList_all {a : Attrs} (h : cleanAttrList a = true) :
    a.all cleanAttrPair = true := by
  rw [show cleanAttrList a = (a.all cleanAttrPair && decide (a.map Prod.fst).Nodup) from rfl,
    Bool.and_eq_true] at h
  exact h.1

theorem cleanAttrList_renderOk {a : Attrs} (h : cleanAttrList a = true) :
    ∀ kv ∈ a, attrRenderOk kv = true := by
  intro kv hkv
  have := cleanAttrList_all h
  rw [List.all_eq_true] at this
  exact cleanAttrPair_renderOk (this kv hkv)

theorem cleanNode_endsNonWS : ∀ {k : Node}, cleanNode k = true →
    endsNonWS (renderNode k) = true
  | .text c, h => by
    obtain ⟨ht, hne, _⟩ := cleanNode_text h
    rw [show renderNode (.text c) = c from rfl]
    exact trimWS_self_endsNonWS ht hne
  | .tag n a [], h => by
    rw [show renderNode (.tag n a []) =
          (('<' :: n ++ renderAttrs a) ++ ['/']) ++ ['>'] from by
        rw [show renderNode (.tag n a []) =
              '<' :: n ++ renderAttrs a ++ ['/', '>'] from rfl]
        simp]
    rw [endsNonWS_concat]
    decide
  | .tag n a (c :: cs), h => by
    rw [show renderNode (.tag n a (c :: cs)) =
          ('<' :: n ++ renderAttrs a ++ ['>'] ++ trimEndWS (renderKids (c :: cs)) ++
            ('<' :: '/' :: n)) ++ ['>'] from by
        rw [show renderNode (.tag n a (c :: cs)) =
              '<' :: n ++ renderAttrs a ++ ['>'] ++ trimEndWS (renderKids (c :: cs)) ++
                '<' :: '/' :: n ++ ['>'] from rfl]]
    rw [endsNonWS_concat]
    decide

/-! The pending text threaded through canonical re-tokenizing stays clean. -/

mutual

theorem canonNode_snd_noAngle : ∀ (k : Node), cleanNode k = true → ∀ (p : Str),
    noAngle p = true → noAngle (canonNode p k).2 = true
  | .text c, h, p, hp => by
    obtain ⟨_, _, hc⟩ := cleanNode_text h
    rw [show (canonNode p (.text c)).2 = p ++ c from rfl, noAngle_append, hp, hc]
    rfl
  | .tag n a [], _, p, _ => rfl
  | .tag n a (c :: cs), _, p, _ => rfl

theorem canonKids_snd_noAngle : ∀ (ks : List Node), cleanNodes ks = true → ∀ (p : Str),
    noAngle p = true → noAngle (canonKids p ks).2 = true
  | [], _, _, hp => hp
  | c :: cs, h, p, hp => by
    rw [show (canonKids p (c :: cs)).2 =
          (canonKids ((canonNode (p ++ [' ']) c).2) cs).2 from rfl]
    exact canonKids_snd_noAngle cs (cleanNodes_tail h) _
      (canonNode_snd_noAngle c (cleanNodes_head h) (p ++ [' '])
        (by rw [noAngle_append, hp]; rfl))

end

/-! Tokenizing a rendered clean forest produces the canonical stream. -/

mutual

theorem tokenizeGo_renderNode : ∀ (k : Node), cleanNode k = true →
    ∀ (p rest acc : Str), noAngle p = true → acc = p.reverse →
    tokenizeGo (renderNode k ++ rest) acc =
      (canonNode p k).1 ++ tokenizeGo rest ((canonNode p k).2).reverse
  | .text c, h, p, rest, acc, hp, hacc => by
    obtain ⟨_, _, hcno⟩ := cleanNode_text h
    subst hacc
    show tokenizeGo (c ++ rest) p.reverse = [] ++ tokenizeGo rest (p ++ c).reverse
    rw [tokenizeGo_no_gt (fun d hd => (noAngle_mem hcno hd).2) rest p.reverse,
      List.nil_append, List.reverse_append]
  | .tag n a [], h, p, rest, acc, hp, hacc => by
    obtain ⟨hn, ha, _⟩ := cleanNode_tag h
    subst hacc
    have hmid : ∀ d ∈ (n ++ attrsFlat a ++ ['/'] : Str), ¬ d = '>' ∧ ¬ d = '<' := by
      intro d hd
      rw [List.append_assoc, List.mem_append] at hd
      rcases hd with hd | hd
      · have := noAngle_mem (cleanName_noAngle hn) hd
        exact ⟨this.2, this.1⟩
      · rw [List.mem_append] at hd
        rcases hd with hd | hd
        · have := noAngle_mem (attrsFlat_noAngle (cleanAttrList_all ha)) hd
          exact ⟨this.2, this.1⟩
        · rw [List.mem_singleton] at hd
          subst hd
          exact ⟨by decide, by decide⟩
    show tokenizeGo (renderNode (.tag n a []) ++ rest) p.reverse =
      (emitText p ++ [{ kind := .openT n a, literal := openLitSelf n a }]) ++
        tokenizeGo rest (List.reverse [])
    rw [renderNode_empty_children n a (cleanAttrList_renderOk ha)]
    rw [show (('<' :: n ++ attrsFlat a ++ ['/', '>'] : Str) ++ rest) =
          ('<' :: (n ++ attrsFlat a ++ ['/']) ++ ['>']) ++ rest from by simp]
    rw [tokenizeGo_chunk (fun hm => (noAngle_mem hp hm).1 rfl)
          (fun d hd => (hmid d hd).1) (fun hm => (hmid '<' hm).2 rfl) rest]
    rw [show ('<' :: (n ++ attrsFlat a ++ ['/']) ++ ['>'] : Str) = openLitSelf n a from by
        unfold openLitSelf; simp]
    rw [classify_openLitSelf hn ha]
    simp
  | .tag n a (c :: cs), h, p, rest, acc, hp, hacc => by
    obtain ⟨hn, ha, hch⟩ := cleanNode_tag h
    subst hacc
    have hkids : ∀ k ∈ c :: cs, endsNonWS (renderNode k) = true :=
      fun k hk => cleanNode_endsNonWS (cleanNodes_mem hch k hk)
    have hmid : ∀ d ∈ (n ++ attrsFlat a : Str), ¬ d = '>' ∧ ¬ d = '<' := by
      intro d hd
      rw [List.mem_append] at hd
      rcases hd with hd | hd
      · have := noAngle_mem (cleanName_noAngle hn) hd
        exact ⟨this.2, this.1⟩
      · have := noAngle_mem (attrsFlat_noAngle (cleanAttrList_all ha)) hd
        exact ⟨this.2, this.1⟩
    have hmid2 : ∀ d ∈ ('/' :: n : Str), ¬ d = '>' ∧ ¬ d = '<' := by
      intro d hd
      rcases List.mem_cons.mp hd with rfl | hd2
      · exact ⟨by decide, by decide⟩
      · have := noAngle_mem (cleanName_noAngle hn) hd2
        exact ⟨this.2, this.1⟩
    show tokenizeGo (renderNode (.tag n a (c :: cs)) ++ rest) p.reverse =
      (emitText p ++ [{ kind := .openT n a, literal := openLit n a }] ++
        (canonKids [] (c :: cs)).1 ++ emitText (canonKids [] (c :: cs)).2 ++
        [{ kind := .closeT n, literal := closeLit n }]) ++
        tokenizeGo rest (List.reverse [])
    rw [renderNode_with_children n a c cs (cleanAttrList_renderOk ha) hkids]
    rw [show (('<' :: n ++ attrsFlat a ++ ['>'] ++ renderKids (c :: cs) ++
            '<' :: '/' :: n ++ ['>'] : Str) ++ rest) =
          ('<' :: (n ++ attrsFlat a) ++ ['>']) ++ (renderKids (c :: cs) ++
            (('<' :: ('/' :: n) ++ ['>']) ++ rest)) from by simp]
    rw [tokenizeGo_chunk (fun hm => (noAngle_mem hp hm).1 rfl)
          (fun d hd => (hmid d hd).1) (fun hm => (hmid '<' hm).2 rfl) _]
    rw [show ('<' :: (n ++ attrsFlat a) ++ ['>'] : Str) = openLit n a from by
        unfold openLit; simp]
    rw [classify_openLit hn ha]
    rw [tokenizeGo_renderKids (c :: cs) hch [] (('<' :: ('/' :: n) ++ ['>']) ++ rest)
      [] rfl rfl]
    rw [tokenizeGo_chunk (p := (canonKids [] (c :: cs)).2)
          (fun hm =>
            (noAngle_mem (canonKids_snd_noAngle (c :: cs) hch [] rfl) hm).1 rfl)
          (fun d hd => (hmid2 d hd).1) (fun hm => (hmid2 '<' hm).2 rfl) rest]
    rw [show ('<' :: ('/' :: n) ++ ['>'] : Str) = closeLit n from by
        unfold closeLit; simp]
    rw [classify_closeLit hn]
    simp

theorem tokenizeGo_renderKids : ∀ (ks : List Node), cleanNodes ks = true →
    ∀ (p rest acc : Str), noAngle p = true → acc = p.reverse →
    tokenizeGo (renderKids ks ++ rest) acc =
      (canonKids p ks).1 ++ tokenizeGo rest ((canonKids p ks).2).reverse
  | [], _, p, rest, acc, _, hacc => by
    subst hacc
    show tokenizeGo ([] ++ rest) p.reverse = [] ++ tokenizeGo rest p.reverse
    rw [List.nil_append, List.nil_append]
  | c :: cs, h, p, rest, acc, hp, hacc => by
    subst hacc
    have hps : noAngle (p ++ [' ']) = true := by
      rw [noAngle_append, hp]
      rfl
    show tokenizeGo ((' ' :: renderNode c ++ renderKids cs) ++ rest) p.reverse =
      ((canonNode (p ++ [' ']) c).1 ++
        (canonKids ((canonNode (p ++ [' ']) c).2) cs).1) ++
        tokenizeGo rest ((canonKids ((canonNode (p ++ [' ']) c).2) cs).2).reverse
    rw [show ((' ' :: renderNode c ++ renderKids cs : Str) ++ rest) =
          [' '] ++ (renderNode c ++ (renderKids cs ++ rest)) from by simp]
    rw [tokenizeGo_no_gt
          (by intro d hd; rw [List.mem_singleton] at hd; subst hd; decide) _ _]
    rw [show (([' '] : Str).reverse ++ p.reverse : Str) = (p ++ [' ']).reverse from by simp]
    rw [tokenizeGo_renderNode c (cleanNodes_head h) (p ++ [' '])
      (renderKids cs ++ rest) _ hps rfl]
    rw [tokenizeGo_renderKids cs (cleanNodes_tail h) ((canonNode (p ++ [' ']) c).2)
      rest ((canonNode (p ++ [' ']) c).2).reverse
      (canonNode_snd_noAngle c (cleanNodes_head h) (p ++ [' ']) hps) rfl]
    simp

end

theorem tokenizeGo_renderRoots : ∀ (ks : List Node), cleanNodes ks = true →
    ∀ (p acc : Str), noAngle p = true → acc = p.reverse →
    tokenizeGo (renderRoots ks) acc = canonRoots p ks
  | [], _, p, acc, _, hacc => by
    subst hacc
    show tokenizeGo [] p.reverse = emitText p
    rw [show tokenizeGo [] p.reverse =
          (if p.reverse = [] then []
           else [{ kind := .textT p.reverse.reverse, literal := p.reverse.reverse }])
        from rfl]
    unfold emitText
    by_cases hp0 : p = []
    · rw [if_pos (by rw [hp0]; rfl), if_pos hp0]
    · rw [if_neg (by simp [hp0]), if_neg hp0, List.reverse_reverse]
  | n :: rest, h, p, acc, hp, hacc => by
    subst hacc
    show tokenizeGo (renderNode n ++ ('\n' :: renderRoots rest)) p.reverse =
      (canonNode p n).1 ++ canonRoots ((canonNode p n).2 ++ ['\n']) rest
    rw [tokenizeGo_renderNode n (cleanNodes_head h) p ('\n' :: renderRoots rest)
      p.reverse hp rfl]
    rw [show ('\n' :: renderRoots rest : Str) = ['\n'] ++ renderRoots rest from rfl]
    rw [tokenizeGo_no_gt
          (by intro d hd; rw [List.mem_singleton] at hd; subst hd; decide) _ _]
    rw [show ((['\n'] : Str).reverse ++ ((canonNode p n).2).reverse : Str) =
          ((canonNode p n).2 ++ ['\n']).reverse from by simp]
    rw [tokenizeGo_renderRoots rest (cleanNodes_tail h) ((canonNode p n).2 ++ ['\n'])
      ((canonNode p n).2 ++ ['\n']).reverse
      (by rw [noAngle_append, canonNode_snd_noAngle n (cleanNodes_head h) p hp]; rfl) rfl]

theorem tokenize_renderRoots {ks : List Node} (h : cleanNodes ks = true) :
    tokenize (renderRoots ks) = canonRoots [] ks :=
  tokenizeGo_renderRoots ks h [] [] rfl rfl

/-! The canonical stream has no adjacent text tokens, so merging fixes it. -/

theorem noAdjText_cons_nontext {t : Tok} (ht : isTextTok t = false) (ys : List Tok) :
    noAdjText (t :: ys) = noAdjText ys := by
  obtain ⟨k, l⟩ := t
  cases k with
  | textT c => simp [isTextTok] at ht
  | openT n a => rfl
  | closeT n => rfl

theorem noAdjText_cons_cons {t1 t2 : Tok}
    (h : isTextTok t1 = false ∨ isTextTok t2 = false) (ys : List Tok) :
    noAdjText (t1 :: t2 :: ys) = noAdjText (t2 :: ys) := by
  obtain ⟨k1, l1⟩ := t1
  cases k1 with
  | textT c =>
    obtain ⟨k2, l2⟩ := t2
    cases k2 with
    | textT c2 =>
      rcases h with h | h <;> simp [isTextTok] at h
    | openT n a => rfl
    | closeT n => rfl
  | openT n a => rfl
  | closeT n => rfl

theorem noAdjText_not_double {t1 t2 : Tok} {rest : List Tok}
    (hx : noAdjText (t1 :: t2 :: rest) = true) :
    isTextTok t1 = false ∨ isTextTok t2 = false := by
  obtain ⟨k1, l1⟩ := t1
  cases k1 with
  | textT c =>
    obtain ⟨k2, l2⟩ := t2
    cases k2 with
    | textT c2 => cases hx
    | openT n a => exact Or.inr rfl
    | closeT n => exact Or.inr rfl
  | openT n a => exact Or.inl rfl
  | closeT n => exact Or.inl rfl

theorem noAdjText_append_nontextLast : ∀ {xs : List Tok}, noAdjText xs = true →
    ∀ {ys : List Tok}, noAdjText ys = true →
    (∀ t, xs.getLast? = some t → isTextTok t = false) →
    noAdjText (xs ++ ys) = true
  | [], _, ys, hy, _ => hy
  | [t], _, ys, hy, hl => by
    rw [List.singleton_append, noAdjText_cons_nontext (hl t rfl) ys]
    exact hy
  | t1 :: t2 :: rest, hx, ys, hy, hl => by
    have hnd := noAdjText_not_double hx
    rw [noAdjText_cons_cons hnd rest] at hx
    rw [List.cons_append, List.cons_append, noAdjText_cons_cons hnd (rest ++ ys),
      ← List.cons_append]
    exact noAdjText_append_nontextLast hx hy
      (fun t ht => hl t (by rw [List.getLast?_cons_cons]; exact ht))

theorem getLast?_append_nontext {xs ys : List Tok}
    (hx : ∀ t, xs.getLast? = some t → isTextTok t = false)
    (hy : ∀ t, ys.getLast? = some t → isTextTok t = false) :
    ∀ t, (xs ++ ys).getLast? = some t → isTextTok t = false := by
  intro t ht
  cases ys with
  | nil =>
    rw [List.append_nil] at ht
    exact hx t ht
  | cons u r =>
    rw [List.getLast?_append_cons] at ht
    exact hy t ht

theorem mergeTokens_of_noAdj : ∀ {ts : List Tok}, noAdjText ts = true → mergeTokens ts = ts
  | [], _ => rfl
  | [t], _ => by
    obtain ⟨k, l⟩ := t
    cases k <;> rfl
  | t1 :: t2 :: rest, h => by
    have hnd := noAdjText_not_double h
    rw [noAdjText_cons_cons hnd rest] at h
    have hrec := mergeTokens_of_noAdj h
    obtain ⟨k1, l1⟩ := t1
    cases k1 with
    | textT c =>
      obtain ⟨k2, l2⟩ := t2
      cases k2 with
      | textT c2 => rcases hnd with h1 | h1 <;> simp [isTextTok] at h1
      | openT n a =>
        have h3 : ({ kind := .openT n a, literal := l2 } : Tok) :: mergeTokens rest =
            { kind := .openT n a, literal := l2 } :: rest :=
          (mergeTokens_passthrough { kind := .openT n a, literal := l2 } rest rfl).symm.trans
            hrec
        have hr : mergeTokens rest = rest := by
          injection h3
        rw [show mergeTokens ({ kind := .textT c, literal := l1 } ::
              { kind := .openT n a, literal := l2 } :: rest) =
            { kind := .textT c, literal := l1 } ::
              { kind := .openT n a, literal := l2 } :: mergeTokens rest from rfl, hr]
      | closeT n =>
        have h3 : ({ kind := .closeT n, literal := l2 } : Tok) :: mergeTokens rest =
            { kind := .closeT n, literal := l2 } :: rest :=
          (mergeTokens_passthrough { kind := .closeT n, literal := l2 } rest rfl).symm.trans
            hrec
        have hr : mergeTokens rest = rest := by
          injection h3
        rw [show mergeTokens ({ kind := .textT c, literal := l1 } ::
              { kind := .closeT n, literal := l2 } :: rest) =
            { kind := .textT c, literal := l1 } ::
              { kind := .closeT n, literal := l2 } :: mergeTokens rest from rfl, hr]
    | openT n a =>
      rw [mergeTokens_passthrough { kind := .openT n a, literal := l1 } (t2 :: rest) rfl,
        hrec]
    | closeT n =>
      rw [mergeTokens_passthrough { kind := .closeT n, literal := l1 } (t2 :: rest) rfl,
        hrec]

theorem emitText_noAdj (p : Str) : noAdjText (emitText p) = true := by
  unfold emitText
  by_cases hp : p = []
  · rw [if_pos hp]
    rfl
  · rw [if_neg hp]
    rfl

theorem emitText_concat_noAdj (p : Str) (t : Tok) (ht : isTextTok t = false) :
    noAdjText (emitText p ++ [t]) = true := by
  unfold emitText
  by_cases hp : p = []
  · rw [if_pos hp, List.nil_append, noAdjText_cons_nontext ht]
    rfl
  · rw [if_neg hp, List.singleton_append,
      noAdjText_cons_cons (Or.inr ht) [], noAdjText_cons_nontext ht]
    rfl

mutual

theorem canonNode_noAdj : ∀ (k : Node) (p : Str),
    noAdjText (canonNode p k).1 = true ∧
      (∀ t, ((canonNode p k).1).getLast? = some t → isTextTok t = false)
  | .text c, p => by
    refine ⟨rfl, ?_⟩
    intro t ht
    cases ht
  | .tag n a [], p => by
    constructor
    · exact emitText_concat_noAdj p
        { kind := .openT n a, literal := openLitSelf n a } rfl
    · intro t ht
      rw [show (canonNode p (.tag n a [])).1 =
            emitText p ++ [{ kind := .openT n a, literal := openLitSelf n a }] from rfl,
        List.getLast?_concat] at ht
      injection ht with ht2
      rw [← ht2]
      rfl
  | .tag n a (c :: cs), p => by
    obtain ⟨hkn, hkl⟩ := canonKids_noAdj (c :: cs) []
    constructor
    · rw [show (canonNode p (.tag n a (c :: cs))).1 =
            (emitText p ++ [{ kind := .openT n a, literal := openLit n a }]) ++
              ((canonKids [] (c :: cs)).1 ++
                (emitText (canonKids [] (c :: cs)).2 ++
                  [{ kind := .closeT n, literal := closeLit n }])) from by
          rw [show (canonNode p (.tag n a (c :: cs))).1 =
                emitText p ++ [{ kind := .openT n a, literal := openLit n a }] ++
                  (canonKids [] (c :: cs)).1 ++ emitText (canonKids [] (c :: cs)).2 ++
                  [{ kind := .closeT n, literal := closeLit n }] from rfl]
          simp]
      apply noAdjText_append_nontextLast
        (emitText_concat_noAdj p { kind := .openT n a, literal := openLit n a } rfl)
      · apply noAdjText_append_nontextLast hkn
        · exact emitText_concat_noAdj (canonKids [] (c :: cs)).2
            { kind := .closeT n, literal := closeLit n } rfl
        · exact hkl
      · intro t ht
        rw [List.getLast?_concat] at ht
        injection ht with ht2
        rw [← ht2]
        rfl
    · intro t ht
      rw [show (canonNode p (.tag n a (c :: cs))).1 =
            (emitText p ++ [{ kind := .openT n a, literal := openLit n a }] ++
              (canonKids [] (c :: cs)).1 ++ emitText (canonKids [] (c :: cs)).2) ++
              [{ kind := .closeT n, literal := closeLit n }] from rfl] at ht
      rw [List.getLast?_concat] at ht
      injection ht with ht2
      rw [← ht2]
      rfl

theorem canonKids_noAdj : ∀ (ks : List Node) (p : Str),
    noAdjText (canonKids p ks).1 = true ∧
      (∀ t, ((canonKids p ks).1).getLast? = some t → isTextTok t = false)
  | [], p => by
    refine ⟨rfl, ?_⟩
    intro t ht
    cases ht
  | c :: cs, p => by
    obtain ⟨hn1, hn2⟩ := canonNode_noAdj c (p ++ [' '])
    obtain ⟨hk1, hk2⟩ := canonKids_noAdj cs ((canonNode (p ++ [' ']) c).2)
    rw [show (canonKids p (c :: cs)).1 =
          (canonNode (p ++ [' ']) c).1 ++
            (canonKids ((canonNode (p ++ [' ']) c).2) cs).1 from rfl]
    exact ⟨noAdjText_append_nontextLast hn1 hk1 hn2,
      getLast?_append_nontext hn2 hk2⟩

end

theorem canonRoots_noAdj : ∀ (ks : List Node) (p : Str),
    noAdjText (canonRoots p ks) = true
  | [], p => emitText_noAdj p
  | n :: rest, p => by
    obtain ⟨hn1, hn2⟩ := canonNode_noAdj n p
    rw [show canonRoots p (n :: rest) =
          (canonNode p n).1 ++ canonRoots ((canonNode p n).2 ++ ['\n']) rest from rfl]
    exact noAdjText_append_nontextLast hn1 (canonRoots_noAdj rest _) hn2

theorem mergedTokens_renderRoots {ks : List Node} (h : cleanNodes ks = true) :
    mergedTokens (renderRoots ks) = canonRoots [] ks := by
  unfold mergedTokens
  rw [show tokenize (renderRoots ks) = tokenizeGo (renderRoots ks) [] from rfl,
    tokenizeGo_renderRoots ks h [] [] rfl rfl,
    mergeTokens_of_noAdj (canonRoots_noAdj ks [])]

/-! The pending text of the canonical stream trims to the original text. -/

theorem dropWhile_all_pos {q : Char → Bool} : ∀ {l : Str},
    (∀ x ∈ l, q x = true) → l.dropWhile q = []
  | [], _ => rfl
  | c :: rest, h => by
    rw [List.dropWhile_cons_of_pos (by rw [h c (by simp)])]
    exact dropWhile_all_pos (fun x hx => h x (List.mem_cons_of_mem c hx))

theorem dropWhile_append_all {q : Char → Bool} : ∀ {w : Str},
    (∀ x ∈ w, q x = true) → ∀ (r : Str), (w ++ r).dropWhile q = r.dropWhile q
  | [], _, r => rfl
  | c :: w, h, r => by
    rw [List.cons_append, List.dropWhile_cons_of_pos (by rw [h c (by simp)])]
    exact dropWhile_append_all (fun x hx => h x (List.mem_cons_of_mem c hx)) r

theorem trimWS_self_parts {t : Str} (ht : trimWS t = t) :
    t.dropWhile isWSRust = t ∧ t.reverse.dropWhile isWSRust = t.reverse := by
  have h2 : (List.dropWhile isWSRust (List.dropWhile isWSRust t).reverse).reverse = t := ht
  have l1 : (List.dropWhile isWSRust t).length ≤ t.length :=
    (List.dropWhile_suffix (l := t) isWSRust).length_le
  have l2 : (List.dropWhile isWSRust (List.dropWhile isWSRust t).reverse).length ≤
      (List.dropWhile isWSRust t).length := by
    have := (List.dropWhile_suffix (l := (List.dropWhile isWSRust t).reverse)
      isWSRust).length_le
    simpa using this
  have l3 : t.length =
      (List.dropWhile isWSRust (List.dropWhile isWSRust t).reverse).length := by
    conv_lhs => rw [← h2]
    rw [List.length_reverse]
  have heq : List.dropWhile isWSRust (List.dropWhile isWSRust t).reverse =
      (List.dropWhile isWSRust t).reverse := by
    apply (List.dropWhile_suffix (l := (List.dropWhile isWSRust t).reverse)
      isWSRust).eq_of_length
    rw [List.length_reverse]
    omega
  have hstart : List.dropWhile isWSRust t = t := by
    rw [heq, List.reverse_reverse] at h2
    exact h2
  refine ⟨hstart, ?_⟩
  rw [hstart] at heq
  exact heq

theorem trimWS_all_ws {w : Str} (h : ∀ x ∈ w, isWSRust x = true) : trimWS w = [] := by
  unfold trimWS trimStartWS trimEndWS trimStartWS
  rw [dropWhile_all_pos h]
  rfl

theorem trimWS_pad {w1 t w2 : Str} (h1 : ∀ x ∈ w1, isWSRust x = true)
    (h2 : ∀ x ∈ w2, isWSRust x = true) (ht : trimWS t = t) :
    trimWS ((w1 ++ t) ++ w2) = t := by
  obtain ⟨hts, hte⟩ := trimWS_self_parts ht
  unfold trimWS trimStartWS trimEndWS trimStartWS
  rw [List.append_assoc, dropWhile_append_all h1 (t ++ w2)]
  cases htc : t with
  | nil =>
    rw [List.nil_append, dropWhile_all_pos h2]
    rfl
  | cons c trest =>
    have hc : isWSRust c = false := by
      rw [htc, List.dropWhile_cons] at hts
      cases hv : isWSRust c
      · rfl
      · rw [hv, if_pos rfl] at hts
        have := congrArg List.length hts
        have hle := (List.dropWhile_suffix (l := trest) isWSRust).length_le
        simp only [List.length_cons] at this
        omega
    rw [List.cons_append, List.dropWhile_cons_of_neg (by rw [hc]; exact Bool.false_ne_true),
      show ((c :: (trest ++ w2) : Str)).reverse = (w2.reverse ++ (c :: trest).reverse : Str)
        from by simp,
      dropWhile_append_all (fun x hx => h2 x (List.mem_reverse.mp hx)) (c :: trest).reverse,
      ← htc, hte, List.reverse_reverse]

/-! Shape facts about the canonical stream pieces. -/

def textHead : List Node → Bool
  | Node.text _ :: _ => true
  | _ => false

theorem emitText_of_ne {q : Str} (h : q ≠ []) :
    emitText q = [{ kind := .textT q, literal := q }] := by
  unfold emitText
  rw [if_neg h]

theorem cleanNodes_text_next {ct : Str} {cs : List Node}
    (h : cleanNodes (.text ct :: cs) = true) : textHead cs = false := by
  cases cs with
  | nil => rfl
  | cons m r =>
    rw [show cleanNodes (.text ct :: m :: r) =
          (cleanNode (.text ct) && !(isTextNode (.text ct) && isTextNode m) &&
            cleanNodes (m :: r)) from rfl,
      Bool.and_eq_true, Bool.and_eq_true] at h
    have hm := h.1.2
    cases m with
    | text c2 => cases hm
    | tag n2 a2 ch2 => rfl

theorem canonNode_tag_shift (q : Str) (n2 : Str) (a2 : Attrs) (ch : List Node) :
    canonNode q (.tag n2 a2 ch) = (emitText q ++ (canonNode [] (.tag n2 a2 ch)).1, []) := by
  cases ch with
  | nil =>
    show (emitText q ++ [{ kind := .openT n2 a2, literal := openLitSelf n2 a2 }], ([] : Str)) =
      (emitText q ++ (emitText [] ++
        [{ kind := .openT n2 a2, literal := openLitSelf n2 a2 }]), [])
    rw [show emitText [] = [] from rfl, List.nil_append]
  | cons c2 cs2 =>
    show (emitText q ++ [{ kind := .openT n2 a2, literal := openLit n2 a2 }] ++
        (canonKids [] (c2 :: cs2)).1 ++ emitText (canonKids [] (c2 :: cs2)).2 ++
        [{ kind := .closeT n2, literal := closeLit n2 }], ([] : Str)) =
      (emitText q ++ (emitText [] ++ [{ kind := .openT n2 a2, literal := openLit n2 a2 }] ++
        (canonKids [] (c2 :: cs2)).1 ++ emitText (canonKids [] (c2 :: cs2)).2 ++
        [{ kind := .closeT n2, literal := closeLit n2 }]), [])
    rw [show emitText [] = [] from rfl, List.nil_append]
    simp

/-! Parsing the canonical stream rebuilds the clean forest. -/

mutual

theorem parseNode_canon : ∀ (k : Node), cleanNode k = true → (∀ c, k ≠ .text c) →
    ∀ (tail : List Tok),
    ∃ tk r, (canonNode [] k).1 = tk :: r ∧ (∀ m, tk.kind ≠ .closeT m) ∧
      parseNode tk (r ++ tail) = .ok ([k], tail)
  | .text c, _, hnt, _ => absurd rfl (hnt c)
  | .tag n2 a2 [], h, _, tail => by
    obtain ⟨hn, ha, _⟩ := cleanNode_tag h
    refine ⟨{ kind := .openT n2 a2, literal := openLitSelf n2 a2 }, [], rfl, ?_, ?_⟩
    · intro m hm
      cases hm
    · rw [List.nil_append,
        parseNode_open_self n2 a2 _ tail (selfClosingLit_openLitSelf n2 a2)]
  | .tag n2 a2 (c :: cs), h, _, tail => by
    obtain ⟨hn, ha, hch⟩ := cleanNode_tag h
    refine ⟨{ kind := .openT n2 a2, literal := openLit n2 a2 },
      (canonKids [] (c :: cs)).1 ++ emitText (canonKids [] (c :: cs)).2 ++
        [{ kind := .closeT n2, literal := closeLit n2 }], ?_, ?_, ?_⟩
    · rfl
    · intro m hm
      cases hm
    · rw [parseNode_open n2 a2 _ _ (selfClosingLit_openLit hn (cleanAttrList_all ha))]
      rw [show (((canonKids [] (c :: cs)).1 ++ emitText (canonKids [] (c :: cs)).2 ++
            [{ kind := .closeT n2, literal := closeLit n2 }]) ++ tail : List Tok) =
          (canonKids [] (c :: cs)).1 ++ (emitText (canonKids [] (c :: cs)).2 ++
            ({ kind := .closeT n2, literal := closeLit n2 } :: tail)) from by simp]
      rw [parseSibs_canon (c :: cs) hch [] [] [] [] rfl
          (fun x hx => absurd hx (List.not_mem_nil x))
          (fun x hx => absurd hx (List.not_mem_nil x)) rfl
          (fun hcon => absurd rfl hcon) n2 a2 [] (closeLit n2) tail]
      simp

theorem parseSibs_canon : ∀ (ks : List Node), cleanNodes ks = true →
    ∀ (p w1 t w2 : Str), p = (w1 ++ t) ++ w2 →
    (∀ x ∈ w1, isWSRust x = true) → (∀ x ∈ w2, isWSRust x = true) →
    trimWS t = t → (t ≠ [] → textHead ks = false) →
    ∀ (n : Str) (a : Attrs) (s : List Node) (clit : Str) (tail : List Tok),
    parseSibs n a s ((canonKids p ks).1 ++ (emitText (canonKids p ks).2 ++
        ({ kind := .closeT n, literal := clit } :: tail))) =
      .ok ([.tag n a ((s ++ (if t = ([] : Str) then [] else [Node.text t])) ++ ks)], tail)
  | [], _, p, w1, t, w2, hp, h1, h2, ht, _, n, a, s, clit, tail => by
    rw [show (canonKids p []).1 = [] from rfl, show (canonKids p []).2 = p from rfl,
      List.nil_append]
    by_cases hp0 : p = []
    · have ht0 : t = [] := by
        rw [hp0] at hp
        have h12 := hp.symm
        rw [List.append_eq_nil] at h12
        obtain ⟨h12, _⟩ := h12
        rw [List.append_eq_nil] at h12
        exact h12.2
      rw [hp0, show emitText [] = [] from rfl, List.nil_append, parseSibs_close,
        if_pos rfl, ht0, if_pos rfl]
      simp
    · rw [emitText_of_ne hp0, List.singleton_append,
        parseSibs_step n a s { kind := .textT p, literal := p } _
          (fun m hm => by cases hm),
        parseNode_text p p ({ kind := .closeT n, literal := clit } :: tail)]
      dsimp only
      rw [parseSibs_close, if_pos rfl,
        show trimWS p = t from by rw [hp]; exact trimWS_pad h1 h2 ht]
      simp
  | .text ct :: cs, h, p, w1, t, w2, hp, h1, h2, ht, htx, n, a, s, clit, tail => by
    obtain ⟨hct_trim, hct_ne, _⟩ := cleanNode_text (cleanNodes_head h)
    have ht0 : t = [] := by
      by_contra hcon
      have hthead := htx hcon
      rw [show textHead (Node.text ct :: cs) = true from rfl] at hthead
      cases hthead
    have hpws : ∀ x ∈ p, isWSRust x = true := by
      intro x hx
      rw [hp, ht0] at hx
      simp only [List.append_nil, List.mem_append] at hx
      rcases hx with hx | hx
      · exact h1 x hx
      · exact h2 x hx
    have hw1' : ∀ x ∈ (p ++ [' '] : Str), isWSRust x = true := by
      intro x hx
      rcases List.mem_append.mp hx with hx | hx
      · exact hpws x hx
      · rw [List.mem_singleton] at hx
        subst hx
        rfl
    show parseSibs n a s ((canonKids ((p ++ [' ']) ++ ct) cs).1 ++
        (emitText (canonKids ((p ++ [' ']) ++ ct) cs).2 ++
          ({ kind := .closeT n, literal := clit } :: tail))) =
      .ok ([.tag n a ((s ++ (if t = ([] : Str) then [] else [Node.text t])) ++
        (.text ct :: cs))], tail)
    rw [parseSibs_canon cs (cleanNodes_tail h) ((p ++ [' ']) ++ ct) (p ++ [' ']) ct []
        (by simp) hw1' (fun x hx => absurd hx (List.not_mem_nil x)) hct_trim
        (fun _ => cleanNodes_text_next h) n a s clit tail]
    rw [ht0]
    simp [hct_ne]
  | .tag n2 a2 ch :: cs, h, p, w1, t, w2, hp, h1, h2, ht, htx, n, a, s, clit, tail => by
    obtain ⟨tk, r, hBr, hknc, hparse⟩ :=
      parseNode_canon (.tag n2 a2 ch) (cleanNodes_head h) (fun c2 hc2 => by cases hc2)
        ((canonKids [] cs).1 ++ (emitText (canonKids [] cs).2 ++
          ({ kind := .closeT n, literal := clit } :: tail)))
    have hw2' : ∀ x ∈ (w2 ++ [' '] : Str), isWSRust x = true := by
      intro x hx
      rcases List.mem_append.mp hx with hx | hx
      · exact h2 x hx
      · rw [List.mem_singleton] at hx
        subst hx
        rfl
    rw [show (canonKids p (.tag n2 a2 ch :: cs)).1 =
          (canonNode (p ++ [' ']) (.tag n2 a2 ch)).1 ++
            (canonKids ((canonNode (p ++ [' ']) (.tag n2 a2 ch)).2) cs).1 from rfl,
      show (canonKids p (.tag n2 a2 ch :: cs)).2 =
          (canonKids ((canonNode (p ++ [' ']) (.tag n2 a2 ch)).2) cs).2 from rfl,
      canonNode_tag_shift (p ++ [' ']) n2 a2 ch]
    dsimp only
    rw [emitText_of_ne (q := p ++ [' ']) (by simp), hBr]
    simp only [List.singleton_append, List.cons_append, List.append_assoc]
    rw [parseSibs_step n a s { kind := .textT (p ++ [' ']), literal := p ++ [' '] } _
        (fun m hm => by cases hm),
      parseNode_text (p ++ [' ']) (p ++ [' ']) _]
    dsimp only
    rw [List.nil_append]
    rw [parseSibs_step n a _ tk _ hknc, hparse]
    dsimp only
    rw [parseSibs_canon cs (cleanNodes_tail h) [] [] [] [] rfl
        (fun x hx => absurd hx (List.not_mem_nil x))
        (fun x hx => absurd hx (List.not_mem_nil x)) rfl
        (fun hcon => absurd rfl hcon) n a _ clit tail]
    rw [show trimWS (p ++ [' ']) = t from by
        rw [hp, show (((w1 ++ t) ++ w2 : Str) ++ [' ']) = (w1 ++ t) ++ (w2 ++ [' '])
          from by simp]
        exact trimWS_pad h1 hw2' ht]
    simp

end

/-! The top-level loop over the canonical stream. -/

theorem parseTop_canonRoots : ∀ (ks : List Node), cleanNodes ks = true →
    ∀ (p w1 t w2 : Str), p = (w1 ++ t) ++ w2 →
    (∀ x ∈ w1, isWSRust x = true) → (∀ x ∈ w2, isWSRust x = true) →
    trimWS t = t → (t ≠ [] → textHead ks = false) →
    ∀ (acc : List Node),
    parseTop acc (canonRoots p ks) =
      .ok ((acc ++ (if t = ([] : Str) then [] else [Node.text t])) ++ ks)
  | [], _, p, w1, t, w2, hp, h1, h2, ht, _, acc => by
    rw [show canonRoots p [] = emitText p from rfl]
    by_cases hp0 : p = []
    · have ht0 : t = [] := by
        rw [hp0] at hp
        have h12 := hp.symm
        rw [List.append_eq_nil] at h12
        obtain ⟨h12, _⟩ := h12
        rw [List.append_eq_nil] at h12
        exact h12.2
      rw [hp0, show emitText [] = [] from rfl, parseTop_nil, ht0, if_pos rfl]
      simp
    · rw [emitText_of_ne hp0, parseTop_cons, parseNode_text p p []]
      dsimp only
      rw [parseTop_nil,
        show trimWS p = t from by rw [hp]; exact trimWS_pad h1 h2 ht]
      simp
  | .text ct :: rest, h, p, w1, t, w2, hp, h1, h2, ht, htx, acc => by
    obtain ⟨hct_trim, hct_ne, _⟩ := cleanNode_text (cleanNodes_head h)
    have ht0 : t = [] := by
      by_contra hcon
      have hthead := htx hcon
      rw [show textHead (Node.text ct :: rest) = true from rfl] at hthead
      cases hthead
    have hpws : ∀ x ∈ p, isWSRust x = true := by
      intro x hx
      rw [hp, ht0] at hx
      simp only [List.append_nil, List.mem_append] at hx
      rcases hx with hx | hx
      · exact h1 x hx
      · exact h2 x hx
    show parseTop acc (canonRoots ((p ++ ct) ++ ['\n']) rest) =
      .ok ((acc ++ (if t = ([] : Str) then [] else [Node.text t])) ++ (.text ct :: rest))
    rw [parseTop_canonRoots rest (cleanNodes_tail h) ((p ++ ct) ++ ['\n']) p ct ['\n']
        rfl hpws
        (by intro x hx; rw [List.mem_singleton] at hx; subst hx; rfl) hct_trim
        (fun _ => cleanNodes_text_next h) acc]
    rw [ht0]
    simp [hct_ne]
  | .tag n2 a2 ch :: rest, h, p, w1, t, w2, hp, h1, h2, ht, htx, acc => by
    obtain ⟨tk, r, hBr, hknc, hparse⟩ :=
      parseNode_canon (.tag n2 a2 ch) (cleanNodes_head h) (fun c2 hc2 => by cases hc2)
        (canonRoots ([] ++ ['\n']) rest)
    rw [show canonRoots p (.tag n2 a2 ch :: rest) =
          (canonNode p (.tag n2 a2 ch)).1 ++
            canonRoots ((canonNode p (.tag n2 a2 ch)).2 ++ ['\n']) rest from rfl,
      canonNode_tag_shift p n2 a2 ch]
    dsimp only
    by_cases hp0 : p = []
    · have ht0 : t = [] := by
        rw [hp0] at hp
        have h12 := hp.symm
        rw [List.append_eq_nil] at h12
        obtain ⟨h12, _⟩ := h12
        rw [List.append_eq_nil] at h12
        exact h12.2
      rw [hp0, show emitText [] = [] from rfl, List.nil_append, hBr, List.cons_append,
        parseTop_cons, hparse]
      dsimp only
      rw [parseTop_canonRoots rest (cleanNodes_tail h) ([] ++ ['\n']) [] [] ['\n']
          (by simp) (fun x hx => absurd hx (List.not_mem_nil x))
          (by intro x hx; rw [List.mem_singleton] at hx; subst hx; rfl) rfl
          (fun hcon => absurd rfl hcon) (acc ++ [Node.tag n2 a2 ch])]
      rw [ht0]
      simp
    · rw [emitText_of_ne hp0, hBr]
      simp only [List.singleton_append, List.cons_append, List.append_assoc]
      rw [parseTop_cons, parseNode_text p p _]
      dsimp only
      rw [List.nil_append]
      rw [parseTop_cons, hparse]
      dsimp only
      rw [parseTop_canonRoots rest (cleanNodes_tail h) ([] ++ ['\n']) [] [] ['\n']
          (by simp) (fun x hx => absurd hx (List.not_mem_nil x))
          (by intro x hx; rw [List.mem_singleton] at hx; subst hx; rfl) rfl
          (fun hcon => absurd rfl hcon) _]
      rw [show trimWS p = t from by rw [hp]; exact trimWS_pad h1 h2 ht]
      simp

/-! Clean balanced streams are structurally well-formed. -/

theorem cleanItems_head {i : Item} {rest : List Item}
    (h : cleanItems (i :: rest) = true) : cleanItem i = true := by
  cases rest with
  | nil => exact h
  | cons j r =>
    rw [show cleanItems (i :: j :: r) =
          (cleanItem i && !(isTxtItem i && isTxtItem j) && cleanItems (j :: r)) from rfl,
      Bool.and_eq_true, Bool.and_eq_true] at h
    exact h.1.1

theorem cleanItems_tail {i : Item} {rest : List Item}
    (h : cleanItems (i :: rest) = true) : cleanItems rest = true := by
  cases rest with
  | nil => rfl
  | cons j r =>
    rw [show cleanItems (i :: j :: r) =
          (cleanItem i && !(isTxtItem i && isTxtItem j) && cleanItems (j :: r)) from rfl,
      Bool.and_eq_true, Bool.and_eq_true] at h
    exact h.2

mutual

theorem cleanItem_wf : ∀ (i : Item), cleanItem i = true → wfItem i = true
  | .txt _, _ => rfl
  | .tagE n a lit, h => by
    rw [show cleanItem (.tagE n a lit) =
          (cleanName n && cleanAttrList a && selfClosingLit lit) from rfl,
      Bool.and_eq_true] at h
    exact h.2
  | .tagC n a lit clit ch, h => by
    rw [show cleanItem (.tagC n a lit clit ch) =
          (cleanName n && cleanAttrList a && !selfClosingLit lit && cleanItems ch) from rfl,
      Bool.and_eq_true, Bool.and_eq_true] at h
    rw [show wfItem (.tagC n a lit clit ch) =
          (!selfClosingLit lit && wfItems ch) from rfl,
      Bool.and_eq_true]
    exact ⟨h.1.2, cleanItems_wf ch h.2⟩

theorem cleanItems_wf : ∀ (its : List Item), cleanItems its = true → wfItems its = true
  | [], _ => rfl
  | i :: rest, h => by
    rw [show wfItems (i :: rest) = (wfItem i && wfItems rest) from rfl, Bool.and_eq_true]
    exact ⟨cleanItem_wf i (cleanItems_head h), cleanItems_wf rest (cleanItems_tail h)⟩

end

/-! End-to-end: the canonical stream parses to its own forest. -/

theorem parseTokens_canonRoots {ks : List Node} (h : cleanNodes ks = true) :
    parseTokens (canonRoots [] ks) = .ok ⟨ks⟩ := by
  rw [parseTokens_eq, parseTop_canonRoots ks h [] [] [] [] rfl
      (fun x hx => absurd hx (List.not_mem_nil x))
      (fun x hx => absurd hx (List.not_mem_nil x)) rfl
      (fun hcon => absurd rfl hcon) []]
  simp

/-- C3: counterexample to the claim as stated. The input consisting of
`<t a!="">` followed by `</t>` has a balanced merged token stream and parses
to a single childless tag `t` with attribute name `a!`, but that tag renders
as `<t a!/>`, whose sole word `a!` fails the tag heuristic, so the rendered
output re-tokenizes as a text token and re-parsing yields a text node
instead of the original tag. -/
theorem c3_counterexample : ¬ ClaimC3 := by
  intro hclaim
  obtain ⟨nodes, hA, hB⟩ := hclaim
    ['<', 't', ' ', 'a', '!', '=', '"', '"', '>', '<', '/', 't', '>']
    [.tagC ['t'] [(['a', '!'], [])] ['<', 't', ' ', 'a', '!', '=', '"', '"', '>']
      ['<', '/', 't', '>'] []] rfl rfl
  have hcomp : parseTokens (mergedTokens
      ['<', 't', ' ', 'a', '!', '=', '"', '"', '>', '<', '/', 't', '>']) =
      .ok ⟨[Node.tag ['t'] [(['a', '!'], [])] []]⟩ := rfl
  rw [hcomp] at hA
  injection hA with hA2
  injection hA2 with hA3
  subst hA3
  have hcomp2 : parseTokens (mergedTokens
      (renderDom ⟨[Node.tag ['t'] [(['a', '!'], [])] []]⟩)) =
      .ok ⟨[Node.text ['<', 't', ' ', 'a', '!', '/', '>']]⟩ := rfl
  rw [hcomp2] at hB
  injection hB with hB2
  injection hB2 with hB3
  injection hB3 with hB4 hB5
  cases hB4

/-- C3 (amended): the round trip under cleanliness. If the merged token
stream of the input is balanced — text tokens, self-closing open tags, and
matched open/close pairs — and clean — tag and attribute names non-empty
alphabetic with distinct attribute names per tag, attribute values free of
whitespace, angle brackets, double quotes and equals signs, text content
free of angle brackets, and no two adjacent text items — then parsing
succeeds and re-parsing the rendered output returns exactly the same
tree. -/
theorem c3_amended_roundtrip (s : Str) (its : List Item)
    (h1 : mergedTokens s = itemsToks its) (h2 : cleanItems its = true) :
    ∃ nodes, parseTokens (mergedTokens s) = .ok ⟨nodes⟩ ∧
      parseTokens (mergedTokens (renderDom ⟨nodes⟩)) = .ok ⟨nodes⟩ := by
  refine ⟨itemsNodes its, ?_, ?_⟩
  · rw [h1, parseTokens_eq, itemsToks_parseTop its (cleanItems_wf its h2) []]
    simp
  · rw [show renderDom ⟨itemsNodes its⟩ = renderRoots (itemsNodes its) from rfl,
      mergedTokens_renderRoots (cleanItems_nodes its h2),
      parseTokens_canonRoots (cleanItems_nodes its h2)]

/-- C3 witness: the amended round trip at the concrete clean input
`<a>hi</a>`, whose stream is one matched pair around a text token. -/
theorem c3_amended_witness :
    mergedTokens ['<', 'a', '>', 'h', 'i', '<', '/', 'a', '>'] =
      itemsToks [.tagC ['a'] [] ['<', 'a', '>'] ['<', '/', 'a', '>'] [.txt ['h', 'i']]] ∧
    cleanItems [Item.tagC ['a'] [] ['<', 'a', '>'] ['<', '/', 'a', '>']
      [.txt ['h', 'i']]] = true ∧
    ∃ nodes, parseTokens (mergedTokens ['<', 'a', '>', 'h', 'i', '<', '/', 'a', '>']) =
        .ok ⟨nodes⟩ ∧
      parseTokens (mergedTokens (renderDom ⟨nodes⟩)) = .ok ⟨nodes⟩ :=
  ⟨rfl, rfl, c3_amended_roundtrip
    ['<', 'a', '>', 'h', 'i', '<', '/', 'a', '>']
    [.tagC ['a'] [] ['<', 'a', '>'] ['<', '/', 'a', '>'] [.txt ['h', 'i']]] rfl rfl⟩

end Inliner
